import Mathlib

/-!
Verification of the loss-of-support ("destekten yoksun kalma") calculation
engine.  The Python sources are embedded shallowly: floats are modelled as
exact rationals (`ℚ`), `datetime.date` as a year/month/day record over `ℤ`
with proleptic-Gregorian day arithmetic, Python `dict`s as association lists
with distinct keys, and fallible code (date construction inside the year
loop can raise `ValueError` in Python) as `Except`.
-/

namespace DYK

/-- Python `round(x)` / `round(x, n)` rounds half to even (banker's
rounding).  `pyRound q` is the nearest integer to `q`, ties to even. -/
def pyRound (q : ℚ) : ℤ :=
  let f : ℤ := ⌊q⌋
  let r : ℚ := q - f
  if r < 1/2 then f
  else if r > 1/2 then f + 1
  else if f % 2 = 0 then f else f + 1

/-- Python `round(x, 2)`: round half-to-even at two decimal places. -/
def pyRound2 (q : ℚ) : ℚ :=
  (pyRound (q * 100) : ℚ) / 100

/-- Python `int(x)` on a float: truncation toward zero. -/
def pyInt (q : ℚ) : ℤ :=
  if 0 ≤ q then ⌊q⌋ else -⌊-q⌋

/-- A calendar date, as Python's `datetime.date` (year, month, day). -/
structure Date where
  y : ℤ
  m : ℤ
  d : ℤ
deriving DecidableEq, Repr

/-- Gregorian leap-year test. -/
def isLeap (y : ℤ) : Bool :=
  y % 4 = 0 ∧ (y % 100 ≠ 0 ∨ y % 400 = 0)

/-- Number of days in a month of a given year. -/
def daysInMonth (y m : ℤ) : ℤ :=
  if m = 2 then (if isLeap y then 29 else 28)
  else if m = 4 ∨ m = 6 ∨ m = 9 ∨ m = 11 then 30
  else 31

/-- A (year, month, day) triple that Python's `date` constructor accepts:
year in 1..9999, month in 1..12, day in 1..days-of-month. -/
def Date.Valid (dt : Date) : Prop :=
  1 ≤ dt.y ∧ dt.y ≤ 9999 ∧
  1 ≤ dt.m ∧ dt.m ≤ 12 ∧ 1 ≤ dt.d ∧ dt.d ≤ daysInMonth dt.y dt.m

instance (dt : Date) : Decidable dt.Valid := by
  unfold Date.Valid; infer_instance

/-- Rata-die day number of a date (days_from_civil; proleptic Gregorian,
1970-01-01 = 0).  All intermediate quantities are nonnegative for the
years the program handles, so `Int` division behaves like C truncation. -/
def Date.toDays (dt : Date) : ℤ :=
  let y' : ℤ := if dt.m ≤ 2 then dt.y - 1 else dt.y
  let era : ℤ := (if 0 ≤ y' then y' else y' - 399) / 400
  let yoe : ℤ := y' - era * 400
  let mp : ℤ := (dt.m + 9) % 12
  let doy : ℤ := (153 * mp + 2) / 5 + dt.d - 1
  let doe : ℤ := yoe * 365 + yoe / 4 - yoe / 100 + doy
  era * 146097 + doe - 719468

/-- Inverse of `Date.toDays` (civil_from_days). -/
def Date.ofDays (z0 : ℤ) : Date :=
  let z : ℤ := z0 + 719468
  let era : ℤ := (if 0 ≤ z then z else z - 146096) / 146097
  let doe : ℤ := z - era * 146097
  let yoe : ℤ := (doe - doe / 1460 + doe / 36524 - doe / 146096) / 365
  let y : ℤ := yoe + era * 400
  let doy : ℤ := doe - (365 * yoe + yoe / 4 - yoe / 100)
  let mp : ℤ := (5 * doy + 2) / 153
  let d : ℤ := doy - (153 * mp + 2) / 5 + 1
  let m : ℤ := mp + (if mp < 10 then 3 else -9)
  ⟨y + (if m ≤ 2 then 1 else 0), m, d⟩

/-- `d + timedelta(days = n)`.  Totalised: Python raises `OverflowError`
when the result leaves 0001-01-01..9999-12-31, whereas this model
continues with the out-of-range civil triple.  Theorems about the program
completing must therefore not rely on this operation staying in range. -/
def Date.addDays (dt : Date) (n : ℤ) : Date :=
  Date.ofDays (dt.toDays + n)

/-- `(a - b).days`. -/
def Date.sub (a b : Date) : ℤ :=
  a.toDays - b.toDays

/-- Python date comparison (valid dates compare lexicographically on
(year, month, day)). -/
def Date.blt (a b : Date) : Bool :=
  a.y < b.y ∨ (a.y = b.y ∧ (a.m < b.m ∨ (a.m = b.m ∧ a.d < b.d)))

def Date.ble (a b : Date) : Bool :=
  a.blt b ∨ a = b

/-- Python `min(a, b)` on dates. -/
def dmin (a b : Date) : Date :=
  if b.blt a then b else a

/-- Python `max(a, b)` on dates. -/
def dmax (a b : Date) : Date :=
  if a.blt b then b else a

/-! ### Python dicts

Python `dict`s keyed by strings are modelled as association lists in
insertion order.  `dSet` is `d[k] = v` (replace in place or append),
`dFind?` is `d.get(k)`, `dGet` is `d.get(k, 0.0)`, `dSum` is
`sum(d.values())`, `dKeys` is `list(d.keys())`.  Keys of a dict built by
`dSet` are automatically distinct, as in Python. -/

abbrev Dict (α : Type) := List (String × α)

def dFind? {α : Type} : Dict α → String → Option α
  | [], _ => none
  | (k', v) :: t, k => if k' = k then some v else dFind? t k

def dGet (d : Dict ℚ) (k : String) : ℚ :=
  (dFind? d k).getD 0

/-- `dep_intervals.get(name)`: both a missing key and a stored `None`
read as `none`. -/
def dGetI (d : Dict (Option (Date × Date))) (k : String) : Option (Date × Date) :=
  (dFind? d k).getD none

def dSet {α : Type} : Dict α → String → α → Dict α
  | [], k, v => [(k, v)]
  | (k', v') :: t, k, v => if k' = k then (k', v) :: t else (k', v') :: dSet t k v

def dKeys {α : Type} (d : Dict α) : List String :=
  d.map Prod.fst

def dSum (d : Dict ℚ) : ℚ :=
  (d.map Prod.snd).sum

def dHas {α : Type} (d : Dict α) (k : String) : Bool :=
  (dFind? d k).isSome

/-- `sum(d.get(k, 0.0) for k in ks)`. -/
def sumKeys (d : Dict ℚ) (ks : List String) : ℚ :=
  (ks.map (fun k => dGet d k)).sum

/-- Remove the first entry with key `k` (proof tool; not a Python
operation). -/
def dErase {α : Type} : Dict α → String → Dict α
  | [], _ => []
  | (k', v) :: t, k => if k' = k then t else (k', v) :: dErase t k

/-! ### Data model (`models.py`) -/

inductive Gender
  | MALE
  | FEMALE
deriving DecidableEq, Repr

inductive LifeTableType
  | TRH2010
  | PMF1931
deriving DecidableEq, Repr

inductive IncomeMode
  | ASGARI
  | MANUAL
deriving DecidableEq, Repr

/-- `PassiveIncomeType`; the source's second constructor is named
`PASSIVE_RATIO` (the passive income is a ratio of the active income). -/
inductive PassiveIncomeType
  | PASSIVE_MIN_WAGE
  | PASSIVE_RATIO_OF_ACTIVE
deriving DecidableEq, Repr

inductive SGKDeductionType
  | NONE
  | HALF
  | FULL
deriving DecidableEq, Repr

inductive ProfileType
  | YARGITAY
  | EXPERT
deriving DecidableEq, Repr

inductive DependentType
  | SPOUSE
  | CHILD
  | MOTHER
  | FATHER
  | OTHER
deriving DecidableEq, Repr

structure Person where
  name : String
  birth : Date
  gender : Gender
deriving DecidableEq, Repr

structure Dependent where
  person : Person
  dep_type : DependentType
  is_student : Bool
  reduced_share : Bool
  apply_marriage_discount : Bool
  has_income : Bool
  custom_support_years : Option ℚ
  custom_exit_date : Option Date
deriving DecidableEq, Repr

structure CalculationInput where
  olay_tarihi : Date
  hesap_tarihi : Date
  destek : Person
  income_mode : IncomeMode
  monthly_income : ℚ
  regular_extra_income : ℚ
  life_table : LifeTableType
  active_start_age : ℤ
  active_end_age : ℤ
  passive_income_type : PassiveIncomeType
  passive_ratio : ℚ
  child_support_age_male : ℤ
  child_support_age_female_non_student : ℤ
  child_support_age_student : ℤ
  report_discount_rate : ℚ
  use_progresif : Bool
  technical_interest : ℚ
  separate_parent_pool : Bool
  parent_share_cap_25_enabled : Bool
  sgk_monthly_income : ℚ
  sgk_deduction_type : SGKDeductionType
  sgk_psd_factor : ℚ
  fault_rate : ℚ
  apply_ayim : Bool
  training_enabled : Bool
  training_rate : ℚ
  training_base_monthly : ℚ
  mother_working : Bool
  father_working : Bool
  military_enabled : Bool
  military_start_age : ℤ
  military_duration_months : ℤ
  assume_marriage_if_single : Bool
  assumed_marriage_age : ℤ
  assumed_child1_after_years : ℤ
  assumed_child2_after_years : ℤ
  assumed_spouse_has_income : Bool
  agi_use_family_status : Bool
  profile : ProfileType
  dependents : List Dependent

structure YearRow where
  year : ℤ
  age_supporter : ℤ
  period_type : String
  gross_support : ℚ
  present_value : ℚ
  shares : Dict ℚ
deriving DecidableEq, Repr

/-! ### Wage provider (`wages.py`) -/

structure WagePeriod where
  start : Date
  stop : Date
  gross_monthly : ℚ
deriving DecidableEq, Repr

/-- `MIN_WAGE_PERIODS` (the source's `end` key is `stop` here). -/
def MIN_WAGE_PERIODS : List WagePeriod :=
  [ ⟨⟨2016, 1, 1⟩, ⟨2017, 1, 1⟩, (1647 : ℚ)⟩,
    ⟨⟨2017, 1, 1⟩, ⟨2018, 1, 1⟩, (3555/2 : ℚ)⟩,
    ⟨⟨2018, 1, 1⟩, ⟨2019, 1, 1⟩, (4059/2 : ℚ)⟩,
    ⟨⟨2019, 1, 1⟩, ⟨2020, 1, 1⟩, (12792/5 : ℚ)⟩,
    ⟨⟨2020, 1, 1⟩, ⟨2021, 1, 1⟩, (2943 : ℚ)⟩,
    ⟨⟨2021, 1, 1⟩, ⟨2022, 1, 1⟩, (7155/2 : ℚ)⟩,
    ⟨⟨2022, 1, 1⟩, ⟨2022, 7, 1⟩, (5004 : ℚ)⟩,
    ⟨⟨2022, 7, 1⟩, ⟨2023, 1, 1⟩, (6471 : ℚ)⟩,
    ⟨⟨2023, 1, 1⟩, ⟨2023, 7, 1⟩, (10008 : ℚ)⟩,
    ⟨⟨2023, 7, 1⟩, ⟨2024, 1, 1⟩, (26829/2 : ℚ)⟩,
    ⟨⟨2024, 1, 1⟩, ⟨2025, 1, 1⟩, (40005/2 : ℚ)⟩,
    ⟨⟨2025, 1, 1⟩, ⟨2100, 1, 1⟩, (52011/2 : ℚ)⟩ ]

/-- `get_min_wage_gross`: first period containing the date, else the last
period's wage (`MIN_WAGE_PERIODS[-1]`). -/
def get_min_wage_gross (dt : Date) : ℚ :=
  match MIN_WAGE_PERIODS.find? (fun p => p.start.ble dt && dt.blt p.stop) with
  | some p => p.gross_monthly
  | none => ((MIN_WAGE_PERIODS.getLast?).map WagePeriod.gross_monthly).getD 0

/-- `compute_agi`: the family allowance (AGİ). -/
def compute_agi (dt : Date) (married spouse_has_income : Bool)
    (child_count : ℤ) : ℚ :=
  if dt.y < 2008 ∨ 2022 ≤ dt.y then 0
  else
    let brut := get_min_wage_gross dt
    let oran : ℚ := 1/2
    let oran := if married ∧ ¬spouse_has_income then oran + 1/10 else oran
    let oran := if 1 ≤ child_count then oran + 3/40 else oran
    let oran := if 2 ≤ child_count then oran + 3/40 else oran
    let oran := if 3 ≤ child_count then oran + 1/10 else oran
    let oran := if 4 ≤ child_count then oran + 1/20 else oran
    let oran := if 5 ≤ child_count then oran + 1/20 else oran
    let agi_yillik := brut * oran * (3/20)
    let agi_aylik := agi_yillik / 12
    pyRound2 agi_aylik

/-- `get_min_wage_net` (the Python defaults `married=False`,
`spouse_has_income=False`, `child_count=0` are passed explicitly at call
sites). -/
def get_min_wage_net (dt : Date) (use_agi married spouse_has_income : Bool)
    (child_count : ℤ) : ℚ :=
  let brut := get_min_wage_gross dt
  let sgk_emp := brut * (7/50)
  let ui_emp := brut * (1/100)
  let vergi_matrah := brut - sgk_emp - ui_emp
  if 2022 ≤ dt.y then
    pyRound2 (brut - sgk_emp - ui_emp)
  else
    let gv_rate : ℚ := 3/20
    let dv_rate : ℚ := 759/100000
    let gelir_vergisi := vergi_matrah * gv_rate
    let damga := brut * dv_rate
    let agi := if use_agi then compute_agi dt married spouse_has_income child_count else 0
    let odenen_gv := max 0 (gelir_vergisi - agi)
    pyRound2 (brut - sgk_emp - ui_emp - odenen_gv - damga)

/-! ### Life-expectancy provider (`life_tables.py`)

The repository snapshot contains no `data/trh2010.csv` / `data/pmf1931.csv`
files, so `_load_table` takes its documented synthetic-fallback branch:
base expectancy 78 (TRH 2010) or 70 (PMF 1931) at age 0, else
`max 0 (base - age)`, with `+3` for females.  Ages clamped to `[0, 110]`
always hit an exact table entry, so the nearest-age search never runs. -/

def get_life_expectancy (age : ℤ) (table_type : LifeTableType)
    (gender : Gender) : ℚ :=
  let age := if age < 0 then 0 else age
  let age := if 110 < age then 110 else age
  let base : ℚ :=
    match table_type with
    | .TRH2010 => if age = 0 then 78 else max 0 (78 - (age : ℚ))
    | .PMF1931 => if age = 0 then 70 else max 0 (70 - (age : ℚ))
  match gender with
  | .MALE => base
  | .FEMALE => base + 3

/-! ### Remarriage-probability table (`ayim.py`) -/

/-- `_ayim_base_rate`. -/
def ayim_base_rate (age : ℤ) (gender : Gender) : ℚ :=
  match gender with
  | .FEMALE =>
    if 17 ≤ age ∧ age ≤ 20 then 52
    else if 21 ≤ age ∧ age ≤ 25 then 40
    else if 26 ≤ age ∧ age ≤ 30 then 27
    else if 31 ≤ age ∧ age ≤ 35 then 17
    else if 36 ≤ age ∧ age ≤ 40 then 9
    else if 41 ≤ age ∧ age ≤ 50 then 2
    else if 51 ≤ age ∧ age ≤ 55 then 1
    else 0
  | .MALE =>
    if 17 ≤ age ∧ age ≤ 20 then 90
    else if 21 ≤ age ∧ age ≤ 25 then 70
    else if 26 ≤ age ∧ age ≤ 30 then 48
    else if 31 ≤ age ∧ age ≤ 35 then 30
    else if 36 ≤ age ∧ age ≤ 40 then 15
    else if 41 ≤ age ∧ age ≤ 50 then 4
    else if 51 ≤ age ∧ age ≤ 55 then 2
    else 0

def get_marriage_discount_factor (age : ℤ) (gender : Gender)
    (child_under18_count : ℤ) : ℚ :=
  let base := ayim_base_rate age gender
  let adj := base - 5 * (child_under18_count : ℚ)
  let adj := if adj < 0 then 0 else adj
  1 - adj / 100

/-! ### SGK capital value (`sgk.py`) -/

def compute_sgk_psd (ci : CalculationInput) : ℚ :=
  if ci.sgk_monthly_income ≤ 0 then 0
  else ci.sgk_monthly_income * 12 * ci.sgk_psd_factor

/-! ### Share weights (`sharing.py`) -/

/-- The key under which the supporter's own consumption share is stored. -/
def destekKey : String := "destek"

/-- `base_shares`: the 2-1-1 base weights.  The dict starts with
`shares["destek"] = 2.0` and then assigns one entry per dependent. -/
def base_shares (ci : CalculationInput) : Dict ℚ :=
  ci.dependents.foldl
    (fun shares d =>
      match d.dep_type with
      | .SPOUSE => dSet shares d.person.name 2
      | .CHILD => dSet shares d.person.name 1
      | .MOTHER | .FATHER =>
        dSet shares d.person.name (if d.reduced_share then 1/2 else 1)
      | .OTHER => dSet shares d.person.name 1)
    (dSet [] destekKey 2)

/-- `parent_names`. -/
def parent_names (ci : CalculationInput) : List String :=
  ci.dependents.filterMap
    (fun d =>
      if d.dep_type = .MOTHER ∨ d.dep_type = .FATHER then some d.person.name
      else none)

/-- The base weight `base_shares` assigns to one dependent (proof tool:
the per-type values of the fold above). -/
def base_weight (d : Dependent) : ℚ :=
  match d.dep_type with
  | .SPOUSE => 2
  | .CHILD => 1
  | .MOTHER => if d.reduced_share then 1/2 else 1
  | .FATHER => if d.reduced_share then 1/2 else 1
  | .OTHER => 1

/-- `normalize_shares`. -/
def normalize_shares (shares : Dict ℚ) : Dict ℚ :=
  let total := dSum shares
  if total ≤ 0 then shares.map (fun p => (p.1, (0 : ℚ)))
  else shares.map (fun p => (p.1, p.2 / total))

/-! ### Income (`income.py`) -/

/-- `_family_status_for_agi`: (spouse exists, spouse has income, child
count) for the AGİ computation at date `dt`.  The raw ages here use the
source's unclamped `(dt - birth).days / 365.25`. -/
def family_status_for_agi (ci : CalculationInput) (dt : Date) :
    Bool × Bool × ℤ :=
  let spouse_exists := ci.dependents.any (fun d => decide (d.dep_type = .SPOUSE))
  let spouse_has_income :=
    ci.dependents.foldl
      (fun acc d => if d.dep_type = .SPOUSE then d.has_income else acc) false
  let age : ℚ := ((dt.sub ci.destek.birth : ℤ) : ℚ) / (1461/4)
  let (spouse_exists, spouse_has_income) :=
    if ¬spouse_exists ∧ ci.assume_marriage_if_single ∧
        (ci.assumed_marriage_age : ℚ) ≤ age then
      (true, ci.assumed_spouse_has_income)
    else (spouse_exists, spouse_has_income)
  let child_count : ℤ :=
    ci.dependents.foldl
      (fun n d =>
        if d.dep_type = .CHILD ∧
            ((dt.sub d.person.birth : ℤ) : ℚ) / (1461/4) < 18 then n + 1
        else n) 0
  let child_count :=
    if ci.assume_marriage_if_single then
      let child1_age := age - ((ci.assumed_marriage_age + ci.assumed_child1_after_years : ℤ) : ℚ)
      let child_count := if 0 ≤ child1_age ∧ child1_age < 18 then child_count + 1 else child_count
      let child2_age := age - ((ci.assumed_marriage_age + ci.assumed_child2_after_years : ℤ) : ℚ)
      if 0 ≤ child2_age ∧ child2_age < 18 then child_count + 1 else child_count
    else child_count
  (spouse_exists, spouse_has_income, child_count)

/-- `calculate_monthly_income`. -/
def calculate_monthly_income (ci : CalculationInput) (dt : Date) : ℚ :=
  if ci.income_mode = .ASGARI then
    let fs := family_status_for_agi ci dt
    get_min_wage_net dt ci.agi_use_family_status fs.1 fs.2.1 fs.2.2
  else ci.monthly_income + ci.regular_extra_income

/-! ### Calculator (`calculator.py`) -/

inductive ValidationError
  | hesapBeforeOlay
  | destekBirthNotBeforeOlay
  | faultRateOutOfRange
  | negativeReportDiscount
  | negativeTechnicalInterest
deriving DecidableEq, Repr

/-- `_validate_input`: the first violated check, in source order. -/
def validate_input (ci : CalculationInput) : Option ValidationError :=
  if ci.hesap_tarihi.blt ci.olay_tarihi then some .hesapBeforeOlay
  else if ci.olay_tarihi.ble ci.destek.birth then some .destekBirthNotBeforeOlay
  else if ¬(0 ≤ ci.fault_rate ∧ ci.fault_rate ≤ 100) then some .faultRateOutOfRange
  else if ci.report_discount_rate < 0 then some .negativeReportDiscount
  else if ci.technical_interest < 0 then some .negativeTechnicalInterest
  else none

/-- `_age_of`: fractional age in years, clamped below at 0. -/
def age_of (birth ref : Date) : ℚ :=
  max 0 (((ref.sub birth : ℤ) : ℚ) / (1461/4))

/-- `_int_age_on`: classic whole-year calendar age. -/
def int_age_on (birth ref : Date) : ℤ :=
  let age := ref.y - birth.y
  if ref.m < birth.m ∨ (ref.m = birth.m ∧ ref.d < birth.d) then age - 1
  else age

/-- Python `d.replace(year = y2)` as used by `_add_years`: on `ValueError`
for Feb 29 mapped to a non-leap year the source falls back to
`d.replace(month=2, day=28, year=y2)`.  Totalised: when `y2` itself lies
outside 1..9999 Python's `replace` raises in the `try` AND in the
fallback, and the `ValueError` propagates out of `compute_support`; this
model instead continues with the out-of-range triple, so it cannot
faithfully assert that the program completes on such inputs. -/
def replace_year (d : Date) (y2 : ℤ) : Date :=
  if (Date.mk y2 d.m d.d).Valid then ⟨y2, d.m, d.d⟩ else ⟨y2, 2, 28⟩

/-- `_add_years`: whole years via `replace`, then the fractional remainder
rounded to days at 365.25 days/year. -/
def add_years (d : Date) (years : ℚ) : Date :=
  let int_years := pyInt years
  let frac_years := years - (int_years : ℚ)
  let d2 := replace_year d (d.y + int_years)
  d2.addDays (pyRound (frac_years * (1461/4)))

/-- `_expected_death_date`. -/
def expected_death_date (birth : Date) (gender : Gender)
    (ci : CalculationInput) : Date :=
  let age_at_hesap := age_of birth ci.hesap_tarihi
  let le_years := get_life_expectancy (pyInt age_at_hesap) ci.life_table gender
  add_years ci.hesap_tarihi le_years

/-- `_overlap_days` on half-open intervals. -/
def overlap_days (start1 end1 start2 end2 : Date) : ℤ :=
  let s := dmax start1 start2
  let e := dmin end1 end2
  if e.ble s then 0 else e.sub s

/-- `date(year, ci.olay_tarihi.month, ci.olay_tarihi.day)`: Python raises
`ValueError` when the triple is not a real date (for a valid incident date
this happens exactly for Feb 29 in a non-leap year). -/
def anniv (ci : CalculationInput) (year : ℤ) : Option Date :=
  if (Date.mk year ci.olay_tarihi.m ci.olay_tarihi.d).Valid then
    some ⟨year, ci.olay_tarihi.m, ci.olay_tarihi.d⟩
  else none

/-- `_yearly_support`: the full-year support for `year`; `none` when the
anniversary date cannot be constructed. -/
def yearly_support (ci : CalculationInput) (year : ℤ) : Option ℚ :=
  (anniv ci year).map (fun dt =>
    let age := age_of ci.destek.birth dt
    if ci.military_enabled ∧ ci.destek.gender = .MALE ∧
        (ci.military_start_age : ℚ) ≤ age ∧
        age < (ci.military_start_age : ℚ) + (ci.military_duration_months : ℚ) / 12 then
      0
    else if age < (ci.active_start_age : ℚ) then 0
    else if age ≤ (ci.active_end_age : ℚ) then
      calculate_monthly_income ci dt * 12
    else if ci.passive_income_type = .PASSIVE_MIN_WAGE then
      get_min_wage_net dt false false false 0 * 12
    else calculate_monthly_income ci dt * 12 * ci.passive_ratio)

/-- `_period_type`, given the already-constructed anniversary date. -/
def period_type_label (ci : CalculationInput) (ref_date : Date) : String :=
  if ref_date.blt ci.hesap_tarihi then "Geçmiş"
  else if age_of ci.destek.birth ref_date ≤ (ci.active_end_age : ℚ) then
    "Gelecek Aktif"
  else "Gelecek Pasif"

def INF_DATE : Date := ⟨9999, 12, 31⟩

def labelSpouse : String := "Varsayılan Eş"

def labelChild1 : String := "Varsayılan Çocuk 1"

def labelChild2 : String := "Varsayılan Çocuk 2"

/-- Step 2 of `compute_support`, per dependent: the support interval
`[max(olay, birth), min(death, child_limit, custom_exit, supporter_end))`,
`none` when empty. -/
def dependent_interval (ci : CalculationInput) (supporter_end : Date)
    (d : Dependent) : Option (Date × Date) :=
  let death_date := expected_death_date d.person.birth d.person.gender ci
  let start := dmax ci.olay_tarihi d.person.birth
  let child_limit :=
    if d.dep_type = .CHILD then
      let years : ℚ :=
        match d.custom_support_years with
        | some y => y
        | none =>
          if d.is_student then (ci.child_support_age_student : ℚ)
          else if d.person.gender = .FEMALE then
            (ci.child_support_age_female_non_student : ℚ)
          else (ci.child_support_age_male : ℚ)
      add_years d.person.birth years
    else INF_DATE
  let custom_exit := d.custom_exit_date.getD INF_DATE
  let stop := dmin (dmin (dmin death_date child_limit) custom_exit) supporter_end
  if stop.ble start then none else some (start, stop)

/-- The `dep_intervals` dict (keyed by dependent name; a later dependent
with the same name overwrites, as a Python dict assignment does). -/
def dep_intervals_of (ci : CalculationInput) (supporter_end : Date) :
    Dict (Option (Date × Date)) :=
  ci.dependents.foldl
    (fun acc d => dSet acc d.person.name (dependent_interval ci supporter_end d)) []

/-- Step 3 of `compute_support`: virtual spouse / children intervals (and
the virtual children's birth dates) for the bachelor hypothesis. -/
def virtuals_of (ci : CalculationInput) (supporter_end : Date) :
    Dict (Date × Date) × Dict Date :=
  let has_real_spouse := ci.dependents.any (fun d => decide (d.dep_type = .SPOUSE))
  if ci.assume_marriage_if_single ∧ ¬has_real_spouse then
    let marriage_date := add_years ci.destek.birth (ci.assumed_marriage_age : ℚ)
    if marriage_date.blt supporter_end then
      let vs_start := dmax ci.olay_tarihi marriage_date
      let vs_end := supporter_end
      let vi : Dict (Date × Date) :=
        if vs_start.blt vs_end then dSet [] labelSpouse (vs_start, vs_end) else []
      let child1_birth :=
        add_years ci.destek.birth
          ((ci.assumed_marriage_age + ci.assumed_child1_after_years : ℤ) : ℚ)
      let child2_birth :=
        add_years ci.destek.birth
          ((ci.assumed_marriage_age + ci.assumed_child2_after_years : ℤ) : ℚ)
      let step := fun (acc : Dict (Date × Date) × Dict Date) (label : String) (birth : Date) =>
        let stop := dmin (add_years birth (ci.child_support_age_male : ℚ)) supporter_end
        let start := dmax ci.olay_tarihi birth
        if start.blt stop then
          (dSet acc.1 label (start, stop), dSet acc.2 label birth)
        else acc
      step (step (vi, []) labelChild1 child1_birth) labelChild2 child2_birth
    else ([], [])
  else ([], [])

/-- Everything `compute_support` fixes before the year loop (steps 1-4). -/
structure YearCtx where
  ci : CalculationInput
  supporter_start : Date
  supporter_end : Date
  dep_intervals : Dict (Option (Date × Date))
  virtual_intervals : Dict (Date × Date)
  virtual_children_birth : Dict Date
  base : Dict ℚ
  parents : List String
  parent_fraction : ℚ

def mkYearCtx (ci : CalculationInput) : YearCtx :=
  let supporter_start := ci.olay_tarihi
  let supporter_end := expected_death_date ci.destek.birth ci.destek.gender ci
  let dep_intervals := dep_intervals_of ci supporter_end
  let virt := virtuals_of ci supporter_end
  let base := base_shares ci
  let parents := parent_names ci
  let total_base := dSum base
  let parent_base_total := (parents.map (fun p => dGet base p)).sum
  let parent_fraction :=
    if 0 < total_base ∧ 0 < parent_base_total then parent_base_total / total_base
    else 0
  ⟨ci, supporter_start, supporter_end, dep_intervals, virt.1, virt.2, base,
   parents, parent_fraction⟩

/-- Step 5.a's `has_spouse_or_child`: some real spouse / child dependent,
or some virtual party, has an interval overlapping the year. -/
def spouse_or_child_active (ctx : YearCtx) (year_start year_end : Date) : Bool :=
  ctx.ci.dependents.any (fun d =>
    (decide (d.dep_type = .SPOUSE) || decide (d.dep_type = .CHILD)) &&
    (match dGetI ctx.dep_intervals d.person.name with
     | none => false
     | some i => decide (0 < overlap_days i.1 i.2 year_start year_end)))
  || ctx.virtual_intervals.any
      (fun p => decide (0 < overlap_days p.2.1 p.2.2 year_start year_end))

/-- One parent's day-weighted weight for the year (0 when inactive). -/
def parent_weight (ctx : YearCtx) (year_start year_end : Date)
    (days_in_year : ℤ) (p : String) : ℚ :=
  match dGetI ctx.dep_intervals p with
  | none => 0
  | some i =>
    dGet ctx.base p *
      ((overlap_days i.1 i.2 year_start year_end : ℚ) / (days_in_year : ℚ))

/-- Whether a parent has an interval overlapping the year. -/
def parent_active (ctx : YearCtx) (year_start year_end : Date)
    (p : String) : Bool :=
  match dGetI ctx.dep_intervals p with
  | none => false
  | some i => decide (0 < overlap_days i.1 i.2 year_start year_end)

/-- The `active_parents` / `parent_weights` accumulation loop of step
5.a. -/
def parent_weights_fold (ctx : YearCtx) (year_start year_end : Date)
    (days_in_year : ℤ) : List String × Dict ℚ :=
  ctx.parents.foldl
    (fun (acc : List String × Dict ℚ) p =>
      match dGetI ctx.dep_intervals p with
      | none => acc
      | some i =>
        let pdays := overlap_days i.1 i.2 year_start year_end
        if pdays ≤ 0 then acc
        else
          (acc.1 ++ [p],
           dSet acc.2 p (dGet ctx.base p * ((pdays : ℚ) / (days_in_year : ℚ)))))
    ([], [])

/-- Step 5.a: the separate parent pool — (parent amounts, capped parent
total) for one year. -/
def parent_pool (ctx : YearCtx) (year_start year_end : Date)
    (days_in_year : ℤ) (pv_year : ℚ) : Dict ℚ × ℚ :=
  if ctx.ci.separate_parent_pool then
    let apw := parent_weights_fold ctx year_start year_end days_in_year
    let active_parents := apw.1
    let parent_weights := apw.2
    if active_parents ≠ [] ∧ 0 < ctx.parent_fraction then
      let parent_total0 := pv_year * ctx.parent_fraction
      let has_spouse_or_child := spouse_or_child_active ctx year_start year_end
      let parent_total :=
        if ctx.ci.parent_share_cap_25_enabled ∧ has_spouse_or_child ∧
            pv_year * (1/4) < parent_total0 then
          pv_year * (1/4)
        else parent_total0
      match active_parents with
      | [p] => (dSet [] p parent_total, parent_total)
      | _ =>
        let wsum0 := dSum parent_weights
        let wsum := if wsum0 = 0 then 1 else wsum0
        (active_parents.foldl
          (fun acc p => dSet acc p (parent_total * (dGet parent_weights p / wsum))) [],
         parent_total)
    else ([], 0)
  else ([], 0)

/-- One real dependent's contribution to the step-5.b weight dict. -/
def npw_dep_step (ctx : YearCtx) (year_start year_end : Date)
    (days_in_year : ℤ) (acc : Dict ℚ) (d : Dependent) : Dict ℚ :=
  match dGetI ctx.dep_intervals d.person.name with
  | none => acc
  | some i =>
    let ddays := overlap_days i.1 i.2 year_start year_end
    if ddays ≤ 0 then acc
    else
      let frac := (ddays : ℚ) / (days_in_year : ℚ)
      match d.dep_type with
      | .SPOUSE => dSet acc d.person.name (dGet acc d.person.name + 2 * frac)
      | .CHILD => dSet acc d.person.name (dGet acc d.person.name + 1 * frac)
      | .MOTHER | .FATHER =>
        if ¬ctx.ci.separate_parent_pool then
          let base_w : ℚ := if d.reduced_share then 1/2 else 1
          dSet acc d.person.name (dGet acc d.person.name + base_w * frac)
        else acc
      | .OTHER => acc

/-- One virtual party's contribution to the step-5.b weight dict. -/
def npw_virt_step (year_start year_end : Date) (days_in_year : ℤ)
    (acc : Dict ℚ) (p : String × (Date × Date)) : Dict ℚ :=
  let ddays := overlap_days p.2.1 p.2.2 year_start year_end
  if ddays ≤ 0 then acc
  else
    let frac := (ddays : ℚ) / (days_in_year : ℚ)
    let w : ℚ := if p.1 = labelSpouse then 2 * frac else 1 * frac
    dSet acc p.1 (dGet acc p.1 + w)

/-- Step 5.b: day-weighted weights of the supporter, the real non-parent
dependents (and the parents too when the pool is not separated), and the
virtual spouse / children. -/
def non_parent_weights_of (ctx : YearCtx) (year_start year_end : Date)
    (days_in_year : ℤ) (fraction_supporter : ℚ) : Dict ℚ :=
  let w0 := dSet [] destekKey (2 * fraction_supporter)
  let w1 :=
    ctx.ci.dependents.foldl (npw_dep_step ctx year_start year_end days_in_year) w0
  ctx.virtual_intervals.foldl (npw_virt_step year_start year_end days_in_year) w1

/-- Step 5.b-2: in single-pool mode, cap the parents' combined amount at
25% of the present value and rescale the others proportionally. -/
def cap_correction_single_pool (ci : CalculationInput) (parents : List String)
    (pv_year : ℚ) (shares : Dict ℚ) : Dict ℚ :=
  if ¬ci.separate_parent_pool ∧ ci.parent_share_cap_25_enabled then
    let parent_sum := (parents.map (fun p => dGet shares p)).sum
    let other_names := (dKeys shares).filter (fun n => decide (¬(n ∈ parents)))
    let others_sum := (other_names.map (fun n => dGet shares n)).sum
    if 0 < parent_sum ∧ 0 < others_sum then
      let max_parent_total := pv_year * (1/4)
      if max_parent_total + (1/1000000000 : ℚ) < parent_sum then
        let scale_parent := max_parent_total / parent_sum
        let remaining := pv_year - max_parent_total
        let scale_others := if 0 < others_sum then remaining / others_sum else 1
        let s1 :=
          parents.foldl
            (fun acc p =>
              if dHas acc p then dSet acc p (dGet acc p * scale_parent) else acc)
            shares
        other_names.foldl (fun acc n => dSet acc n (dGet acc n * scale_others)) s1
      else shares
    else shares
  else shares

/-- `shares_amount[p] = shares_amount.get(p, 0.0) + amt` over the parent
pool's amounts. -/
def add_parent_amounts (shares parent_amounts : Dict ℚ) : Dict ℚ :=
  parent_amounts.foldl (fun acc p => dSet acc p.1 (dGet acc p.1 + p.2)) shares

/-- Step 5.c: number of under-18 children (real and virtual) active in the
year, measured at July 1. -/
def under18_count (ctx : YearCtx) (year : ℤ) (year_start year_end : Date) : ℤ :=
  let n0 :=
    ctx.ci.dependents.foldl
      (fun n d =>
        if d.dep_type = .CHILD then
          match dGetI ctx.dep_intervals d.person.name with
          | none => n
          | some i =>
            if overlap_days i.1 i.2 year_start year_end ≤ 0 then n
            else if age_of d.person.birth ⟨year, 7, 1⟩ < 18 then n + 1
            else n
        else n)
      0
  ctx.virtual_children_birth.foldl
    (fun n p =>
      match dFind? ctx.virtual_intervals p.1 with
      | none => n
      | some i =>
        if overlap_days i.1 i.2 year_start year_end ≤ 0 then n
        else if age_of p.2 ⟨year, 7, 1⟩ < 18 then n + 1
        else n)
    n0

/-- One real spouse's AYİM adjustment in step 5.c. -/
def ayim_dep_step (ctx : YearCtx) (year : ℤ) (year_start year_end : Date)
    (under18 : ℤ) (acc : Dict ℚ) (d : Dependent) : Dict ℚ :=
  if d.dep_type = .SPOUSE ∧ d.apply_marriage_discount then
    match dGetI ctx.dep_intervals d.person.name with
    | none => acc
    | some i =>
      if overlap_days i.1 i.2 year_start year_end ≤ 0 then acc
      else
        let spouse_age := age_of d.person.birth ⟨year, 7, 1⟩
        let factor :=
          get_marriage_discount_factor (pyInt spouse_age) d.person.gender under18
        dSet acc d.person.name (dGet acc d.person.name * factor)
  else acc

/-- Step 5.c: the AYİM remarriage discount on real spouses (flagged for
the discount) and on the virtual spouse. -/
def ayim_adjust (ctx : YearCtx) (year : ℤ) (year_start year_end : Date)
    (shares : Dict ℚ) : Dict ℚ :=
  if ctx.ci.apply_ayim then
    let under18 := under18_count ctx year year_start year_end
    let sA :=
      ctx.ci.dependents.foldl
        (ayim_dep_step ctx year year_start year_end under18)
        shares
    match dFind? ctx.virtual_intervals labelSpouse with
    | none => sA
    | some i =>
      if 0 < overlap_days i.1 i.2 year_start year_end then
        let spouse_age := age_of ctx.ci.destek.birth ⟨year, 7, 1⟩
        let virt_gender := if ctx.ci.destek.gender = .MALE then Gender.FEMALE else Gender.MALE
        let factor := get_marriage_discount_factor (pyInt spouse_age) virt_gender under18
        dSet sA labelSpouse (dGet sA labelSpouse * factor)
      else sA
  else shares

inductive DateError
  | invalidDate (y m d : ℤ)
deriving DecidableEq, Repr

/-- Days the supporter's interval overlaps the calendar year. -/
def supp_days_of (ctx : YearCtx) (year : ℤ) : ℤ :=
  overlap_days ctx.supporter_start ctx.supporter_end ⟨year, 1, 1⟩ ⟨year + 1, 1, 1⟩

/-- `days_in_year = (date(year+1,1,1) - date(year,1,1)).days`. -/
def days_in_year_of (year : ℤ) : ℤ :=
  Date.sub ⟨year + 1, 1, 1⟩ ⟨year, 1, 1⟩

/-- The discount step of the year loop: present value of this year's
gross support (`k = year - valuation year`; the report rate is used when
the progressive method is on, else the technical interest; either way the
factor is `1 / (1 + rate)^k`). -/
def pv_of (ci : CalculationInput) (year : ℤ) (gross_support : ℚ) : ℚ :=
  let k := year - ci.hesap_tarihi.y
  if 0 < k then
    let discount_rate : ℚ :=
      if ci.use_progresif ∧ 0 < ci.report_discount_rate then
        ci.report_discount_rate / 100
      else if ¬ci.use_progresif ∧ 0 < ci.technical_interest then
        ci.technical_interest / 100
      else 0
    if 0 < discount_rate then
      gross_support * (1 / (1 + discount_rate) ^ k.toNat)
    else gross_support
  else gross_support

/-- Steps 5.a-5.c chained: the final share mapping of one year. -/
def year_shares (ctx : YearCtx) (year : ℤ) (fraction_supporter pv_year : ℚ) :
    Dict ℚ :=
  let year_start : Date := ⟨year, 1, 1⟩
  let year_end : Date := ⟨year + 1, 1, 1⟩
  let days_in_year := days_in_year_of year
  let pp := parent_pool ctx year_start year_end days_in_year pv_year
  let non_parent_total0 := pv_year - pp.2
  let non_parent_total := if non_parent_total0 < 0 then 0 else non_parent_total0
  let npw := non_parent_weights_of ctx year_start year_end days_in_year fraction_supporter
  let non_parent_ratios := normalize_shares npw
  let shares0 : Dict ℚ := non_parent_ratios.map (fun p => (p.1, non_parent_total * p.2))
  let shares1 := cap_correction_single_pool ctx.ci ctx.parents pv_year shares0
  let shares2 := add_parent_amounts shares1 pp.1
  ayim_adjust ctx year year_start year_end shares2

/-- The `YearRow` emitted for a non-skipped year. -/
def row_of (ctx : YearCtx) (year : ℤ) (yearly_full : ℚ) : YearRow :=
  let fraction_supporter : ℚ := (supp_days_of ctx year : ℚ) / (days_in_year_of year : ℚ)
  let gross_support := yearly_full * fraction_supporter
  let pv_year := pv_of ctx.ci year gross_support
  let ref_date : Date := ⟨year, ctx.ci.olay_tarihi.m, ctx.ci.olay_tarihi.d⟩
  ⟨year, int_age_on ctx.ci.destek.birth ref_date,
   period_type_label ctx.ci ref_date, gross_support, pv_year,
   year_shares ctx year fraction_supporter pv_year⟩

/-- Step 5, one calendar year of the loop: `ok none` when the year is
skipped (`continue`), `error` when Python's `date` constructor would
raise inside `_yearly_support`. -/
def yearBody (ctx : YearCtx) (year : ℤ) : Except DateError (Option YearRow) :=
  if supp_days_of ctx year ≤ 0 then .ok none
  else
    match yearly_support ctx.ci year with
    | none => .error (.invalidDate year ctx.ci.olay_tarihi.m ctx.ci.olay_tarihi.d)
    | some yearly_full =>
      if yearly_full ≤ 0 then .ok none
      else .ok (some (row_of ctx year yearly_full))

/-- `range(start_year, end_year + 1)`. -/
def intRange (a b : ℤ) : List ℤ :=
  (List.range (b + 1 - a).toNat).map (fun i : ℕ => a + (i : ℤ))

/-- The year loop: rows in year order; the first date error aborts. -/
def build_rows (ctx : YearCtx) : List ℤ → Except DateError (List YearRow)
  | [] => .ok []
  | y :: ys =>
    match yearBody ctx y with
    | .error e => .error e
    | .ok none => build_rows ctx ys
    | .ok (some r) => (build_rows ctx ys).map (fun rs => r :: rs)

/-- Everything `compute_support` produces except the final fault-rate
multiplication (which is the only place `fault_rate` is read after
validation). -/
structure CoreResult where
  rows : List YearRow
  total_support : ℚ
  total_by_person : Dict ℚ
  sgk_psd_deduction : ℚ
  total_after_sgk : ℚ
  training_total : ℚ
  supporter_start : Date
  supporter_end : Date
  dependent_intervals : Dict (Option (Date × Date))
  virtual_intervals : Dict (Date × Date)

/-- Step 6, aggregation of per-year shares into `total_by_person`. -/
def total_by_person_of (rows : List YearRow) : Dict ℚ :=
  rows.foldl
    (fun acc r => r.shares.foldl (fun a p => dSet a p.1 (dGet a p.1 + p.2)) acc) []

/-- Step 6, the SGK deduction followed by the 0-floor (`total_after_sgk`
before the training deduction). -/
def post_sgk_of (ci : CalculationInput) (total_support : ℚ) : ℚ :=
  let psd := compute_sgk_psd ci
  let t :=
    match ci.sgk_deduction_type with
    | .NONE => total_support
    | .HALF => total_support - psd * (1/2)
    | .FULL => total_support - psd
  if t < 0 then 0 else t

/-- Step 6, the training-cost deduction: the total deducted and the
updated `total_by_person`. -/
def training_of (ci : CalculationInput) (total_by_person : Dict ℚ) : ℚ × Dict ℚ :=
  let age_at_olay := age_of ci.destek.birth ci.olay_tarihi
  if ci.training_enabled ∧ age_at_olay < 18 then
    let yil_sayisi : ℚ := 18 - age_at_olay
    let base_monthly :=
      if 0 < ci.training_base_monthly then ci.training_base_monthly
      else get_min_wage_net ci.olay_tarihi false false false 0
    let father_name :=
      ci.dependents.foldl
        (fun acc d => if d.dep_type = .FATHER then some d.person.name else acc) none
    let mother_name :=
      ci.dependents.foldl
        (fun acc d => if d.dep_type = .MOTHER then some d.person.name else acc) none
    let s1 :=
      match father_name with
      | some fn =>
        if ci.father_working then
          let t := base_monthly * 12 * ci.training_rate * yil_sayisi
          (t, dSet total_by_person fn (dGet total_by_person fn - t))
        else ((0 : ℚ), total_by_person)
      | none => ((0 : ℚ), total_by_person)
    let s2 :=
      match mother_name with
      | some mn =>
        if ci.mother_working then
          let t := base_monthly * 12 * ci.training_rate * yil_sayisi
          (s1.1 + t, dSet s1.2 mn (dGet s1.2 mn - t))
        else s1
      | none => s1
    s2
  else ((0 : ℚ), total_by_person)

/-- Step 6: totals, SGK deduction with its 0-floor, and the training-cost
deduction (applied after the floor, as in the source). -/
def compute_core (ci : CalculationInput) : Except DateError CoreResult :=
  match build_rows (mkYearCtx ci)
      (intRange (mkYearCtx ci).supporter_start.y (mkYearCtx ci).supporter_end.y) with
  | .error e => .error e
  | .ok rows =>
    let ctx := mkYearCtx ci
    let total_support := (rows.map YearRow.present_value).sum
    let total_by_person := total_by_person_of rows
    let psd := compute_sgk_psd ci
    let total_after_sgk := post_sgk_of ci total_support
    let tr := training_of ci total_by_person
    .ok ⟨rows, total_support - tr.1, tr.2, psd, total_after_sgk - tr.1, tr.1,
         ctx.supporter_start, ctx.supporter_end, ctx.dep_intervals,
         ctx.virtual_intervals⟩

structure CalculationResult where
  rows : List YearRow
  total_support : ℚ
  total_by_person : Dict ℚ
  sgk_psd_deduction : ℚ
  total_after_sgk : ℚ
  total_after_fault : ℚ
  training_total : ℚ
  supporter_start : Date
  supporter_end : Date
  dependent_intervals : Dict (Option (Date × Date))
  virtual_intervals : Dict (Date × Date)
deriving DecidableEq, Repr

inductive CalcError
  | validation (e : ValidationError)
  | date (e : DateError)
deriving DecidableEq, Repr

/-- `compute_support`: validation, the core computation, and the final
fault-rate reduction `total_after_sgk * (1 - fault_rate / 100)`. -/
def compute_support (ci : CalculationInput) : Except CalcError CalculationResult :=
  match validate_input ci with
  | some e => .error (.validation e)
  | none =>
    match compute_core ci with
    | .error e => .error (.date e)
    | .ok core =>
      .ok ⟨core.rows, core.total_support, core.total_by_person,
           core.sgk_psd_deduction, core.total_after_sgk,
           core.total_after_sgk * (1 - ci.fault_rate / 100),
           core.training_total, core.supporter_start, core.supporter_end,
           core.dependent_intervals, core.virtual_intervals⟩

/-! ### Concrete inputs

`default_input` and `default_dependent` carry the dataclass default field
values of `CalculationInput` and `Dependent` from `models.py`; concrete
test inputs below override individual fields, as callers of the Python
engine do. -/

def default_input (olay hesap : Date) (destek : Person)
    (income_mode : IncomeMode) : CalculationInput where
  olay_tarihi := olay
  hesap_tarihi := hesap
  destek := destek
  income_mode := income_mode
  monthly_income := 0
  regular_extra_income := 0
  life_table := .TRH2010
  active_start_age := 18
  active_end_age := 60
  passive_income_type := .PASSIVE_MIN_WAGE
  passive_ratio := 7/10
  child_support_age_male := 18
  child_support_age_female_non_student := 22
  child_support_age_student := 25
  report_discount_rate := 0
  use_progresif := true
  technical_interest := 9/5
  separate_parent_pool := true
  parent_share_cap_25_enabled := true
  sgk_monthly_income := 0
  sgk_deduction_type := .NONE
  sgk_psd_factor := 12
  fault_rate := 0
  apply_ayim := true
  training_enabled := false
  training_rate := 1/20
  training_base_monthly := 0
  mother_working := true
  father_working := true
  military_enabled := false
  military_start_age := 20
  military_duration_months := 12
  assume_marriage_if_single := false
  assumed_marriage_age := 25
  assumed_child1_after_years := 2
  assumed_child2_after_years := 4
  assumed_spouse_has_income := false
  agi_use_family_status := true
  profile := .EXPERT
  dependents := []

def default_dependent (person : Person) (dep_type : DependentType) : Dependent where
  person := person
  dep_type := dep_type
  is_student := false
  reduced_share := false
  apply_marriage_discount := true
  has_income := false
  custom_support_years := none
  custom_exit_date := none

/-- Sanity condition on an input's display names: dependent names are
pairwise distinct and none collides with the engine's reserved dict keys
(`"destek"` and the three virtual-party labels).  The Python engine keys
every per-year dict by these display names, so a collision would silently
merge two parties' shares. -/
def NamesOk (ci : CalculationInput) : Prop :=
  (ci.dependents.map (fun d => d.person.name)).Nodup ∧
  ∀ d ∈ ci.dependents,
    d.person.name ≠ destekKey ∧ d.person.name ≠ labelSpouse ∧
    d.person.name ≠ labelChild1 ∧ d.person.name ≠ labelChild2

instance (ci : CalculationInput) : Decidable (NamesOk ci) := by
  unfold NamesOk; infer_instance

/-- Input whose incident date is Feb 29: validation passes, but the year
loop crashes constructing `date(2021, 2, 29)`. -/
def cex9_input : CalculationInput :=
  { default_input ⟨2020, 2, 29⟩ ⟨2020, 3, 1⟩ ⟨"Destek", ⟨1950, 3, 1⟩, .MALE⟩
      .MANUAL with
    monthly_income := 0
    passive_income_type := .PASSIVE_RATIO_OF_ACTIVE }

/-- The family-allowance formula as claim C6 words it: the sum of the
conditional percentage add-ons alone (spouse without income +10%, children
tiered +7.5/+7.5/+10/+5/+5%) — without the employee's own 50% base —
multiplied by 15% of the gross minimum wage and divided by 12, nonzero
only for years in [2008, 2022).  Used to compare the claim's wording with
`compute_agi`. -/
def agi_claim_formula (dt : Date) (married spouse_has_income : Bool)
    (child_count : ℤ) : ℚ :=
  if dt.y < 2008 ∨ 2022 ≤ dt.y then 0
  else
    let addons : ℚ :=
      (if married ∧ ¬spouse_has_income then 1/10 else 0) +
      (if 1 ≤ child_count then 3/40 else 0) +
      (if 2 ≤ child_count then 3/40 else 0) +
      (if 3 ≤ child_count then 1/10 else 0) +
      (if 4 ≤ child_count then 1/20 else 0) +
      (if 5 ≤ child_count then 1/20 else 0)
    addons * (3/20) * get_min_wage_gross dt / 12

/-- Input with the progressive method selected and a 10% report discount
rate (4-year support horizon). -/
def cexC5_input : CalculationInput :=
  { default_input ⟨2020, 1, 1⟩ ⟨2020, 1, 1⟩ ⟨"D", ⟨1944, 6, 15⟩, .MALE⟩
      .MANUAL with
    monthly_income := 1000
    passive_income_type := .PASSIVE_RATIO_OF_ACTIVE
    passive_ratio := 0
    active_start_age := 77
    active_end_age := 78
    report_discount_rate := 10 }

/-- Input whose supporter is a minor (17.55 years at the incident) with a
working father on record and training costs enabled, but no support rows
at all (manual income 0, passive ratio over it): the training deduction
drives every aggregate negative. -/
def cexC3_input : CalculationInput :=
  { default_input ⟨2020, 1, 1⟩ ⟨2020, 1, 1⟩ ⟨"C", ⟨2002, 6, 15⟩, .MALE⟩
      .MANUAL with
    monthly_income := 0
    passive_income_type := .PASSIVE_RATIO_OF_ACTIVE
    passive_ratio := 0
    training_enabled := true
    training_base_monthly := 1000
    dependents := [default_dependent ⟨"Baba", ⟨1980, 1, 1⟩, .MALE⟩ .FATHER] }

/-- The same input with fault rate 50 instead of 0. -/
def cexC8_input : CalculationInput :=
  { cexC3_input with fault_rate := 50 }

/-- Decidable equality on `Except` results (for concrete checks). -/
instance {ε α : Type} [DecidableEq ε] [DecidableEq α] :
    DecidableEq (Except ε α) := fun a b =>
  match a, b with
  | .error e1, .error e2 =>
    if h : e1 = e2 then .isTrue (by rw [h]) else .isFalse (by simpa using h)
  | .error _, .ok _ => .isFalse (by simp)
  | .ok _, .error _ => .isFalse (by simp)
  | .ok a1, .ok a2 =>
    if h : a1 = a2 then .isTrue (by rw [h]) else .isFalse (by simpa using h)

/-- Input with a spouse dependent subject to the AYİM remarriage discount
(supporter active only at ages 77-78, manual income 1000/month): the only
emitted row is the 2022 one, and the discount makes its share sum 99% of
its present value. -/
def cexC1_input : CalculationInput :=
  { default_input ⟨2020, 1, 1⟩ ⟨2020, 1, 1⟩ ⟨"D", ⟨1944, 6, 15⟩, .MALE⟩
      .MANUAL with
    monthly_income := 1000
    passive_income_type := .PASSIVE_RATIO_OF_ACTIVE
    passive_ratio := 0
    active_start_age := 77
    active_end_age := 78
    dependents := [default_dependent ⟨"Es", ⟨1975, 6, 15⟩, .FEMALE⟩ .SPOUSE] }

/-- `cexC5_input` with the AYİM adjustment switched off: the witness
input for the amended C1. -/
def cexC1w : CalculationInput :=
  { cexC5_input with apply_ayim := false }

/-- `cexC1_input` with a mother on record besides the spouse: the
separate parent pool allocates the mother pv * (1/5) = 2400 in the 2022
row, under the 25% cap of 3000. -/
def cexC2_input : CalculationInput :=
  { cexC1_input with
    dependents := [default_dependent ⟨"Es", ⟨1975, 6, 15⟩, .FEMALE⟩ .SPOUSE,
                   default_dependent ⟨"Anne", ⟨1960, 6, 15⟩, .FEMALE⟩ .MOTHER] }

/-- A child dependent whose custom exit date (2019) precedes the computed
interval start (the 2020 incident): the recorded interval is `none`. -/
def cexC4_dep : Dependent :=
  { default_dependent ⟨"Cocuk", ⟨2010, 6, 15⟩, .MALE⟩ .CHILD with
    custom_exit_date := some ⟨2019, 1, 1⟩ }

/-- `cexC1_input` carrying `cexC4_dep` as its only dependent. -/
def cexC4_input : CalculationInput :=
  { cexC1_input with dependents := [cexC4_dep] }

/-! ### End of definitions -/

/-! ## Dictionary lemmas -/

theorem dFind?_dSet_self {α : Type} (d : Dict α) (k : String) (v : α) :
    dFind? (dSet d k v) k = some v := by
  induction d with
  | nil => simp [dSet, dFind?]
  | cons p t ih =>
    by_cases h : p.1 = k
    · simp [dSet, dFind?, h]
    · simp [dSet, dFind?, h, ih]

theorem dFind?_dSet_ne {α : Type} (d : Dict α) (k k' : String) (v : α)
    (h : k' ≠ k) : dFind? (dSet d k' v) k = dFind? d k := by
  induction d with
  | nil => simp [dSet, dFind?, h]
  | cons p t ih =>
    by_cases hp : p.1 = k'
    · simp [dSet, dFind?, hp, h]
    · by_cases hp2 : p.1 = k <;>
        simp [dSet, dFind?, hp, hp2, ih, Ne.symm h]

theorem dGet_dSet_self (d : Dict ℚ) (k : String) (v : ℚ) :
    dGet (dSet d k v) k = v := by
  simp [dGet, dFind?_dSet_self]

theorem dGet_dSet_ne (d : Dict ℚ) (k k' : String) (v : ℚ) (h : k' ≠ k) :
    dGet (dSet d k' v) k = dGet d k := by
  simp [dGet, dFind?_dSet_ne _ _ _ _ h]

theorem dFind?_eq_none (d : Dict ℚ) (k : String) (h : k ∉ dKeys d) :
    dFind? d k = none := by
  induction d with
  | nil => simp [dFind?]
  | cons p t ih =>
    simp only [dKeys, List.map_cons, List.mem_cons, not_or] at h
    have hp : ¬p.1 = k := fun e => h.1 e.symm
    simp [dFind?, hp, ih (by simpa [dKeys] using h.2)]

theorem dGet_eq_zero_of_not_mem (d : Dict ℚ) (k : String) (h : k ∉ dKeys d) :
    dGet d k = 0 := by
  simp [dGet, dFind?_eq_none d k h]

theorem dSum_dSet (d : Dict ℚ) (k : String) (v : ℚ) :
    dSum (dSet d k v) = dSum d - dGet d k + v := by
  induction d with
  | nil => simp [dSet, dSum, dGet, dFind?]
  | cons p t ih =>
    by_cases h : p.1 = k
    · simp [dSet, dSum, dGet, dFind?, h]; ring
    · simp only [dSet, if_neg h, dSum, List.map_cons, List.sum_cons, dGet,
        dFind?, if_neg h] at *
      rw [ih]; ring

theorem mem_dKeys_dSet {α : Type} (d : Dict α) (k k' : String) (v : α) :
    k' ∈ dKeys (dSet d k v) ↔ k' ∈ dKeys d ∨ k' = k := by
  induction d with
  | nil => simp [dSet, dKeys]
  | cons p t ih =>
    by_cases h : p.1 = k
    · subst h; by_cases h2 : k' = p.1 <;> simp [dSet, dKeys, h2] at *
    · simp only [dSet, if_neg h, dKeys, List.map_cons, List.mem_cons] at *
      rw [ih]; tauto

theorem nodup_dKeys_dSet {α : Type} (d : Dict α) (k : String) (v : α)
    (h : (dKeys d).Nodup) : (dKeys (dSet d k v)).Nodup := by
  induction d with
  | nil => simp [dSet, dKeys]
  | cons p t ih =>
    simp only [dKeys, List.map_cons, List.nodup_cons] at h
    by_cases hp : p.1 = k
    · simpa [dSet, hp, dKeys, List.nodup_cons] using h
    · simp only [dSet, if_neg hp, dKeys, List.map_cons, List.nodup_cons]
      refine ⟨fun hc => ?_, ih h.2⟩
      have := (mem_dKeys_dSet t k p.1 v).1 (by simpa [dKeys] using hc)
      rcases this with h1 | h1
      · exact h.1 h1
      · exact hp h1

theorem values_nonneg_dSet (d : Dict ℚ) (k : String) (v : ℚ)
    (hd : ∀ p ∈ d, 0 ≤ p.2) (hv : 0 ≤ v) : ∀ p ∈ dSet d k v, 0 ≤ p.2 := by
  induction d with
  | nil => simpa [dSet] using hv
  | cons q t ih =>
    intro p hp
    by_cases hq : q.1 = k
    · simp only [dSet, if_pos hq, List.mem_cons] at hp
      rcases hp with h | h
      · subst h; exact hv
      · exact hd p (by simp [h])
    · simp only [dSet, if_neg hq, List.mem_cons] at hp
      rcases hp with h | h
      · subst h; exact hd q (by simp)
      · exact ih (fun r hr => hd r (by simp [hr])) p h

theorem dGet_nonneg (d : Dict ℚ) (k : String) (hd : ∀ p ∈ d, 0 ≤ p.2) :
    0 ≤ dGet d k := by
  induction d with
  | nil => simp [dGet, dFind?]
  | cons p t ih =>
    by_cases h : p.1 = k
    · simpa [dGet, dFind?, h] using hd p (by simp)
    · simp only [dGet, dFind?, if_neg h]
      exact ih (fun r hr => hd r (by simp [hr]))

theorem dGet_le_dSum (d : Dict ℚ) (k : String) (hd : ∀ p ∈ d, 0 ≤ p.2) :
    dGet d k ≤ dSum d := by
  induction d with
  | nil => simp [dGet, dFind?, dSum]
  | cons p t ih =>
    have ht : ∀ r ∈ t, 0 ≤ r.2 := fun r hr => hd r (by simp [hr])
    have hsum_t : 0 ≤ dSum t := by
      simp only [dSum]
      exact List.sum_nonneg (by
        intro x hx
        rcases List.mem_map.1 hx with ⟨r, hr, rfl⟩
        exact ht r hr)
    by_cases h : p.1 = k
    · simp only [dGet, dFind?, if_pos h, Option.getD_some, dSum, List.map_cons,
        List.sum_cons]
      simp only [dSum] at hsum_t
      linarith
    · simp only [dGet, dFind?, if_neg h, dSum, List.map_cons, List.sum_cons]
      have := ih ht
      have hp : 0 ≤ p.2 := hd p (by simp)
      simp only [dGet, dSum] at this
      linarith

theorem dSum_nonneg (d : Dict ℚ) (hd : ∀ p ∈ d, 0 ≤ p.2) : 0 ≤ dSum d := by
  simp only [dSum]
  exact List.sum_nonneg (by
    intro x hx
    rcases List.mem_map.1 hx with ⟨r, hr, rfl⟩
    exact hd r hr)

theorem dGet_dErase_ne (d : Dict ℚ) (k k' : String) (h : k' ≠ k) :
    dGet (dErase d k) k' = dGet d k' := by
  induction d with
  | nil => simp [dErase]
  | cons p t ih =>
    by_cases hp : p.1 = k
    · have hpk : ¬p.1 = k' := by rw [hp]; exact fun e => h e.symm
      simp only [dErase, if_pos hp, dGet, dFind?, if_neg hpk]
    · simp only [dErase, if_neg hp]
      by_cases hp2 : p.1 = k'
      · simp [dGet, dFind?, hp2]
      · simpa [dGet, dFind?, hp2] using ih

theorem dSum_dErase (d : Dict ℚ) (k : String) :
    dSum (dErase d k) = dSum d - dGet d k := by
  induction d with
  | nil => simp [dErase, dSum, dGet, dFind?]
  | cons p t ih =>
    by_cases hp : p.1 = k
    · simp only [dErase, if_pos hp, dSum, List.map_cons, List.sum_cons, dGet,
        dFind?, if_pos hp, Option.getD_some]
      ring
    · simp only [dErase, if_neg hp, dSum, List.map_cons, List.sum_cons, dGet,
        dFind?, if_neg hp]
      have := ih
      simp only [dSum, dGet] at this
      rw [this]; ring

theorem values_nonneg_dErase (d : Dict ℚ) (k : String)
    (hd : ∀ p ∈ d, 0 ≤ p.2) : ∀ p ∈ dErase d k, 0 ≤ p.2 := by
  induction d with
  | nil => simp [dErase]
  | cons q t ih =>
    intro p hp
    by_cases hq : q.1 = k
    · exact hd p (by simp only [dErase, if_pos hq] at hp; simp [hp])
    · simp only [dErase, if_neg hq, List.mem_cons] at hp
      rcases hp with h | h
      · subst h; exact hd q (by simp)
      · exact ih (fun r hr => hd r (by simp [hr])) p h

theorem sumKeys_le_dSum (d : Dict ℚ) (ks : List String) (hnd : ks.Nodup)
    (hd : ∀ p ∈ d, 0 ≤ p.2) : sumKeys d ks ≤ dSum d := by
  induction ks generalizing d with
  | nil => simpa [sumKeys] using dSum_nonneg d hd
  | cons k t ih =>
    simp only [List.nodup_cons] at hnd
    have step : sumKeys d t = sumKeys (dErase d k) t := by
      simp only [sumKeys]
      congr 1
      refine List.map_congr_left (fun x hx => ?_)
      exact (dGet_dErase_ne d k x (fun e => hnd.1 (e ▸ hx))).symm
    have h1 : sumKeys (dErase d k) t ≤ dSum (dErase d k) :=
      ih (dErase d k) hnd.2 (values_nonneg_dErase d k hd)
    have h2 : dSum (dErase d k) = dSum d - dGet d k := dSum_dErase d k
    simp only [sumKeys, List.map_cons, List.sum_cons]
    have : (t.map (fun x => dGet d x)).sum = sumKeys (dErase d k) t := by
      rw [← step]; rfl
    rw [this]
    linarith

theorem sumKeys_nonneg (d : Dict ℚ) (ks : List String)
    (hd : ∀ p ∈ d, 0 ≤ p.2) : 0 ≤ sumKeys d ks := by
  simp only [sumKeys]
  exact List.sum_nonneg (by
    intro x hx
    rcases List.mem_map.1 hx with ⟨r, _, rfl⟩
    exact dGet_nonneg d r hd)

/-! Map-over-values lemmas (a Python dict comprehension keeps the keys). -/

theorem dFind?_map_snd (d : Dict ℚ) (f : ℚ → ℚ) (k : String) :
    dFind? (d.map (fun p => (p.1, f p.2))) k = (dFind? d k).map f := by
  induction d with
  | nil => simp [dFind?]
  | cons p t ih =>
    by_cases hp : p.1 = k <;> simp [dFind?, hp, ih]

theorem dGet_map_snd (d : Dict ℚ) (f : ℚ → ℚ) (k : String) (hf : f 0 = 0) :
    dGet (d.map (fun p => (p.1, f p.2))) k = f (dGet d k) := by
  simp only [dGet, dFind?_map_snd]
  cases dFind? d k <;> simp [hf]

theorem dKeys_map_snd {α : Type} (d : Dict ℚ) (f : ℚ → α) :
    dKeys (d.map (fun p => (p.1, f p.2))) = dKeys d := by
  induction d with
  | nil => rfl
  | cons p t ih => simp only [dKeys, List.map_cons] at *; rw [ih]

theorem dSum_map_mul_left (d : Dict ℚ) (c : ℚ) :
    dSum (d.map (fun p => (p.1, c * p.2))) = c * dSum d := by
  induction d with
  | nil => simp [dSum]
  | cons p t ih => simp [dSum] at *; rw [ih]; ring

theorem dSum_map_div (d : Dict ℚ) (c : ℚ) :
    dSum (d.map (fun p => (p.1, p.2 / c))) = dSum d / c := by
  induction d with
  | nil => simp [dSum]
  | cons p t ih => simp [dSum] at *; rw [ih]; ring

theorem dSum_normalize (d : Dict ℚ) (h : 0 < dSum d) :
    dSum (normalize_shares d) = 1 := by
  simp only [normalize_shares, if_neg (not_le.2 h)]
  rw [dSum_map_div]
  exact div_self (ne_of_gt h)

theorem dGet_normalize (d : Dict ℚ) (h : 0 < dSum d) (k : String) :
    dGet (normalize_shares d) k = dGet d k / dSum d := by
  simp only [normalize_shares, if_neg (not_le.2 h)]
  exact dGet_map_snd d (fun v => v / dSum d) k (by simp)

theorem dKeys_normalize (d : Dict ℚ) : dKeys (normalize_shares d) = dKeys d := by
  simp only [normalize_shares]
  split
  · exact dKeys_map_snd d (fun _ => (0 : ℚ))
  · exact dKeys_map_snd d (fun v => v / dSum d)

/-! Fold lemmas. -/

theorem dSum_foldl_add (l : List (String × ℚ)) (d : Dict ℚ) :
    dSum (l.foldl (fun acc p => dSet acc p.1 (dGet acc p.1 + p.2)) d) =
      dSum d + dSum l := by
  induction l generalizing d with
  | nil => simp [dSum]
  | cons p t ih =>
    simp only [List.foldl_cons]
    rw [ih, dSum_dSet]
    simp [dSum]; ring

theorem dFind?_foldl_invariant {β : Type} (l : List β)
    (step : Dict ℚ → β → Dict ℚ) (K : String) (d : Dict ℚ)
    (h : ∀ acc, ∀ x ∈ l, dFind? (step acc x) K = dFind? acc K) :
    dFind? (l.foldl step d) K = dFind? d K := by
  induction l generalizing d with
  | nil => rfl
  | cons x t ih =>
    simp only [List.foldl_cons]
    rw [ih (step d x) (fun acc y hy => h acc y (by simp [hy])),
        h d x (by simp)]

theorem dGet_add_parent_amounts (s pa : Dict ℚ) (hnd : (dKeys pa).Nodup)
    (k : String) :
    dGet (add_parent_amounts s pa) k = dGet s k + dGet pa k := by
  induction pa generalizing s with
  | nil => simp [add_parent_amounts, dGet, dFind?]
  | cons p t ih =>
    simp only [dKeys, List.map_cons, List.nodup_cons] at hnd
    simp only [add_parent_amounts, List.foldl_cons]
    have ihs := ih (dSet s p.1 (dGet s p.1 + p.2)) hnd.2
    simp only [add_parent_amounts] at ihs
    rw [ihs]
    by_cases hk : p.1 = k
    · subst hk
      rw [dGet_dSet_self, dGet_eq_zero_of_not_mem t p.1 hnd.1]
      simp [dGet, dFind?]
    · rw [dGet_dSet_ne s k p.1 _ hk]
      simp [dGet, dFind?, hk]

theorem dSum_add_parent_amounts (s pa : Dict ℚ) :
    dSum (add_parent_amounts s pa) = dSum s + dSum pa := by
  simpa [add_parent_amounts] using dSum_foldl_add pa s

/-! Generic fold lemmas over dictionaries (any value type). -/

theorem dFind?_foldl_pres {α β : Type} (l : List β)
    (step : Dict α → β → Dict α) (K : String) (d : Dict α)
    (h : ∀ acc, ∀ x ∈ l, dFind? (step acc x) K = dFind? acc K) :
    dFind? (l.foldl step d) K = dFind? d K := by
  induction l generalizing d with
  | nil => rfl
  | cons x t ih =>
    simp only [List.foldl_cons]
    rw [ih (step d x) (fun acc y hy => h acc y (by simp [hy])), h d x (by simp)]

theorem dGet_foldl_zero {β : Type} (l : List β) (step : Dict ℚ → β → Dict ℚ)
    (K : String) (d : Dict ℚ)
    (h : ∀ acc, ∀ x ∈ l, dGet acc K = 0 → dGet (step acc x) K = 0)
    (h0 : dGet d K = 0) : dGet (l.foldl step d) K = 0 := by
  induction l generalizing d with
  | nil => exact h0
  | cons x t ih =>
    simp only [List.foldl_cons]
    exact ih (step d x) (fun acc y hy => h acc y (by simp [hy]))
      (h d x (by simp) h0)

theorem dSet_eq_append {α : Type} (d : Dict α) (k : String) (v : α)
    (h : k ∉ dKeys d) : dSet d k v = d ++ [(k, v)] := by
  induction d with
  | nil => rfl
  | cons p t ih =>
    simp only [dKeys, List.map_cons, List.mem_cons, not_or] at h
    have hne : ¬p.1 = k := fun e => h.1 e.symm
    simp only [dSet, if_neg hne]
    rw [ih (by simpa [dKeys] using h.2)]
    simp

theorem dFind?_foldl_dSet_last {α β : Type} (key : β → String) (val : β → α)
    (l : List β) (init : Dict α) (b : β) (hb : b ∈ l)
    (hnd : (l.map key).Nodup) :
    dFind? (l.foldl (fun acc x => dSet acc (key x) (val x)) init) (key b) =
      some (val b) := by
  induction l generalizing init with
  | nil => cases hb
  | cons x t ih =>
    simp only [List.map_cons, List.nodup_cons] at hnd
    simp only [List.foldl_cons]
    rcases List.mem_cons.1 hb with rfl | hbt
    · have hpres : ∀ acc, ∀ y ∈ t,
          dFind? (dSet acc (key y) (val y)) (key b) = dFind? acc (key b) := by
        intro acc y hy
        exact dFind?_dSet_ne _ _ _ _
          (fun e => hnd.1 (e ▸ List.mem_map_of_mem key hy))
      rw [dFind?_foldl_pres t _ (key b) _ hpres, dFind?_dSet_self]
    · exact ih (dSet init (key x) (val x)) hbt hnd.2

theorem dGet_foldl_dSet_last {β : Type} (key : β → String) (val : β → ℚ)
    (l : List β) (init : Dict ℚ) (b : β) (hb : b ∈ l)
    (hnd : (l.map key).Nodup) :
    dGet (l.foldl (fun acc x => dSet acc (key x) (val x)) init) (key b) =
      val b := by
  simp [dGet, dFind?_foldl_dSet_last key val l init b hb hnd]

/-! Graph dictionaries: `l.map (fun p => (p, w p))` over a key list. -/

theorem dKeys_graph (l : List String) (w : String → ℚ) :
    dKeys (l.map (fun q => (q, w q))) = l := by
  simp [dKeys, List.map_map]
  exact List.map_id l

theorem dFind?_graph (l : List String) (w : String → ℚ) (p : String)
    (hp : p ∈ l) (hnd : l.Nodup) :
    dFind? (l.map (fun q => (q, w q))) p = some (w p) := by
  induction l with
  | nil => cases hp
  | cons x t ih =>
    simp only [List.nodup_cons] at hnd
    rcases List.mem_cons.1 hp with rfl | hpt
    · simp [dFind?]
    · have hx : x ≠ p := fun e => hnd.1 (e ▸ hpt)
      simp only [List.map_cons, dFind?, if_neg hx]
      exact ih hpt hnd.2

theorem dGet_graph (l : List String) (w : String → ℚ) (p : String)
    (hp : p ∈ l) (hnd : l.Nodup) :
    dGet (l.map (fun q => (q, w q))) p = w p := by
  simp [dGet, dFind?_graph l w p hp hnd]

theorem dGet_graph_not_mem (l : List String) (w : String → ℚ) (p : String)
    (hp : p ∉ l) : dGet (l.map (fun q => (q, w q))) p = 0 := by
  apply dGet_eq_zero_of_not_mem
  rw [dKeys_graph]
  exact hp

theorem dSum_graph (l : List String) (w : String → ℚ) :
    dSum (l.map (fun q => (q, w q))) = (l.map w).sum := by
  simp [dSum, List.map_map]
  rfl

theorem foldl_dSet_graph_go (l : List String) (v : String → ℚ)
    (hnd : l.Nodup) (acc : Dict ℚ) (hdisj : ∀ p ∈ l, p ∉ dKeys acc) :
    l.foldl (fun acc p => dSet acc p (v p)) acc =
      acc ++ l.map (fun p => (p, v p)) := by
  induction l generalizing acc with
  | nil => simp
  | cons x t ih =>
    simp only [List.nodup_cons] at hnd
    simp only [List.foldl_cons]
    rw [dSet_eq_append acc x (v x) (hdisj x (by simp))]
    rw [ih hnd.2 (acc ++ [(x, v x)]) ?hdisj2]
    · simp
    case hdisj2 =>
      intro p hp
      simp only [dKeys, List.map_append, List.mem_append, not_or]
      refine ⟨fun hc => hdisj p (by simp [hp]) (by simpa [dKeys] using hc), ?_⟩
      simp only [List.map_cons, List.map_nil, List.mem_singleton]
      exact fun e => hnd.1 (e ▸ hp)

theorem foldl_dSet_graph (l : List String) (v : String → ℚ) (hnd : l.Nodup) :
    l.foldl (fun acc p => dSet acc p (v p)) [] =
      l.map (fun p => (p, v p)) := by
  simpa using foldl_dSet_graph_go l v hnd [] (by simp [dKeys])

/-! The parent weight accumulation fold in graph form. -/

theorem parent_weights_fold_go (ctx : YearCtx) (ys ye : Date) (diy : ℤ)
    (l : List String) (hnd : l.Nodup) (acc : List String × Dict ℚ)
    (hdisj : ∀ p ∈ l, p ∉ dKeys acc.2) :
    (l.foldl (fun (acc : List String × Dict ℚ) p =>
        match dGetI ctx.dep_intervals p with
        | none => acc
        | some i =>
          let pdays := overlap_days i.1 i.2 ys ye
          if pdays ≤ 0 then acc
          else
            (acc.1 ++ [p],
             dSet acc.2 p (dGet ctx.base p * ((pdays : ℚ) / (diy : ℚ))))) acc) =
      (acc.1 ++ l.filter (parent_active ctx ys ye),
       acc.2 ++ (l.filter (parent_active ctx ys ye)).map
         (fun p => (p, parent_weight ctx ys ye diy p))) := by
  induction l generalizing acc with
  | nil => simp
  | cons p t ih =>
    simp only [List.nodup_cons] at hnd
    simp only [List.foldl_cons]
    cases hi : dGetI ctx.dep_intervals p with
    | none =>
      have hact : parent_active ctx ys ye p = false := by
        simp [parent_active, hi]
      rw [List.filter_cons_of_neg (by simp [hact])]
      simp only [hi]
      exact ih hnd.2 acc (fun q hq => hdisj q (by simp [hq]))
    | some i =>
      by_cases hov : overlap_days i.1 i.2 ys ye ≤ 0
      · have hact : parent_active ctx ys ye p = false := by
          simp [parent_active, hi, hov]
        rw [List.filter_cons_of_neg (by simp [hact])]
        simp only [hi, if_pos hov]
        exact ih hnd.2 acc (fun q hq => hdisj q (by simp [hq]))
      · have hact : parent_active ctx ys ye p = true := by
          simp [parent_active, hi]
          omega
        have hw : parent_weight ctx ys ye diy p =
            dGet ctx.base p * ((overlap_days i.1 i.2 ys ye : ℚ) / (diy : ℚ)) := by
          simp [parent_weight, hi]
        rw [List.filter_cons_of_pos (by simp [hact])]
        simp only [hi, if_neg hov]
        rw [dSet_eq_append acc.2 p _ (hdisj p (by simp))]
        rw [ih hnd.2 (acc.1 ++ [p], acc.2 ++ [(p, _)]) ?hdisj2]
        · simp [hw]
        case hdisj2 =>
          intro q hq
          simp only [dKeys, List.map_append, List.mem_append, not_or]
          refine ⟨fun hc => hdisj q (by simp [hq]) (by simpa [dKeys] using hc), ?_⟩
          simp only [List.map_cons, List.map_nil, List.mem_singleton]
          exact fun e => hnd.1 (e ▸ hq)

/-! Erased-key lemmas (generic value type). -/

theorem dKeys_dErase_subset {α : Type} (d : Dict α) (k : String) :
    ∀ q ∈ dKeys (dErase d k), q ∈ dKeys d := by
  induction d with
  | nil => simp [dErase]
  | cons p t ih =>
    intro q hq
    by_cases hp : p.1 = k
    · simp only [dErase, if_pos hp] at hq
      simp [dKeys, hq]
      right
      simpa [dKeys] using hq
    · simp only [dErase, if_neg hp, dKeys, List.map_cons, List.mem_cons] at hq ⊢
      rcases hq with rfl | hq
      · exact Or.inl rfl
      · exact Or.inr (ih q (by simpa [dKeys] using hq))

theorem not_mem_dKeys_dErase {α : Type} (d : Dict α) (k : String)
    (hnd : (dKeys d).Nodup) : k ∉ dKeys (dErase d k) := by
  induction d with
  | nil => simp [dErase, dKeys]
  | cons p t ih =>
    simp only [dKeys, List.map_cons, List.nodup_cons] at hnd
    by_cases hp : p.1 = k
    · simp only [dErase, if_pos hp]
      rw [← hp]
      exact hnd.1
    · simp only [dErase, if_neg hp, dKeys, List.map_cons, List.mem_cons, not_or]
      exact ⟨fun e => hp e.symm, by simpa [dKeys] using ih hnd.2⟩

theorem nodup_dKeys_dErase {α : Type} (d : Dict α) (k : String)
    (hnd : (dKeys d).Nodup) : (dKeys (dErase d k)).Nodup := by
  induction d with
  | nil => simp [dErase, dKeys]
  | cons p t ih =>
    simp only [dKeys, List.map_cons, List.nodup_cons] at hnd
    by_cases hp : p.1 = k
    · simpa [dErase, if_pos hp, dKeys] using hnd.2
    · simp only [dErase, if_neg hp, dKeys, List.map_cons, List.nodup_cons]
      refine ⟨fun hc => hnd.1 ?_, by simpa [dKeys] using ih hnd.2⟩
      have := dKeys_dErase_subset t k p.1 (by simpa [dKeys] using hc)
      simpa [dKeys] using this

theorem sumKeys_eq_dSum_of (d : Dict ℚ) (ks : List String) (hks : ks.Nodup)
    (hd : (dKeys d).Nodup) (hsub : ∀ q ∈ dKeys d, q ∈ ks) :
    sumKeys d ks = dSum d := by
  induction ks generalizing d with
  | nil =>
    cases d with
    | nil => simp [sumKeys, dSum]
    | cons p t => exact absurd (hsub p.1 (by simp [dKeys])) (by simp)
  | cons k t ih =>
    simp only [List.nodup_cons] at hks
    have step : sumKeys d t = sumKeys (dErase d k) t := by
      simp only [sumKeys]
      congr 1
      refine List.map_congr_left (fun x hx => ?_)
      exact (dGet_dErase_ne d k x (fun e => hks.1 (e ▸ hx))).symm
    have hsub' : ∀ q ∈ dKeys (dErase d k), q ∈ t := by
      intro q hq
      have hqd := dKeys_dErase_subset d k q hq
      rcases List.mem_cons.1 (hsub q hqd) with rfl | hqt
      · exact absurd hq (not_mem_dKeys_dErase d q hd)
      · exact hqt
    have hrec := ih (dErase d k) hks.2 (nodup_dKeys_dErase d k hd) hsub'
    have h2 := dSum_dErase d k
    simp only [sumKeys, List.map_cons, List.sum_cons]
    have h3 : (t.map (fun x => dGet d x)).sum = sumKeys (dErase d k) t := by
      rw [← step]; rfl
    rw [h3, hrec, h2]
    ring

theorem values_nonneg_foldl_dSet {β : Type} (key : β → String)
    (val : β → ℚ) (l : List β) (init : Dict ℚ)
    (hv : ∀ b ∈ l, 0 ≤ val b) (hi : ∀ p ∈ init, 0 ≤ p.2) :
    ∀ p ∈ l.foldl (fun acc x => dSet acc (key x) (val x)) init, 0 ≤ p.2 := by
  induction l generalizing init with
  | nil => exact hi
  | cons b t ih =>
    simp only [List.foldl_cons]
    exact ih _ (fun x hx => hv x (by simp [hx]))
      (values_nonneg_dSet init (key b) (val b) hi (hv b (by simp)))

theorem parent_weights_fold_spec (ctx : YearCtx) (ys ye : Date) (diy : ℤ)
    (hnd : ctx.parents.Nodup) :
    parent_weights_fold ctx ys ye diy =
      (ctx.parents.filter (parent_active ctx ys ye),
       (ctx.parents.filter (parent_active ctx ys ye)).map
         (fun p => (p, parent_weight ctx ys ye diy p))) := by
  simpa [parent_weights_fold] using
    parent_weights_fold_go ctx ys ye diy ctx.parents hnd ([], [])
      (by simp [dKeys])

/-! Base-share and parent-name lemmas. -/

theorem base_weight_pos (d : Dependent) : 0 < base_weight d := by
  simp only [base_weight]
  cases d.dep_type
  · norm_num
  · norm_num
  · split_ifs <;> norm_num
  · split_ifs <;> norm_num
  · norm_num

theorem base_shares_eq (ci : CalculationInput) :
    base_shares ci = ci.dependents.foldl
      (fun acc d => dSet acc d.person.name (base_weight d))
      (dSet [] destekKey 2) := by
  simp only [base_shares]
  suffices h : ∀ (l : List Dependent) (init : Dict ℚ),
      (l.foldl (fun shares d =>
        match d.dep_type with
        | .SPOUSE => dSet shares d.person.name 2
        | .CHILD => dSet shares d.person.name 1
        | .MOTHER | .FATHER =>
          dSet shares d.person.name (if d.reduced_share then 1/2 else 1)
        | .OTHER => dSet shares d.person.name 1) init) =
      l.foldl (fun acc d => dSet acc d.person.name (base_weight d)) init by
    exact h _ _
  intro l
  induction l with
  | nil => intro init; rfl
  | cons d t ih =>
    intro init
    simp only [List.foldl_cons]
    rw [ih]
    congr 1
    cases htype : d.dep_type <;> simp [base_weight, htype]

theorem dGet_base_shares (ci : CalculationInput)
    (hnd : (ci.dependents.map (fun d => d.person.name)).Nodup)
    (d : Dependent) (hd : d ∈ ci.dependents) :
    dGet (base_shares ci) d.person.name = base_weight d := by
  rw [base_shares_eq]
  exact dGet_foldl_dSet_last (fun d => d.person.name) base_weight
    ci.dependents _ d hd hnd

theorem values_nonneg_base_shares (ci : CalculationInput) :
    ∀ p ∈ base_shares ci, 0 ≤ p.2 := by
  rw [base_shares_eq]
  apply values_nonneg_foldl_dSet
  · intro b _
    exact le_of_lt (base_weight_pos b)
  · intro p hp
    simp only [dSet, List.mem_singleton] at hp
    subst hp
    norm_num

theorem parent_names_sublist (ci : CalculationInput) :
    (parent_names ci).Sublist (ci.dependents.map (fun d => d.person.name)) := by
  simp only [parent_names]
  induction ci.dependents with
  | nil => simp
  | cons d t ih =>
    simp only [List.filterMap_cons, List.map_cons]
    by_cases hc : d.dep_type = .MOTHER ∨ d.dep_type = .FATHER
    · rw [if_pos hc]
      exact ih.cons₂ _
    · rw [if_neg hc]
      exact ih.cons _

theorem parent_names_nodup (ci : CalculationInput)
    (hnd : (ci.dependents.map (fun d => d.person.name)).Nodup) :
    (parent_names ci).Nodup :=
  hnd.sublist (parent_names_sublist ci)

theorem mem_parent_names (ci : CalculationInput) (p : String) :
    p ∈ parent_names ci ↔ ∃ d ∈ ci.dependents,
      (d.dep_type = .MOTHER ∨ d.dep_type = .FATHER) ∧ d.person.name = p := by
  simp only [parent_names, List.mem_filterMap]
  constructor
  · rintro ⟨d, hd, hf⟩
    by_cases hc : d.dep_type = .MOTHER ∨ d.dep_type = .FATHER
    · rw [if_pos hc] at hf
      exact ⟨d, hd, hc, Option.some_inj.1 hf⟩
    · rw [if_neg hc] at hf
      cases hf
  · rintro ⟨d, hd, hc, rfl⟩
    exact ⟨d, hd, by rw [if_pos hc]⟩

theorem base_pos_on_parents (ci : CalculationInput)
    (hnd : (ci.dependents.map (fun d => d.person.name)).Nodup) :
    ∀ p ∈ parent_names ci, 0 < dGet (base_shares ci) p := by
  intro p hp
  obtain ⟨d, hd, _, rfl⟩ := (mem_parent_names ci p).1 hp
  rw [dGet_base_shares ci hnd d hd]
  exact base_weight_pos d

theorem parent_fraction_bounds (ci : CalculationInput)
    (hnd : (ci.dependents.map (fun d => d.person.name)).Nodup) :
    0 ≤ (mkYearCtx ci).parent_fraction ∧ (mkYearCtx ci).parent_fraction ≤ 1 := by
  have heq : (mkYearCtx ci).parent_fraction =
      (if 0 < dSum (base_shares ci) ∧
          0 < ((parent_names ci).map (fun p => dGet (base_shares ci) p)).sum then
        ((parent_names ci).map (fun p => dGet (base_shares ci) p)).sum /
          dSum (base_shares ci)
      else 0) := rfl
  rw [heq]
  split_ifs with h
  · have hle : ((parent_names ci).map (fun p => dGet (base_shares ci) p)).sum ≤
        dSum (base_shares ci) :=
      sumKeys_le_dSum (base_shares ci) (parent_names ci)
        (parent_names_nodup ci hnd) (values_nonneg_base_shares ci)
    constructor
    · exact div_nonneg (le_of_lt h.2) (le_of_lt h.1)
    · rw [div_le_one h.1]
      exact hle
  · norm_num

/-! Parent-pool lemmas. -/

theorem parent_active_true (ctx : YearCtx) (ys ye : Date) (p : String)
    (h : parent_active ctx ys ye p = true) :
    ∃ i, dGetI ctx.dep_intervals p = some i ∧
      0 < overlap_days i.1 i.2 ys ye := by
  unfold parent_active at h
  cases hi : dGetI ctx.dep_intervals p with
  | none => rw [hi] at h; cases h
  | some i =>
    rw [hi] at h
    exact ⟨i, rfl, by simpa using h⟩

theorem parent_weight_pos (ctx : YearCtx) (ys ye : Date) (diy : ℤ)
    (p : String) (hdiy : 0 < diy) (hb : 0 < dGet ctx.base p)
    (h : parent_active ctx ys ye p = true) :
    0 < parent_weight ctx ys ye diy p := by
  obtain ⟨i, hi, hov⟩ := parent_active_true ctx ys ye p h
  simp only [parent_weight, hi]
  apply mul_pos hb
  apply div_pos
  · exact_mod_cast hov
  · exact_mod_cast hdiy

theorem parent_alloc_sum (A : List String) (w : String → ℚ) (pt : ℚ)
    (hnd : A.Nodup) (hpos : 0 < (A.map (fun r => w r)).sum) :
    dSum (A.foldl (fun acc r =>
      dSet acc r (pt * (dGet (A.map (fun x => (x, w x))) r /
        (if dSum (A.map (fun x => (x, w x))) = 0 then 1
         else dSum (A.map (fun x => (x, w x))))))) []) = pt := by
  have hS : dSum (A.map (fun x => (x, w x))) = (A.map (fun r => w r)).sum :=
    dSum_graph A w
  rw [foldl_dSet_graph A (fun r => pt * (dGet (A.map (fun x => (x, w x))) r /
        (if dSum (A.map (fun x => (x, w x))) = 0 then 1
         else dSum (A.map (fun x => (x, w x)))))) hnd]
  rw [dSum_graph]
  simp only [hS, if_neg (ne_of_gt hpos)]
  have hmap : A.map (fun r => pt * (dGet (A.map (fun x => (x, w x))) r /
      (A.map (fun r => w r)).sum)) =
      A.map (fun r => (pt / (A.map (fun r => w r)).sum) * w r) :=
    List.map_congr_left (fun r hr => by
      rw [dGet_graph A w r hr hnd]
      ring)
  rw [hmap, List.sum_map_mul_left, div_mul_cancel₀ _ (ne_of_gt hpos)]

theorem parent_pool_sum_eq (ctx : YearCtx) (ys ye : Date) (diy : ℤ) (pv : ℚ)
    (hpnd : ctx.parents.Nodup) (hdiy : 0 < diy)
    (hbase : ∀ p ∈ ctx.parents, 0 < dGet ctx.base p) :
    dSum (parent_pool ctx ys ye diy pv).1 =
      (parent_pool ctx ys ye diy pv).2 := by
  simp only [parent_pool]
  rw [parent_weights_fold_spec ctx ys ye diy hpnd]
  dsimp only
  by_cases hsep : ctx.ci.separate_parent_pool
  case neg => rw [if_neg hsep]; simp [dSum]
  simp only [if_pos hsep]
  by_cases hcond : ctx.parents.filter (parent_active ctx ys ye) ≠ [] ∧
      0 < ctx.parent_fraction
  case neg => rw [if_neg hcond]; simp [dSum]
  rw [if_pos hcond]
  cases hA : ctx.parents.filter (parent_active ctx ys ye) with
  | nil => rw [hA] at hcond; exact absurd rfl hcond.1
  | cons p t =>
    cases t with
    | nil => simp [dSet, dSum]
    | cons q t2 =>
      have hndA : (p :: q :: t2).Nodup := by
        have := hpnd.filter (parent_active ctx ys ye)
        rw [hA] at this
        exact this
      have hmem : ∀ r ∈ p :: q :: t2,
          r ∈ ctx.parents ∧ parent_active ctx ys ye r = true := by
        intro r hr
        rw [← hA] at hr
        exact ⟨(List.mem_filter.1 hr).1, (List.mem_filter.1 hr).2⟩
      have hSpos : 0 < ((p :: q :: t2).map
          (fun r => parent_weight ctx ys ye diy r)).sum := by
        apply List.sum_pos
        · intro x hx
          obtain ⟨r, hr, rfl⟩ := List.mem_map.1 hx
          exact parent_weight_pos ctx ys ye diy r hdiy
            (hbase r (hmem r hr).1) (hmem r hr).2
        · simp
      exact parent_alloc_sum (p :: q :: t2)
        (parent_weight ctx ys ye diy) _ hndA hSpos

theorem dKeys_foldl_alloc (A : List String) (w : String → ℚ) (pt : ℚ)
    (hnd : A.Nodup) :
    dKeys (A.foldl (fun acc r =>
      dSet acc r (pt * (dGet (A.map (fun x => (x, w x))) r /
        (if dSum (A.map (fun x => (x, w x))) = 0 then 1
         else dSum (A.map (fun x => (x, w x))))))) []) = A := by
  rw [foldl_dSet_graph A (fun r => pt * (dGet (A.map (fun x => (x, w x))) r /
        (if dSum (A.map (fun x => (x, w x))) = 0 then 1
         else dSum (A.map (fun x => (x, w x)))))) hnd]
  exact dKeys_graph A _

theorem parent_pool_keys (ctx : YearCtx) (ys ye : Date) (diy : ℤ) (pv : ℚ)
    (hpnd : ctx.parents.Nodup) :
    (dKeys (parent_pool ctx ys ye diy pv).1).Nodup ∧
    ∀ q ∈ dKeys (parent_pool ctx ys ye diy pv).1,
      q ∈ ctx.parents ∧ parent_active ctx ys ye q = true := by
  simp only [parent_pool]
  rw [parent_weights_fold_spec ctx ys ye diy hpnd]
  dsimp only
  by_cases hsep : ctx.ci.separate_parent_pool
  case neg => rw [if_neg hsep]; simp [dKeys]
  simp only [if_pos hsep]
  by_cases hcond : ctx.parents.filter (parent_active ctx ys ye) ≠ [] ∧
      0 < ctx.parent_fraction
  case neg => rw [if_neg hcond]; simp [dKeys]
  rw [if_pos hcond]
  cases hA : ctx.parents.filter (parent_active ctx ys ye) with
  | nil => rw [hA] at hcond; exact absurd rfl hcond.1
  | cons p t =>
    have hmem : ∀ r ∈ p :: t,
        r ∈ ctx.parents ∧ parent_active ctx ys ye r = true := by
      intro r hr
      rw [← hA] at hr
      exact ⟨(List.mem_filter.1 hr).1, (List.mem_filter.1 hr).2⟩
    have hndA : (p :: t).Nodup := by
      have := hpnd.filter (parent_active ctx ys ye)
      rw [hA] at this
      exact this
    cases t with
    | nil =>
      constructor
      · simp [dSet, dKeys]
      · intro q hq
        simp only [dSet, dKeys, List.map_cons, List.map_nil,
          List.mem_singleton] at hq
        subst hq
        exact hmem q (by simp)
    | cons r t2 =>
      rw [dKeys_foldl_alloc (p :: r :: t2) (parent_weight ctx ys ye diy) _ hndA]
      exact ⟨hndA, hmem⟩

theorem parent_pool_total_facts (ctx : YearCtx) (ys ye : Date) (diy : ℤ)
    (pv : ℚ) (hpv : 0 ≤ pv) (hpf : ctx.parent_fraction ≤ 1) :
    0 ≤ (parent_pool ctx ys ye diy pv).2 ∧
    (parent_pool ctx ys ye diy pv).2 ≤ pv ∧
    (ctx.ci.parent_share_cap_25_enabled = true →
      spouse_or_child_active ctx ys ye = true →
      (parent_pool ctx ys ye diy pv).2 ≤ pv * (1/4)) := by
  simp only [parent_pool]
  by_cases hsep : ctx.ci.separate_parent_pool
  case neg =>
    rw [if_neg hsep]
    refine ⟨le_refl 0, hpv, fun _ _ => by positivity⟩
  simp only [if_pos hsep]
  by_cases hcond : (parent_weights_fold ctx ys ye diy).1 ≠ [] ∧
      0 < ctx.parent_fraction
  case neg =>
    rw [if_neg hcond]
    refine ⟨le_refl 0, hpv, fun _ _ => by positivity⟩
  rw [if_pos hcond]
  have hpt : 0 ≤ (if ctx.ci.parent_share_cap_25_enabled = true ∧
        spouse_or_child_active ctx ys ye = true ∧
        pv * (1/4) < pv * ctx.parent_fraction then pv * (1/4)
      else pv * ctx.parent_fraction) ∧
      (if ctx.ci.parent_share_cap_25_enabled = true ∧
        spouse_or_child_active ctx ys ye = true ∧
        pv * (1/4) < pv * ctx.parent_fraction then pv * (1/4)
      else pv * ctx.parent_fraction) ≤ pv ∧
      (ctx.ci.parent_share_cap_25_enabled = true →
        spouse_or_child_active ctx ys ye = true →
        (if ctx.ci.parent_share_cap_25_enabled = true ∧
          spouse_or_child_active ctx ys ye = true ∧
          pv * (1/4) < pv * ctx.parent_fraction then pv * (1/4)
        else pv * ctx.parent_fraction) ≤ pv * (1/4)) := by
    split_ifs with hb
    · refine ⟨by positivity, by linarith, fun _ _ => le_refl _⟩
    · have h0 : 0 ≤ pv * ctx.parent_fraction :=
        mul_nonneg hpv (le_of_lt hcond.2)
      have h1 : pv * ctx.parent_fraction ≤ pv * 1 :=
        mul_le_mul_of_nonneg_left hpf hpv
      refine ⟨h0, by linarith, fun hc hs => ?_⟩
      rcases not_and_or.1 hb with hc2 | hb2
      · exact absurd hc hc2
      rcases not_and_or.1 hb2 with hs2 | hlt
      · exact absurd hs hs2
      · exact not_lt.1 hlt
  cases hA : (parent_weights_fold ctx ys ye diy).1 with
  | nil => rw [hA] at hcond; exact absurd rfl hcond.1
  | cons p t =>
    cases t with
    | nil => exact hpt
    | cons r t2 => exact hpt

/-! Virtual-interval keys. -/

set_option maxHeartbeats 400000 in
theorem virtual_keys (ci : CalculationInput) (se : Date) :
    ∀ k ∈ dKeys (virtuals_of ci se).1,
      k = labelSpouse ∨ k = labelChild1 ∨ k = labelChild2 := by
  intro k hk
  simp only [virtuals_of] at hk
  have hnil : dKeys ([] : Dict (Date × Date)) = [] := rfl
  split_ifs at hk <;>
    simp only [mem_dKeys_dSet, hnil, List.not_mem_nil, false_or, or_false] at hk <;>
    clear * - hk <;>
    tauto

/-! Weight-dict (step 5.b) lemmas. -/

theorem npw_dep_step_pres (ctx : YearCtx) (ys ye : Date) (diy : ℤ)
    (acc : Dict ℚ) (d : Dependent) (K : String) (hK : d.person.name ≠ K) :
    dFind? (npw_dep_step ctx ys ye diy acc d) K = dFind? acc K := by
  simp only [npw_dep_step]
  cases hi : dGetI ctx.dep_intervals d.person.name with
  | none => rfl
  | some i =>
    dsimp only
    by_cases hdays : overlap_days i.1 i.2 ys ye ≤ 0
    · rw [if_pos hdays]
    · rw [if_neg hdays]
      cases d.dep_type with
      | SPOUSE => exact dFind?_dSet_ne _ _ _ _ hK
      | CHILD => exact dFind?_dSet_ne _ _ _ _ hK
      | MOTHER => split_ifs <;> first | exact dFind?_dSet_ne _ _ _ _ hK | rfl
      | FATHER => split_ifs <;> first | exact dFind?_dSet_ne _ _ _ _ hK | rfl
      | OTHER => rfl

theorem npw_virt_step_pres (ys ye : Date) (diy : ℤ) (acc : Dict ℚ)
    (p : String × (Date × Date)) (K : String) (hK : p.1 ≠ K) :
    dFind? (npw_virt_step ys ye diy acc p) K = dFind? acc K := by
  simp only [npw_virt_step]
  split_ifs <;> first | rfl | exact dFind?_dSet_ne _ _ _ _ hK

theorem npw_dep_step_zero (ctx : YearCtx) (ys ye : Date) (diy : ℤ)
    (acc : Dict ℚ) (d : Dependent) (K : String) (hz : dGet acc K = 0)
    (hKn : dGetI ctx.dep_intervals K = none) :
    dGet (npw_dep_step ctx ys ye diy acc d) K = 0 := by
  by_cases hname : d.person.name = K
  · simp only [npw_dep_step, hname, hKn]
    exact hz
  · rw [show dGet (npw_dep_step ctx ys ye diy acc d) K = dGet acc K from by
      simp [dGet, npw_dep_step_pres ctx ys ye diy acc d K hname]]
    exact hz

theorem npw_dep_step_parent_sep (ctx : YearCtx) (ys ye : Date) (diy : ℤ)
    (acc : Dict ℚ) (d : Dependent)
    (hsep : ctx.ci.separate_parent_pool = true)
    (htype : d.dep_type = .MOTHER ∨ d.dep_type = .FATHER) :
    npw_dep_step ctx ys ye diy acc d = acc := by
  simp only [npw_dep_step]
  cases hi : dGetI ctx.dep_intervals d.person.name with
  | none => rfl
  | some i =>
    dsimp only
    split_ifs with hdays
    · rfl
    · rcases htype with h | h <;> rw [h] <;> simp [hsep]

theorem dGet_npw_destek (ctx : YearCtx) (ys ye : Date) (diy : ℤ) (f : ℚ)
    (hnames : ∀ d ∈ ctx.ci.dependents, d.person.name ≠ destekKey)
    (hvk : ∀ k ∈ dKeys ctx.virtual_intervals, k ≠ destekKey) :
    dGet (non_parent_weights_of ctx ys ye diy f) destekKey = 2 * f := by
  simp only [non_parent_weights_of, dGet]
  rw [dFind?_foldl_pres _ _ destekKey _ (fun acc p hp =>
    npw_virt_step_pres ys ye diy acc p destekKey
      (hvk p.1 (List.mem_map_of_mem Prod.fst hp)))]
  rw [dFind?_foldl_pres _ _ destekKey _ (fun acc d hd =>
    npw_dep_step_pres ctx ys ye diy acc d destekKey (hnames d hd))]
  rw [dFind?_dSet_self]
  rfl

theorem dGet_npw_zero (ctx : YearCtx) (ys ye : Date) (diy : ℤ) (f : ℚ)
    (K : String) (hKd : K ≠ destekKey)
    (hKn : dGetI ctx.dep_intervals K = none)
    (hvk : ∀ k ∈ dKeys ctx.virtual_intervals, k ≠ K) :
    dGet (non_parent_weights_of ctx ys ye diy f) K = 0 := by
  simp only [non_parent_weights_of]
  have h1 : dGet ((dSet [] destekKey (2 * f))) K = 0 := by
    rw [dGet_dSet_ne _ _ _ _ (fun e => hKd e.symm)]
    simp [dGet, dFind?]
  have h2 : dGet (ctx.ci.dependents.foldl
      (npw_dep_step ctx ys ye diy) (dSet [] destekKey (2 * f))) K = 0 :=
    dGet_foldl_zero _ _ K _
      (fun acc d _ hz => npw_dep_step_zero ctx ys ye diy acc d K hz hKn) h1
  have h3 : dFind? (ctx.virtual_intervals.foldl (npw_virt_step ys ye diy)
      (ctx.ci.dependents.foldl (npw_dep_step ctx ys ye diy)
        (dSet [] destekKey (2 * f)))) K =
      dFind? (ctx.ci.dependents.foldl (npw_dep_step ctx ys ye diy)
        (dSet [] destekKey (2 * f))) K :=
    dFind?_foldl_pres _ _ K _ (fun acc p hp =>
      npw_virt_step_pres ys ye diy acc p K
        (hvk p.1 (List.mem_map_of_mem Prod.fst hp)))
  simp only [dGet] at h2 ⊢
  rw [h3]
  exact h2

theorem dGet_npw_parent_sep (ctx : YearCtx) (ys ye : Date) (diy : ℤ) (f : ℚ)
    (K : String) (hKd : K ≠ destekKey)
    (hsep : ctx.ci.separate_parent_pool = true)
    (hKparent : ∀ d ∈ ctx.ci.dependents, d.person.name = K →
      (d.dep_type = .MOTHER ∨ d.dep_type = .FATHER))
    (hvk : ∀ k ∈ dKeys ctx.virtual_intervals, k ≠ K) :
    dGet (non_parent_weights_of ctx ys ye diy f) K = 0 := by
  simp only [non_parent_weights_of]
  have h1 : dGet ((dSet [] destekKey (2 * f))) K = 0 := by
    rw [dGet_dSet_ne _ _ _ _ (fun e => hKd e.symm)]
    simp [dGet, dFind?]
  have h2 : dGet (ctx.ci.dependents.foldl
      (npw_dep_step ctx ys ye diy) (dSet [] destekKey (2 * f))) K = 0 := by
    refine dGet_foldl_zero _ _ K _ (fun acc d hd hz => ?_) h1
    by_cases hname : d.person.name = K
    · rw [npw_dep_step_parent_sep ctx ys ye diy acc d hsep (hKparent d hd hname)]
      exact hz
    · rw [show dGet (npw_dep_step ctx ys ye diy acc d) K = dGet acc K from by
        simp [dGet, npw_dep_step_pres ctx ys ye diy acc d K hname]]
      exact hz
  have h3 : dFind? (ctx.virtual_intervals.foldl (npw_virt_step ys ye diy)
      (ctx.ci.dependents.foldl (npw_dep_step ctx ys ye diy)
        (dSet [] destekKey (2 * f)))) K =
      dFind? (ctx.ci.dependents.foldl (npw_dep_step ctx ys ye diy)
        (dSet [] destekKey (2 * f))) K :=
    dFind?_foldl_pres _ _ K _ (fun acc p hp =>
      npw_virt_step_pres ys ye diy acc p K
        (hvk p.1 (List.mem_map_of_mem Prod.fst hp)))
  simp only [dGet] at h2 ⊢
  rw [h3]
  exact h2

/-! Shape lemmas: each weight / adjustment step is a no-op or a single
`dSet` at the party's own key. -/

theorem npw_dep_step_shape (ctx : YearCtx) (ys ye : Date) (diy : ℤ)
    (acc : Dict ℚ) (d : Dependent) (hdiy : 0 < diy) :
    npw_dep_step ctx ys ye diy acc d = acc ∨
    ∃ v, 0 ≤ v ∧ npw_dep_step ctx ys ye diy acc d =
      dSet acc d.person.name (dGet acc d.person.name + v) := by
  simp only [npw_dep_step]
  cases hi : dGetI ctx.dep_intervals d.person.name with
  | none => exact Or.inl rfl
  | some i =>
    dsimp only
    by_cases hdays : overlap_days i.1 i.2 ys ye ≤ 0
    · rw [if_pos hdays]
      exact Or.inl rfl
    · rw [if_neg hdays]
      have hfrac : (0 : ℚ) ≤ (overlap_days i.1 i.2 ys ye : ℚ) / (diy : ℚ) := by
        apply div_nonneg
        · exact_mod_cast le_of_lt (not_le.1 hdays)
        · exact_mod_cast le_of_lt hdiy
      cases d.dep_type with
      | SPOUSE => exact Or.inr ⟨_, by linarith, rfl⟩
      | CHILD => exact Or.inr ⟨_, by linarith, rfl⟩
      | MOTHER =>
        dsimp only
        split_ifs
        · exact Or.inl rfl
        · exact Or.inr ⟨_, by linarith, rfl⟩
        · exact Or.inr ⟨_, by linarith, rfl⟩
      | FATHER =>
        dsimp only
        split_ifs
        · exact Or.inl rfl
        · exact Or.inr ⟨_, by linarith, rfl⟩
        · exact Or.inr ⟨_, by linarith, rfl⟩
      | OTHER => exact Or.inl rfl

theorem npw_virt_step_shape (ys ye : Date) (diy : ℤ) (acc : Dict ℚ)
    (p : String × (Date × Date)) (hdiy : 0 < diy) :
    npw_virt_step ys ye diy acc p = acc ∨
    ∃ v, 0 ≤ v ∧ npw_virt_step ys ye diy acc p =
      dSet acc p.1 (dGet acc p.1 + v) := by
  simp only [npw_virt_step]
  by_cases hdays : overlap_days p.2.1 p.2.2 ys ye ≤ 0
  · rw [if_pos hdays]
    exact Or.inl rfl
  · rw [if_neg hdays]
    have hfrac : (0 : ℚ) ≤ (overlap_days p.2.1 p.2.2 ys ye : ℚ) / (diy : ℚ) := by
      apply div_nonneg
      · exact_mod_cast le_of_lt (not_le.1 hdays)
      · exact_mod_cast le_of_lt hdiy
    right
    refine ⟨_, ?_, rfl⟩
    split_ifs <;> linarith

theorem ayim_dep_step_shape (ctx : YearCtx) (year : ℤ) (ys ye : Date)
    (u : ℤ) (acc : Dict ℚ) (d : Dependent) :
    ayim_dep_step ctx year ys ye u acc d = acc ∨
    (d.dep_type = .SPOUSE ∧
      ∃ c, ayim_dep_step ctx year ys ye u acc d =
        dSet acc d.person.name (dGet acc d.person.name * c)) := by
  simp only [ayim_dep_step]
  by_cases hsp : d.dep_type = .SPOUSE ∧ d.apply_marriage_discount = true
  · rw [if_pos hsp]
    cases hi : dGetI ctx.dep_intervals d.person.name with
    | none => exact Or.inl rfl
    | some i =>
      dsimp only
      split_ifs
      · exact Or.inl rfl
      · exact Or.inr ⟨hsp.1, _, rfl⟩
  · rw [if_neg hsp]
    exact Or.inl rfl

/-! Generic fold preservation of key-set properties. -/

theorem nodup_dKeys_foldl {β : Type} (l : List β)
    (step : Dict ℚ → β → Dict ℚ) (init : Dict ℚ)
    (hstep : ∀ acc, ∀ x ∈ l, (dKeys acc).Nodup → (dKeys (step acc x)).Nodup)
    (hinit : (dKeys init).Nodup) : (dKeys (l.foldl step init)).Nodup := by
  induction l generalizing init with
  | nil => exact hinit
  | cons x t ih =>
    simp only [List.foldl_cons]
    exact ih _ (fun acc y hy => hstep acc y (by simp [hy]))
      (hstep init x (by simp) hinit)

theorem values_nonneg_foldl_of {β : Type} (l : List β)
    (step : Dict ℚ → β → Dict ℚ) (init : Dict ℚ)
    (hstep : ∀ acc, ∀ x ∈ l, (∀ p ∈ acc, 0 ≤ p.2) → ∀ p ∈ step acc x, 0 ≤ p.2)
    (hinit : ∀ p ∈ init, 0 ≤ p.2) : ∀ p ∈ l.foldl step init, 0 ≤ p.2 := by
  induction l generalizing init with
  | nil => exact hinit
  | cons x t ih =>
    simp only [List.foldl_cons]
    exact ih _ (fun acc y hy => hstep acc y (by simp [hy]))
      (hstep init x (by simp) hinit)

/-! Aggregate facts about the non-parent weight dict. -/

theorem nodup_dKeys_npw (ctx : YearCtx) (ys ye : Date) (diy : ℤ) (f : ℚ)
    (hdiy : 0 < diy) :
    (dKeys (non_parent_weights_of ctx ys ye diy f)).Nodup := by
  simp only [non_parent_weights_of]
  apply nodup_dKeys_foldl
  · intro acc p _ hacc
    rcases npw_virt_step_shape ys ye diy acc p hdiy with he | ⟨v, _, he⟩ <;>
      rw [he]
    · exact hacc
    · exact nodup_dKeys_dSet _ _ _ hacc
  · apply nodup_dKeys_foldl
    · intro acc d _ hacc
      rcases npw_dep_step_shape ctx ys ye diy acc d hdiy with he | ⟨v, _, he⟩ <;>
        rw [he]
      · exact hacc
      · exact nodup_dKeys_dSet _ _ _ hacc
    · simp [dSet, dKeys]

theorem values_nonneg_npw (ctx : YearCtx) (ys ye : Date) (diy : ℤ) (f : ℚ)
    (hdiy : 0 < diy) (hf : 0 ≤ f) :
    ∀ p ∈ non_parent_weights_of ctx ys ye diy f, 0 ≤ p.2 := by
  simp only [non_parent_weights_of]
  apply values_nonneg_foldl_of
  · intro acc p _ hacc
    rcases npw_virt_step_shape ys ye diy acc p hdiy with he | ⟨v, hv, he⟩ <;>
      rw [he]
    · exact hacc
    · exact values_nonneg_dSet _ _ _ hacc
        (by linarith [dGet_nonneg acc p.1 hacc])
  · apply values_nonneg_foldl_of
    · intro acc d _ hacc
      rcases npw_dep_step_shape ctx ys ye diy acc d hdiy with he | ⟨v, hv, he⟩ <;>
        rw [he]
      · exact hacc
      · exact values_nonneg_dSet _ _ _ hacc
          (by linarith [dGet_nonneg acc d.person.name hacc])
    · intro p hp
      simp only [dSet, List.mem_singleton] at hp
      subst hp
      simpa using by linarith

theorem dSum_npw_pos (ctx : YearCtx) (ys ye : Date) (diy : ℤ) (f : ℚ)
    (hdiy : 0 < diy) (hf : 0 < f)
    (hnames : ∀ d ∈ ctx.ci.dependents, d.person.name ≠ destekKey)
    (hvk : ∀ k ∈ dKeys ctx.virtual_intervals, k ≠ destekKey) :
    0 < dSum (non_parent_weights_of ctx ys ye diy f) := by
  have h1 := dGet_npw_destek ctx ys ye diy f hnames hvk
  have h2 := dGet_le_dSum (non_parent_weights_of ctx ys ye diy f) destekKey
    (values_nonneg_npw ctx ys ye diy f hdiy (le_of_lt hf))
  rw [h1] at h2
  linarith

/-! Scaling folds (the 25% cap correction). -/

theorem dHas_iff {α : Type} (d : Dict α) (k : String) :
    dHas d k = true ↔ k ∈ dKeys d := by
  induction d with
  | nil => simp [dHas, dFind?, dKeys]
  | cons p t ih =>
    by_cases hp : p.1 = k
    · simp [dHas, dFind?, dKeys, hp]
    · have hk : ¬k = p.1 := fun e => hp e.symm
      simp only [dKeys, List.map_cons, List.mem_cons, hk, false_or]
      rw [show dHas (p :: t) k = dHas t k from by simp [dHas, dFind?, hp]]
      simpa [dKeys] using ih

theorem dGet_eq_zero_of_not_dHas (d : Dict ℚ) (k : String)
    (h : ¬dHas d k = true) : dGet d k = 0 := by
  simp only [dGet]
  cases hf : dFind? d k with
  | none => rfl
  | some v => exact absurd (by simp [dHas, hf]) h

theorem dKeys_dSet_of_mem {α : Type} (d : Dict α) (k : String) (v : α)
    (h : k ∈ dKeys d) : dKeys (dSet d k v) = dKeys d := by
  induction d with
  | nil => simp [dKeys] at h
  | cons p t ih =>
    by_cases hp : p.1 = k
    · simp [dSet, hp, dKeys]
    · have hk : k ∈ dKeys t := by
        rcases List.mem_cons.1 h with e | e
        · exact absurd e.symm hp
        · exact e
      simp only [dSet, if_neg hp, dKeys, List.map_cons]
      have := ih hk
      simp only [dKeys] at this
      rw [this]

theorem dKeys_scale_guard (l : List String) (c : ℚ) (d : Dict ℚ) :
    dKeys (l.foldl (fun acc p =>
      if dHas acc p then dSet acc p (dGet acc p * c) else acc) d) = dKeys d := by
  induction l generalizing d with
  | nil => rfl
  | cons p t ih =>
    simp only [List.foldl_cons]
    rw [ih]
    by_cases hp : dHas d p = true
    · rw [if_pos hp]
      exact dKeys_dSet_of_mem d p _ ((dHas_iff d p).1 hp)
    · rw [if_neg hp]

theorem dGet_scale_guard (l : List String) (c : ℚ) (d : Dict ℚ)
    (hnd : l.Nodup) (K : String) :
    dGet (l.foldl (fun acc p =>
      if dHas acc p then dSet acc p (dGet acc p * c) else acc) d) K =
      if K ∈ l ∧ K ∈ dKeys d then dGet d K * c else dGet d K := by
  induction l generalizing d with
  | nil => simp
  | cons p t ih =>
    simp only [List.nodup_cons] at hnd
    simp only [List.foldl_cons]
    by_cases hKp : K = p
    · subst hKp
      by_cases hmem : K ∈ dKeys d
      · rw [show (if dHas d K = true then dSet d K (dGet d K * c) else d) =
            dSet d K (dGet d K * c) from if_pos ((dHas_iff d K).2 hmem)]
        rw [ih _ hnd.2]
        rw [if_neg (fun hc => hnd.1 hc.1)]
        rw [dGet_dSet_self]
        rw [if_pos ⟨by simp, hmem⟩]
      · rw [show (if dHas d K = true then dSet d K (dGet d K * c) else d) = d
            from if_neg (fun hc => hmem ((dHas_iff d K).1 hc))]
        rw [ih _ hnd.2]
        rw [if_neg (fun hc => hnd.1 hc.1), if_neg (fun hc => hmem hc.2)]
    · have hstep : dGet (if dHas d p = true then dSet d p (dGet d p * c) else d)
          K = dGet d K := by
        split_ifs
        · exact dGet_dSet_ne _ _ _ _ (fun e => hKp e.symm)
        · rfl
      have hkeys : dKeys (if dHas d p = true then
          dSet d p (dGet d p * c) else d) = dKeys d := by
        split_ifs with hp
        · exact dKeys_dSet_of_mem d p _ ((dHas_iff d p).1 hp)
        · rfl
      rw [ih _ hnd.2, hkeys, hstep]
      by_cases hKd : K ∈ dKeys d
      · by_cases hKt : K ∈ t
        · rw [if_pos ⟨hKt, hKd⟩, if_pos ⟨by simp [hKt], hKd⟩]
        · rw [if_neg (fun hc => hKt hc.1), if_neg ?_]
          intro hc
          rcases List.mem_cons.1 hc.1 with e | e
          · exact hKp e
          · exact hKt e
      · rw [if_neg (fun hc => hKd hc.2), if_neg (fun hc => hKd hc.2)]

theorem dKeys_scale_all (l : List String) (c : ℚ) (d : Dict ℚ)
    (hsub : ∀ k ∈ l, k ∈ dKeys d) :
    dKeys (l.foldl (fun acc n => dSet acc n (dGet acc n * c)) d) = dKeys d := by
  induction l generalizing d with
  | nil => rfl
  | cons p t ih =>
    simp only [List.foldl_cons]
    have hk : dKeys (dSet d p (dGet d p * c)) = dKeys d :=
      dKeys_dSet_of_mem d p _ (hsub p (by simp))
    rw [ih _ (fun k hk2 => by rw [hk]; exact hsub k (by simp [hk2])), hk]

theorem dGet_scale_all (l : List String) (c : ℚ) (d : Dict ℚ)
    (hnd : l.Nodup) (hsub : ∀ k ∈ l, k ∈ dKeys d) (K : String) :
    dGet (l.foldl (fun acc n => dSet acc n (dGet acc n * c)) d) K =
      if K ∈ l then dGet d K * c else dGet d K := by
  induction l generalizing d with
  | nil => simp
  | cons p t ih =>
    simp only [List.nodup_cons] at hnd
    simp only [List.foldl_cons]
    have hkeys : dKeys (dSet d p (dGet d p * c)) = dKeys d :=
      dKeys_dSet_of_mem d p _ (hsub p (by simp))
    rw [ih _ hnd.2 (fun k hk2 => by rw [hkeys]; exact hsub k (by simp [hk2]))]
    by_cases hKp : K = p
    · subst hKp
      rw [if_neg hnd.1, dGet_dSet_self, if_pos (by simp)]
    · rw [dGet_dSet_ne _ _ _ _ (fun e => hKp e.symm)]
      by_cases hKt : K ∈ t
      · rw [if_pos hKt, if_pos (by simp [hKt])]
      · rw [if_neg hKt, if_neg (by simp [hKp, hKt])]

/-! `sumKeys` bookkeeping. -/

theorem sumKeys_congr (d1 d2 : Dict ℚ) (ks : List String)
    (h : ∀ k ∈ ks, dGet d1 k = dGet d2 k) :
    sumKeys d1 ks = sumKeys d2 ks := by
  simp only [sumKeys]
  exact congrArg List.sum (List.map_congr_left h)

theorem sumKeys_perm (d : Dict ℚ) (ks1 ks2 : List String)
    (hp : ks1.Perm ks2) : sumKeys d ks1 = sumKeys d ks2 :=
  (hp.map _).sum_eq

theorem sumKeys_filter_partition (d : Dict ℚ) (ks : List String)
    (P : String → Bool) :
    sumKeys d ks =
      sumKeys d (ks.filter P) + sumKeys d (ks.filter (fun k => !P k)) := by
  induction ks with
  | nil => simp [sumKeys]
  | cons k t ih =>
    simp only [sumKeys, List.map_cons, List.sum_cons] at ih ⊢
    by_cases hP : P k = true
    · rw [List.filter_cons_of_pos hP, List.filter_cons_of_neg (by simp [hP])]
      simp only [List.map_cons, List.sum_cons]
      linarith [ih]
    · rw [List.filter_cons_of_neg (by simp [hP]),
        List.filter_cons_of_pos (by simp [hP])]
      simp only [List.map_cons, List.sum_cons]
      linarith [ih]

theorem sumKeys_drop_missing (d : Dict ℚ) (ks : List String) :
    sumKeys d ks = sumKeys d (ks.filter (fun k => dHas d k)) := by
  induction ks with
  | nil => rfl
  | cons k t ih =>
    simp only [sumKeys, List.map_cons, List.sum_cons] at ih ⊢
    by_cases hk : dHas d k = true
    · rw [List.filter_cons_of_pos hk]
      simp only [List.map_cons, List.sum_cons]
      rw [ih]
    · rw [List.filter_cons_of_neg (by simp [hk]),
        dGet_eq_zero_of_not_dHas d k hk, ih]
      ring

theorem sumKeys_smul (d : Dict ℚ) (ks : List String) (c : ℚ)
    (d2 : Dict ℚ) (h : ∀ k ∈ ks, dGet d2 k = dGet d k * c) :
    sumKeys d2 ks = c * sumKeys d ks := by
  simp only [sumKeys]
  rw [List.map_congr_left (fun k hk => by rw [h k hk]; ring :
    ∀ k ∈ ks, dGet d2 k = c * dGet d k)]
  exact List.sum_map_mul_left ks (fun k => dGet d k) c

/-! The 25% cap correction (single pool). -/

theorem dGet_scale_guard_zero (l : List String) (c : ℚ) (d : Dict ℚ)
    (K : String) (hz : dGet d K = 0) :
    dGet (l.foldl (fun acc p =>
      if dHas acc p then dSet acc p (dGet acc p * c) else acc) d) K = 0 := by
  refine dGet_foldl_zero l _ K d (fun acc p _ hzacc => ?_) hz
  split_ifs
  · by_cases hp : p = K
    · subst hp
      rw [dGet_dSet_self, hzacc]
      ring
    · rw [dGet_dSet_ne _ _ _ _ hp]
      exact hzacc
  · exact hzacc

theorem dGet_scale_all_zero (l : List String) (c : ℚ) (d : Dict ℚ)
    (K : String) (hz : dGet d K = 0) :
    dGet (l.foldl (fun acc n => dSet acc n (dGet acc n * c)) d) K = 0 := by
  refine dGet_foldl_zero l _ K d (fun acc n _ hzacc => ?_) hz
  by_cases hn : n = K
  · subst hn
    rw [dGet_dSet_self, hzacc]
    ring
  · rw [dGet_dSet_ne _ _ _ _ hn]
    exact hzacc

theorem cap_correction_zero (ci : CalculationInput) (parents : List String)
    (pv : ℚ) (shares : Dict ℚ) (K : String) (hz : dGet shares K = 0) :
    dGet (cap_correction_single_pool ci parents pv shares) K = 0 := by
  simp only [cap_correction_single_pool]
  split_ifs <;>
    first
      | exact hz
      | exact dGet_scale_all_zero _ _ _ _ (dGet_scale_guard_zero _ _ _ _ hz)

theorem cap_correction_dKeys (ci : CalculationInput) (parents : List String)
    (pv : ℚ) (shares : Dict ℚ) :
    dKeys (cap_correction_single_pool ci parents pv shares) = dKeys shares := by
  simp only [cap_correction_single_pool]
  split_ifs <;>
    first
      | rfl
      | (rw [dKeys_scale_all, dKeys_scale_guard]
         intro k hk
         rw [dKeys_scale_guard]
         exact (List.mem_filter.1 hk).1)

theorem cap_correction_dGet_binding (ci : CalculationInput)
    (parents : List String) (pv : ℚ) (shares : Dict ℚ)
    (hknd : (dKeys shares).Nodup) (hpnd : parents.Nodup)
    (hcond : ¬ci.separate_parent_pool = true ∧
      ci.parent_share_cap_25_enabled = true)
    (hpo : 0 < sumKeys shares parents ∧
      0 < sumKeys shares
        ((dKeys shares).filter (fun n => decide (¬(n ∈ parents)))))
    (hbind : pv * (1/4) + (1/1000000000 : ℚ) < sumKeys shares parents)
    (K : String) :
    dGet (cap_correction_single_pool ci parents pv shares) K =
      if K ∈ parents then
        dGet shares K * (pv * (1/4) / sumKeys shares parents)
      else if K ∈ dKeys shares then
        dGet shares K * ((pv - pv * (1/4)) /
          sumKeys shares
            ((dKeys shares).filter (fun n => decide (¬(n ∈ parents)))))
      else dGet shares K := by
  have hpo1 : 0 < (parents.map (fun p => dGet shares p)).sum := hpo.1
  have hpo2 : 0 < (((dKeys shares).filter
      (fun n => decide (¬(n ∈ parents)))).map (fun n => dGet shares n)).sum :=
    hpo.2
  have hbind' : pv * (1/4) + (1/1000000000 : ℚ) <
      (parents.map (fun p => dGet shares p)).sum := hbind
  simp only [sumKeys]
  simp only [cap_correction_single_pool, if_pos hcond,
    if_pos (And.intro hpo1 hpo2), if_pos hbind', if_pos hpo2]
  have hONnd : ((dKeys shares).filter
      (fun n => decide (¬(n ∈ parents)))).Nodup := hknd.filter _
  rw [dGet_scale_all _ _ _ hONnd (fun k hk => by
    rw [dKeys_scale_guard]
    exact (List.mem_filter.1 hk).1)]
  rw [dGet_scale_guard _ _ _ hpnd]
  by_cases hKp : K ∈ parents
  · have hnf : ¬K ∈ (dKeys shares).filter
        (fun n => decide (¬(n ∈ parents))) := fun hc =>
      (by simpa using (List.mem_filter.1 hc).2 : ¬K ∈ parents) hKp
    rw [if_neg hnf]
    by_cases hKk : K ∈ dKeys shares
    · rw [if_pos ⟨hKp, hKk⟩, if_pos hKp]
    · have hng : ¬(K ∈ parents ∧ K ∈ dKeys shares) := fun hc => hKk hc.2
      rw [if_neg hng, if_pos hKp, dGet_eq_zero_of_not_mem shares K hKk]
      ring
  · have hng : ¬(K ∈ parents ∧ K ∈ dKeys shares) := fun hc => hKp hc.1
    rw [if_neg hng, if_neg hKp]
    by_cases hKk : K ∈ dKeys shares
    · rw [if_pos (List.mem_filter.2 ⟨hKk, by simpa using hKp⟩), if_pos hKk]
    · have hnf : ¬K ∈ (dKeys shares).filter
          (fun n => decide (¬(n ∈ parents))) := fun hc =>
        hKk (List.mem_filter.1 hc).1
      rw [if_neg hnf, if_neg hKk]

theorem cap_correction_dSum (ci : CalculationInput) (parents : List String)
    (pv : ℚ) (shares : Dict ℚ) (hknd : (dKeys shares).Nodup)
    (hpnd : parents.Nodup) (hsum : dSum shares = pv) :
    dSum (cap_correction_single_pool ci parents pv shares) = pv := by
  by_cases hcond : ¬ci.separate_parent_pool = true ∧
      ci.parent_share_cap_25_enabled = true
  case neg =>
    rw [show cap_correction_single_pool ci parents pv shares = shares from by
      simp only [cap_correction_single_pool, if_neg hcond], hsum]
  by_cases hpo : 0 < sumKeys shares parents ∧
      0 < sumKeys shares
        ((dKeys shares).filter (fun n => decide (¬(n ∈ parents))))
  case neg =>
    have hpo' : ¬(0 < (parents.map (fun p => dGet shares p)).sum ∧
        0 < (((dKeys shares).filter
          (fun n => decide (¬(n ∈ parents)))).map
            (fun n => dGet shares n)).sum) := hpo
    rw [show cap_correction_single_pool ci parents pv shares = shares from by
      simp only [cap_correction_single_pool, if_pos hcond, if_neg hpo'], hsum]
  by_cases hbind : pv * (1/4) + (1/1000000000 : ℚ) < sumKeys shares parents
  case neg =>
    have hpo' : 0 < (parents.map (fun p => dGet shares p)).sum ∧
        0 < (((dKeys shares).filter
          (fun n => decide (¬(n ∈ parents)))).map
            (fun n => dGet shares n)).sum := hpo
    have hbind' : ¬(pv * (1/4) + (1/1000000000 : ℚ) <
        (parents.map (fun p => dGet shares p)).sum) := hbind
    rw [show cap_correction_single_pool ci parents pv shares = shares from by
      simp only [cap_correction_single_pool, if_pos hcond, if_pos hpo',
        if_neg hbind'], hsum]
  have hget := cap_correction_dGet_binding ci parents pv shares hknd hpnd
    hcond hpo hbind
  have hkeq := cap_correction_dKeys ci parents pv shares
  have hnd2 : (dKeys (cap_correction_single_pool ci parents pv shares)).Nodup := by
    rw [hkeq]
    exact hknd
  have hsum2 : dSum (cap_correction_single_pool ci parents pv shares) =
      sumKeys (cap_correction_single_pool ci parents pv shares)
        (dKeys shares) := by
    rw [← hkeq]
    exact (sumKeys_eq_dSum_of _ _ hnd2 hnd2 (fun q hq => hq)).symm
  rw [hsum2]
  rw [sumKeys_filter_partition _ (dKeys shares)
    (fun k => decide (k ∈ parents))]
  have hfeq : (dKeys shares).filter (fun k => !(decide (k ∈ parents))) =
      (dKeys shares).filter (fun n => decide (¬(n ∈ parents))) :=
    List.filter_congr (fun a _ => by simp)
  have hpart1 : sumKeys (cap_correction_single_pool ci parents pv shares)
      ((dKeys shares).filter (fun k => decide (k ∈ parents))) =
      (pv * (1/4) / sumKeys shares parents) *
        sumKeys shares ((dKeys shares).filter (fun k => decide (k ∈ parents))) := by
    apply sumKeys_smul
    intro k hk
    rw [hget k, if_pos (by simpa using (List.mem_filter.1 hk).2)]
  have hpart2 : sumKeys (cap_correction_single_pool ci parents pv shares)
      ((dKeys shares).filter (fun k => !(decide (k ∈ parents)))) =
      ((pv - pv * (1/4)) /
        sumKeys shares
          ((dKeys shares).filter (fun n => decide (¬(n ∈ parents))))) *
        sumKeys shares
          ((dKeys shares).filter (fun n => decide (¬(n ∈ parents)))) := by
    rw [hfeq]
    apply sumKeys_smul
    intro k hk
    have hk2 := List.mem_filter.1 hk
    have hknp : ¬k ∈ parents := by simpa using hk2.2
    rw [hget k, if_neg hknp, if_pos hk2.1]
  have hps_eq : sumKeys shares
      ((dKeys shares).filter (fun k => decide (k ∈ parents))) =
      sumKeys shares parents := by
    rw [sumKeys_drop_missing shares parents]
    apply sumKeys_perm
    apply (List.perm_ext_iff_of_nodup (hknd.filter _) (hpnd.filter _)).2
    intro a
    simp only [List.mem_filter, decide_eq_true_eq]
    constructor
    · rintro ⟨hak, hap⟩
      exact ⟨hap, (dHas_iff shares a).2 hak⟩
    · rintro ⟨hap, hah⟩
      exact ⟨(dHas_iff shares a).1 hah, hap⟩
  rw [hpart1, hpart2, hps_eq]
  have h1 : pv * (1/4) / sumKeys shares parents * sumKeys shares parents =
      pv * (1/4) := div_mul_cancel₀ _ (ne_of_gt hpo.1)
  have h2 : (pv - pv * (1/4)) /
      sumKeys shares
        ((dKeys shares).filter (fun n => decide (¬(n ∈ parents)))) *
      sumKeys shares
        ((dKeys shares).filter (fun n => decide (¬(n ∈ parents)))) =
      pv - pv * (1/4) := div_mul_cancel₀ _ (ne_of_gt hpo.2)
  rw [h1, h2]
  ring

theorem cap_correction_parent_le (ci : CalculationInput)
    (parents : List String) (pv : ℚ) (shares : Dict ℚ)
    (hknd : (dKeys shares).Nodup) (hpnd : parents.Nodup) (hpv : 0 ≤ pv)
    (hcond : ¬ci.separate_parent_pool = true ∧
      ci.parent_share_cap_25_enabled = true)
    (hos : 0 < sumKeys shares
      ((dKeys shares).filter (fun n => decide (¬(n ∈ parents))))) :
    sumKeys (cap_correction_single_pool ci parents pv shares) parents ≤
      pv * (1/4) + (1/1000000000 : ℚ) := by
  by_cases hps : 0 < sumKeys shares parents
  case neg =>
    have hps' : ¬(0 < (parents.map (fun p => dGet shares p)).sum) := hps
    have hnc : ¬(0 < (parents.map (fun p => dGet shares p)).sum ∧
        0 < (((dKeys shares).filter
          (fun n => decide (¬(n ∈ parents)))).map
            (fun n => dGet shares n)).sum) := fun hc => hps' hc.1
    rw [show cap_correction_single_pool ci parents pv shares = shares from by
      simp only [cap_correction_single_pool, if_pos hcond, if_neg hnc]]
    have hle : sumKeys shares parents ≤ 0 := not_lt.1 hps
    linarith
  by_cases hbind : pv * (1/4) + (1/1000000000 : ℚ) < sumKeys shares parents
  case neg =>
    have hpo' : 0 < (parents.map (fun p => dGet shares p)).sum ∧
        0 < (((dKeys shares).filter
          (fun n => decide (¬(n ∈ parents)))).map
            (fun n => dGet shares n)).sum := ⟨hps, hos⟩
    have hbind' : ¬(pv * (1/4) + (1/1000000000 : ℚ) <
        (parents.map (fun p => dGet shares p)).sum) := hbind
    rw [show cap_correction_single_pool ci parents pv shares = shares from by
      simp only [cap_correction_single_pool, if_pos hcond, if_pos hpo',
        if_neg hbind']]
    exact not_lt.1 hbind
  have hget := cap_correction_dGet_binding ci parents pv shares hknd hpnd
    hcond ⟨hps, hos⟩ hbind
  have hsmul : sumKeys (cap_correction_single_pool ci parents pv shares)
      parents = (pv * (1/4) / sumKeys shares parents) *
        sumKeys shares parents := by
    apply sumKeys_smul
    intro k hk
    rw [hget k, if_pos hk]
  rw [hsmul, div_mul_cancel₀ _ (ne_of_gt hps)]
  linarith

/-! Further `sumKeys` and map lemmas. -/

theorem sumKeys_eq_zero (d : Dict ℚ) (ks : List String)
    (h : ∀ k ∈ ks, dGet d k = 0) : sumKeys d ks = 0 :=
  List.sum_eq_zero (fun x hx => by
    obtain ⟨k, hk, rfl⟩ := List.mem_map.1 hx
    exact h k hk)

theorem single_le_sumKeys (d : Dict ℚ) (ks : List String) (k : String)
    (hk : k ∈ ks) (hnn : ∀ q ∈ ks, 0 ≤ dGet d q) :
    dGet d k ≤ sumKeys d ks :=
  List.single_le_sum (fun x hx => by
    obtain ⟨q, hq, rfl⟩ := List.mem_map.1 hx
    exact hnn q hq) _ (List.mem_map_of_mem _ hk)

theorem dGet_map_mul_left (d : Dict ℚ) (c : ℚ) (k : String) :
    dGet (d.map (fun p => (p.1, c * p.2))) k = c * dGet d k :=
  dGet_map_snd d (fun v => c * v) k (mul_zero c)

theorem dKeys_map_mul_left (d : Dict ℚ) (c : ℚ) :
    dKeys (d.map (fun p => (p.1, c * p.2))) = dKeys d :=
  dKeys_map_snd d (fun v => c * v)

theorem dGet_normalize_zero (d : Dict ℚ) (k : String) (hz : dGet d k = 0) :
    dGet (normalize_shares d) k = 0 := by
  by_cases h : dSum d ≤ 0
  · simp only [normalize_shares, if_pos h]
    exact (dGet_map_snd d (fun _ => (0 : ℚ)) k rfl).trans rfl
  · simp only [normalize_shares, if_neg h]
    exact (dGet_map_snd d (fun v => v / dSum d) k (by simp)).trans
      (by show dGet d k / dSum d = 0; rw [hz, zero_div])

theorem dGet_scaled_ratio_zero (d : Dict ℚ) (c : ℚ) (K : String)
    (hz : dGet d K = 0) :
    dGet ((normalize_shares d).map (fun p => (p.1, c * p.2))) K = 0 := by
  rw [dGet_map_mul_left, dGet_normalize_zero d K hz, mul_zero]

theorem sumKeys_add_parent_amounts (s pa : Dict ℚ) (ks : List String)
    (hnd : (dKeys pa).Nodup) :
    sumKeys (add_parent_amounts s pa) ks = sumKeys s ks + sumKeys pa ks := by
  induction ks with
  | nil => simp [sumKeys]
  | cons k t ih =>
    simp only [sumKeys, List.map_cons, List.sum_cons] at ih ⊢
    rw [dGet_add_parent_amounts s pa hnd k, ih]
    ring

/-! Branch characterisations of the cap correction and the parent pool. -/

theorem cap_correction_of_sep (ci : CalculationInput) (parents : List String)
    (pv : ℚ) (s : Dict ℚ) (hsep : ci.separate_parent_pool = true) :
    cap_correction_single_pool ci parents pv s = s := by
  have hnc : ¬(¬ci.separate_parent_pool = true ∧
      ci.parent_share_cap_25_enabled = true) := fun hc => hc.1 hsep
  simp only [cap_correction_single_pool, if_neg hnc]

theorem parent_pool_of_not_sep (ctx : YearCtx) (ys ye : Date) (diy : ℤ)
    (pv : ℚ) (h : ctx.ci.separate_parent_pool = false) :
    parent_pool ctx ys ye diy pv = ([], 0) := by
  have hnc : ¬ctx.ci.separate_parent_pool = true := by simp [h]
  simp only [parent_pool, if_neg hnc]

/-! AYİM-step lemmas. -/

theorem ayim_dep_step_pres (ctx : YearCtx) (year : ℤ) (ys ye : Date)
    (u : ℤ) (acc : Dict ℚ) (d : Dependent) (K : String)
    (h : d.person.name ≠ K ∨
      ¬(d.dep_type = .SPOUSE ∧ d.apply_marriage_discount = true)) :
    dFind? (ayim_dep_step ctx year ys ye u acc d) K = dFind? acc K := by
  simp only [ayim_dep_step]
  by_cases hsp : d.dep_type = .SPOUSE ∧ d.apply_marriage_discount = true
  · rw [if_pos hsp]
    cases hi : dGetI ctx.dep_intervals d.person.name with
    | none => rfl
    | some i =>
      dsimp only
      split_ifs
      · rfl
      · rcases h with h | h
        · exact dFind?_dSet_ne _ _ _ _ h
        · exact absurd hsp h
  · rw [if_neg hsp]

theorem ayim_adjust_off (ctx : YearCtx) (year : ℤ) (ys ye : Date)
    (s : Dict ℚ) (h : ctx.ci.apply_ayim = false) :
    ayim_adjust ctx year ys ye s = s := by
  have hnc : ¬ctx.ci.apply_ayim = true := by simp [h]
  simp only [ayim_adjust, if_neg hnc]

theorem dGet_ayim_pres (ctx : YearCtx) (year : ℤ) (ys ye : Date)
    (s : Dict ℚ) (K : String) (hKl : K ≠ labelSpouse)
    (hdeps : ∀ d ∈ ctx.ci.dependents, d.person.name = K →
      ¬(d.dep_type = .SPOUSE ∧ d.apply_marriage_discount = true)) :
    dGet (ayim_adjust ctx year ys ye s) K = dGet s K := by
  by_cases happ : ctx.ci.apply_ayim = true
  case neg =>
    rw [ayim_adjust_off ctx year ys ye s (by
      cases hb : ctx.ci.apply_ayim
      · rfl
      · exact absurd hb happ)]
  simp only [ayim_adjust, if_pos happ]
  have hsA : dFind? (ctx.ci.dependents.foldl
      (ayim_dep_step ctx year ys ye (under18_count ctx year ys ye)) s) K =
      dFind? s K :=
    dFind?_foldl_pres _ _ K s (fun acc d hd =>
      ayim_dep_step_pres ctx year ys ye (under18_count ctx year ys ye) acc d K
        (by
          by_cases hn : d.person.name = K
          · exact Or.inr (hdeps d hd hn)
          · exact Or.inl hn))
  cases hv : dFind? ctx.virtual_intervals labelSpouse with
  | none =>
    simp only [dGet, hsA]
  | some i =>
    dsimp only
    split_ifs
    · rw [dGet_dSet_ne _ _ _ _ (fun e => hKl e.symm)]
      simp only [dGet, hsA]
    · rw [dGet_dSet_ne _ _ _ _ (fun e => hKl e.symm)]
      simp only [dGet, hsA]
    · simp only [dGet, hsA]

theorem dGet_ayim_zero (ctx : YearCtx) (year : ℤ) (ys ye : Date)
    (s : Dict ℚ) (K : String) (hz : dGet s K = 0) :
    dGet (ayim_adjust ctx year ys ye s) K = 0 := by
  by_cases happ : ctx.ci.apply_ayim = true
  case neg =>
    rw [ayim_adjust_off ctx year ys ye s (by
      cases hb : ctx.ci.apply_ayim
      · rfl
      · exact absurd hb happ)]
    exact hz
  simp only [ayim_adjust, if_pos happ]
  have hsA : dGet (ctx.ci.dependents.foldl
      (ayim_dep_step ctx year ys ye (under18_count ctx year ys ye)) s) K = 0 := by
    refine dGet_foldl_zero _ _ K s (fun acc d _ hzacc => ?_) hz
    rcases ayim_dep_step_shape ctx year ys ye (under18_count ctx year ys ye)
        acc d with he | ⟨_, c, he⟩ <;> rw [he]
    · exact hzacc
    · by_cases hn : d.person.name = K
      · subst hn
        rw [dGet_dSet_self, hzacc, zero_mul]
      · rw [dGet_dSet_ne _ _ _ _ hn]
        exact hzacc
  cases hv : dFind? ctx.virtual_intervals labelSpouse with
  | none => exact hsA
  | some i =>
    dsimp only
    split_ifs
    · by_cases hK : K = labelSpouse
      · rw [hK] at hsA ⊢
        rw [dGet_dSet_self, hsA, zero_mul]
      · rw [dGet_dSet_ne _ _ _ _ (fun e => hK e.symm)]
        exact hsA
    · by_cases hK : K = labelSpouse
      · rw [hK] at hsA ⊢
        rw [dGet_dSet_self, hsA, zero_mul]
      · rw [dGet_dSet_ne _ _ _ _ (fun e => hK e.symm)]
        exact hsA
    · exact hsA

/-! The recorded dependent-interval dict. -/

theorem dFind?_dep_intervals_of (ci : CalculationInput) (se : Date)
    (hnd : (ci.dependents.map (fun d => d.person.name)).Nodup)
    (d : Dependent) (hd : d ∈ ci.dependents) :
    dFind? (dep_intervals_of ci se) d.person.name =
      some (dependent_interval ci se d) := by
  simp only [dep_intervals_of]
  exact dFind?_foldl_dSet_last (fun x => x.person.name)
    (fun x => dependent_interval ci se x) ci.dependents [] d hd hnd

/-! Under `NamesOk`, a parent name is distinct from the reserved keys and
only parent-typed dependents carry it. -/

theorem parent_name_props (ci : CalculationInput) (h : NamesOk ci) (p : String)
    (hp : p ∈ parent_names ci) :
    p ≠ destekKey ∧ p ≠ labelSpouse ∧ p ≠ labelChild1 ∧ p ≠ labelChild2 ∧
    ∀ d ∈ ci.dependents, d.person.name = p →
      (d.dep_type = .MOTHER ∨ d.dep_type = .FATHER) := by
  obtain ⟨d0, hd0, htype, hname⟩ := (mem_parent_names ci p).1 hp
  subst hname
  refine ⟨(h.2 d0 hd0).1, (h.2 d0 hd0).2.1, (h.2 d0 hd0).2.2.1,
    (h.2 d0 hd0).2.2.2, ?_⟩
  intro d hd hn
  have hde : d = d0 := List.inj_on_of_nodup_map h.1 hd hd0 hn
  rw [hde]
  exact htype

/-! Calendar lemma: every calendar year has a positive number of days
(364 is a safe generic lower bound for the arithmetic below; the true
value is 365 or 366). -/

/-! ## Date-order and range lemmas -/

theorem Date.blt_iff (a b : Date) :
    a.blt b = true ↔
      (a.y < b.y ∨ (a.y = b.y ∧ (a.m < b.m ∨ (a.m = b.m ∧ a.d < b.d)))) := by
  simp [Date.blt]

theorem Date.ble_iff (a b : Date) :
    a.ble b = true ↔ (a.blt b = true ∨ a = b) := by
  simp [Date.ble]

theorem mem_intRange (a b y : ℤ) : y ∈ intRange a b ↔ a ≤ y ∧ y ≤ b := by
  simp only [intRange, List.mem_map, List.mem_range]
  constructor
  · rintro ⟨i, hi, rfl⟩
    constructor <;> omega
  · rintro ⟨h1, h2⟩
    refine ⟨(y - a).toNat, by omega, by omega⟩

theorem nodup_intRange (a b : ℤ) : (intRange a b).Nodup := by
  refine List.Nodup.map (fun i j h => by omega) (List.nodup_range _)

/-! ## Inversion lemmas for the year loop -/

theorem yearBody_ok_some (ctx : YearCtx) (year : ℤ) (row : YearRow)
    (h : yearBody ctx year = .ok (some row)) :
    0 < supp_days_of ctx year ∧
      ∃ yf, yearly_support ctx.ci year = some yf ∧ 0 < yf ∧
        row = row_of ctx year yf := by
  unfold yearBody at h
  by_cases hsupp : supp_days_of ctx year ≤ 0
  · rw [if_pos hsupp] at h
    simp at h
  · rw [if_neg hsupp] at h
    cases hyf : yearly_support ctx.ci year with
    | none => rw [hyf] at h; simp at h
    | some yf =>
      rw [hyf] at h
      by_cases hpos : yf ≤ 0
      · simp only [if_pos hpos] at h
        simp at h
      · simp only [if_neg hpos] at h
        refine ⟨not_le.1 hsupp, yf, rfl, not_le.1 hpos, ?_⟩
        simpa using h.symm

theorem yearBody_of_conditions (ctx : YearCtx) (year : ℤ) (yf : ℚ)
    (hsupp : 0 < supp_days_of ctx year)
    (hyf : yearly_support ctx.ci year = some yf) (hpos : 0 < yf) :
    yearBody ctx year = .ok (some (row_of ctx year yf)) := by
  unfold yearBody
  rw [if_neg (by omega), hyf]
  simp [not_le.2 hpos]

theorem mem_build_rows (ctx : YearCtx) (ys : List ℤ) (rows : List YearRow)
    (h : build_rows ctx ys = .ok rows) (row : YearRow) (hrow : row ∈ rows) :
    ∃ y ∈ ys, yearBody ctx y = .ok (some row) := by
  induction ys generalizing rows with
  | nil =>
    simp only [build_rows] at h
    cases h; simp at hrow
  | cons y t ih =>
    simp only [build_rows] at h
    split at h
    · cases h
    · rename_i hres
      rcases ih _ h hrow with ⟨z, hz, hb⟩
      exact ⟨z, by simp [hz], hb⟩
    · rename_i r hres
      cases hb : build_rows ctx t with
      | error e => rw [hb] at h; cases h
      | ok rest =>
        rw [hb] at h
        simp only [Except.map] at h
        cases h
        rcases List.mem_cons.1 hrow with h1 | h1
        · exact ⟨y, by simp, by rw [hres, h1]⟩
        · rcases ih rest hb h1 with ⟨z, hz, hbz⟩
          exact ⟨z, by simp [hz], hbz⟩

theorem build_rows_mem_of (ctx : YearCtx) (ys : List ℤ) (rows : List YearRow)
    (h : build_rows ctx ys = .ok rows) (y : ℤ) (hy : y ∈ ys) (row : YearRow)
    (hb : yearBody ctx y = .ok (some row)) : row ∈ rows := by
  induction ys generalizing rows with
  | nil => simp at hy
  | cons z t ih =>
    simp only [build_rows] at h
    rcases List.mem_cons.1 hy with rfl | hmem
    · rw [hb] at h
      cases hrest : build_rows ctx t with
      | error e => rw [hrest] at h; cases h
      | ok rest => rw [hrest] at h; simp only [Except.map] at h; cases h; simp
    · split at h
      · cases h
      · exact ih _ h hmem
      · cases hrest : build_rows ctx t with
        | error e => rw [hrest] at h; cases h
        | ok rest =>
          rw [hrest] at h
          simp only [Except.map] at h
          cases h
          exact List.mem_cons_of_mem _ (ih rest hrest hmem)

theorem build_rows_years_sublist (ctx : YearCtx) (ys : List ℤ)
    (rows : List YearRow) (h : build_rows ctx ys = .ok rows) :
    (rows.map YearRow.year).Sublist ys := by
  induction ys generalizing rows with
  | nil => simp only [build_rows] at h; cases h; simp
  | cons y t ih =>
    simp only [build_rows] at h
    split at h
    · cases h
    · exact (ih _ h).trans (List.sublist_cons_self y t)
    · rename_i r hres
      cases hrest : build_rows ctx t with
      | error e => rw [hrest] at h; cases h
      | ok rest =>
        rw [hrest] at h
        simp only [Except.map] at h
        cases h
        have hyear : r.year = y := by
          rcases yearBody_ok_some ctx y r hres with ⟨_, yf, _, _, hr⟩
          rw [hr]; rfl
        simpa [hyear] using List.Sublist.cons₂ y (ih rest hrest)

/-! ## Inversion of `compute_support` -/

theorem compute_core_ok (ci : CalculationInput) (core : CoreResult)
    (h : compute_core ci = .ok core) :
    build_rows (mkYearCtx ci)
        (intRange (mkYearCtx ci).supporter_start.y
          (mkYearCtx ci).supporter_end.y) = .ok core.rows := by
  unfold compute_core at h
  split at h
  · cases h
  · rename_i rows hrows
    cases h
    exact hrows

theorem compute_support_ok (ci : CalculationInput) (res : CalculationResult)
    (h : compute_support ci = .ok res) :
    validate_input ci = none ∧
      ∃ core, compute_core ci = .ok core ∧
        res = ⟨core.rows, core.total_support, core.total_by_person,
               core.sgk_psd_deduction, core.total_after_sgk,
               core.total_after_sgk * (1 - ci.fault_rate / 100),
               core.training_total, core.supporter_start, core.supporter_end,
               core.dependent_intervals, core.virtual_intervals⟩ := by
  unfold compute_support at h
  split at h
  · cases h
  · rename_i hval
    split at h
    · cases h
    · rename_i core hcore
      cases h
      exact ⟨hval, core, hcore, rfl⟩

theorem compute_support_rows (ci : CalculationInput) (res : CalculationResult)
    (h : compute_support ci = .ok res) :
    build_rows (mkYearCtx ci)
        (intRange (mkYearCtx ci).supporter_start.y
          (mkYearCtx ci).supporter_end.y) = .ok res.rows := by
  rcases compute_support_ok ci res h with ⟨_, core, hcore, rfl⟩
  exact compute_core_ok ci core hcore

theorem compute_core_spec (ci : CalculationInput) (core : CoreResult)
    (h : compute_core ci = .ok core) :
    ∃ rows, build_rows (mkYearCtx ci)
        (intRange (mkYearCtx ci).supporter_start.y
          (mkYearCtx ci).supporter_end.y) = .ok rows ∧
      core = ⟨rows,
        (rows.map YearRow.present_value).sum -
          (training_of ci (total_by_person_of rows)).1,
        (training_of ci (total_by_person_of rows)).2,
        compute_sgk_psd ci,
        post_sgk_of ci ((rows.map YearRow.present_value).sum) -
          (training_of ci (total_by_person_of rows)).1,
        (training_of ci (total_by_person_of rows)).1,
        (mkYearCtx ci).supporter_start, (mkYearCtx ci).supporter_end,
        (mkYearCtx ci).dep_intervals, (mkYearCtx ci).virtual_intervals⟩ := by
  unfold compute_core at h
  split at h
  · cases h
  · rename_i rows hrows
    cases h
    exact ⟨rows, hrows, rfl⟩

theorem post_sgk_nonneg (ci : CalculationInput) (s : ℚ) :
    0 ≤ post_sgk_of ci s := by
  simp only [post_sgk_of]
  split_ifs with h
  · exact le_refl 0
  · exact not_lt.1 h

theorem validate_none_fault (ci : CalculationInput)
    (h : validate_input ci = none) :
    0 ≤ ci.fault_rate ∧ ci.fault_rate ≤ 100 := by
  unfold validate_input at h
  split_ifs at h <;> simp_all

theorem days_in_year_pos_all (y : ℤ) : 0 < days_in_year_of y := by
  simp only [days_in_year_of, Date.sub, Date.toDays]
  norm_num
  split_ifs <;> omega

theorem pv_of_nonneg (ci : CalculationInput) (y : ℤ) (g : ℚ) (hg : 0 ≤ g) :
    0 ≤ pv_of ci y g := by
  simp only [pv_of]
  split_ifs <;>
    first
      | exact hg
      | (refine mul_nonneg hg (le_of_lt (div_pos one_pos (pow_pos ?_ _)))
         linarith)

theorem mkYearCtx_ci (ci : CalculationInput) : (mkYearCtx ci).ci = ci := rfl

theorem row_of_year (ctx : YearCtx) (y : ℤ) (yf : ℚ) :
    (row_of ctx y yf).year = y := rfl

theorem row_of_gross (ctx : YearCtx) (y : ℤ) (yf : ℚ) :
    (row_of ctx y yf).gross_support =
      yf * ((supp_days_of ctx y : ℚ) / (days_in_year_of y : ℚ)) := rfl

theorem row_of_pv (ctx : YearCtx) (y : ℤ) (yf : ℚ) :
    (row_of ctx y yf).present_value =
      pv_of ctx.ci y ((row_of ctx y yf).gross_support) := rfl

theorem row_of_shares (ctx : YearCtx) (y : ℤ) (yf : ℚ) :
    (row_of ctx y yf).shares =
      year_shares ctx y ((supp_days_of ctx y : ℚ) / (days_in_year_of y : ℚ))
        ((row_of ctx y yf).present_value) := rfl

theorem build_rows_pv_nonneg (ctx : YearCtx) (ys : List ℤ)
    (rows : List YearRow) (h : build_rows ctx ys = .ok rows) (r : YearRow)
    (hr : r ∈ rows) : 0 ≤ r.present_value := by
  obtain ⟨y, hy, hbody⟩ := mem_build_rows ctx ys rows h r hr
  obtain ⟨hsupp, yf, hyf, hpos, rfl⟩ := yearBody_ok_some ctx y r hbody
  rw [row_of_pv]
  apply pv_of_nonneg
  rw [row_of_gross]
  apply mul_nonneg (le_of_lt hpos)
  apply div_nonneg
  · exact_mod_cast le_of_lt hsupp
  · exact_mod_cast le_of_lt (days_in_year_pos_all y)

theorem build_rows_nil (ctx : YearCtx) (ys : List ℤ)
    (h : ∀ y ∈ ys, yearBody ctx y = .ok none) : build_rows ctx ys = .ok [] := by
  induction ys with
  | nil => rfl
  | cons y t ih =>
    simp only [build_rows]
    rw [h y (by simp)]
    exact ih (fun z hz => h z (by simp [hz]))

theorem build_rows_congr (ctx1 ctx2 : YearCtx)
    (h : ∀ y, yearBody ctx1 y = yearBody ctx2 y) (ys : List ℤ) :
    build_rows ctx1 ys = build_rows ctx2 ys := by
  induction ys with
  | nil => rfl
  | cons y t ih => simp only [build_rows]; rw [h y, ih]

theorem Date.eq_iff (a b : Date) :
    a = b ↔ (a.y = b.y ∧ a.m = b.m ∧ a.d = b.d) := by
  cases a; cases b; simp

theorem date_ble_false_of (c dt s : Date) (h1 : dt.blt c = true)
    (h2 : c.ble s = true) : s.ble dt = false := by
  rw [Bool.eq_false_iff]
  intro h3
  rw [Date.blt_iff] at h1
  rw [Date.ble_iff] at h2 h3
  rw [Date.blt_iff] at h2 h3
  rw [Date.eq_iff] at h2 h3
  omega

theorem days_in_year_pos (y : ℤ) (hy : 1 ≤ y) : 0 < days_in_year_of y := by
  have h0 : (0 : ℤ) ≤ y - 1 := by omega
  have h1 : (0 : ℤ) ≤ y := by omega
  have h2 : (0 : ℤ) ≤ y + 1 - 1 := by omega
  simp only [days_in_year_of, Date.sub, Date.toDays]
  norm_num
  split_ifs
  omega

/-! Rounding helpers for concrete computations (Python `round` is
half-to-even, but away from ties only the floor matters). -/

theorem pyRound_eq_of_lt_half (q : ℚ) (f : ℤ) (h1 : (f : ℚ) ≤ q)
    (h2 : q - f < 1/2) : pyRound q = f := by
  have hf : ⌊q⌋ = f := by
    rw [Int.floor_eq_iff]
    constructor
    · exact_mod_cast h1
    · push_cast
      linarith
  unfold pyRound
  rw [hf, if_pos h2]

theorem pyRound_eq_of_half_lt (q : ℚ) (f : ℤ) (h1 : (f : ℚ) ≤ q)
    (h2 : 1/2 < q - f) (h3 : q < f + 1) : pyRound q = f + 1 := by
  have hf : ⌊q⌋ = f := by
    rw [Int.floor_eq_iff]
    constructor
    · exact_mod_cast h1
    · push_cast
      linarith
  unfold pyRound
  rw [hf, if_neg (by linarith), if_pos h2]

theorem pv_of_pos (ci : CalculationInput) (y : ℤ) (g : ℚ) (hg : 0 < g) :
    0 < pv_of ci y g := by
  simp only [pv_of]
  split_ifs <;>
    first
      | exact hg
      | (apply mul_pos hg
         apply div_pos one_pos
         apply pow_pos
         linarith)

/-! ## The per-year share pipeline (steps 5.a-5.c chained)

`year_shares` unfolded to its four stages, and the three facts needed for
C1, C2 and C4: the shares sum to the year's present value when the AYİM
discount is off; the parents' total stays within the 25% cap (+ the
code's epsilon) when the cap is enabled; and a party with no eligibility
interval receives exactly 0. -/

theorem year_shares_eq (ctx : YearCtx) (year : ℤ) (f pv : ℚ) :
    year_shares ctx year f pv =
      ayim_adjust ctx year ⟨year, 1, 1⟩ ⟨year + 1, 1, 1⟩
        (add_parent_amounts
          (cap_correction_single_pool ctx.ci ctx.parents pv
            ((normalize_shares (non_parent_weights_of ctx ⟨year, 1, 1⟩
                ⟨year + 1, 1, 1⟩ (days_in_year_of year) f)).map
              (fun p => (p.1,
                (if pv - (parent_pool ctx ⟨year, 1, 1⟩ ⟨year + 1, 1, 1⟩
                    (days_in_year_of year) pv).2 < 0 then (0 : ℚ)
                  else pv - (parent_pool ctx ⟨year, 1, 1⟩ ⟨year + 1, 1, 1⟩
                    (days_in_year_of year) pv).2) * p.2))))
          (parent_pool ctx ⟨year, 1, 1⟩ ⟨year + 1, 1, 1⟩
            (days_in_year_of year) pv).1) := rfl

theorem shares_pipeline_get_zero (ctx : YearCtx) (year : ℤ) (ys ye : Date)
    (ci : CalculationInput) (parents : List String) (pv c : ℚ)
    (pp1 npw : Dict ℚ) (K : String)
    (hz : dGet npw K = 0) (hpp1 : dGet pp1 K = 0)
    (hppnd : (dKeys pp1).Nodup) :
    dGet (ayim_adjust ctx year ys ye
      (add_parent_amounts
        (cap_correction_single_pool ci parents pv
          ((normalize_shares npw).map (fun p => (p.1, c * p.2)))) pp1)) K = 0 := by
  apply dGet_ayim_zero
  rw [dGet_add_parent_amounts _ pp1 hppnd K, hpp1, add_zero]
  apply cap_correction_zero
  exact dGet_scaled_ratio_zero npw c K hz

theorem shares_pipeline_dSum (ctx : YearCtx) (year : ℤ) (ys ye : Date)
    (ci : CalculationInput) (parents : List String) (pv pp2 : ℚ)
    (pp1 npw : Dict ℚ)
    (hayim : ctx.ci.apply_ayim = false)
    (hknd : (dKeys npw).Nodup) (hS : 0 < dSum npw) (hpnd : parents.Nodup)
    (hpp : dSum pp1 = pp2) (hpp0 : 0 ≤ pp2) (hpple : pp2 ≤ pv)
    (hsingle : ci.separate_parent_pool = false → pp1 = [] ∧ pp2 = 0) :
    dSum (ayim_adjust ctx year ys ye
      (add_parent_amounts
        (cap_correction_single_pool ci parents pv
          ((normalize_shares npw).map
            (fun p => (p.1, (if pv - pp2 < 0 then (0 : ℚ) else pv - pp2) * p.2))))
        pp1)) = pv := by
  rw [ayim_adjust_off ctx year ys ye _ hayim, dSum_add_parent_amounts, hpp]
  have hdsum0 : dSum ((normalize_shares npw).map
      (fun p => (p.1, (if pv - pp2 < 0 then (0 : ℚ) else pv - pp2) * p.2))) =
      pv - pp2 := by
    rw [dSum_map_mul_left, dSum_normalize npw hS, mul_one,
      if_neg (not_lt.2 (by linarith : (0 : ℚ) ≤ pv - pp2))]
  by_cases hsep : ci.separate_parent_pool = true
  · rw [cap_correction_of_sep ci parents pv _ hsep, hdsum0]
    ring
  · have hfalse : ci.separate_parent_pool = false := by
      cases hb : ci.separate_parent_pool
      · rfl
      · exact absurd hb hsep
    obtain ⟨hs1, hs2⟩ := hsingle hfalse
    subst hs2
    rw [add_zero]
    have hknd0 : (dKeys ((normalize_shares npw).map
        (fun p => (p.1, (if pv - 0 < 0 then (0 : ℚ) else pv - 0) * p.2)))).Nodup := by
      rw [dKeys_map_mul_left, dKeys_normalize]
      exact hknd
    rw [cap_correction_dSum ci parents pv _ hknd0 hpnd
      (hdsum0.trans (sub_zero pv))]

theorem shares_pipeline_parent_le (ctx : YearCtx) (year : ℤ) (ys ye : Date)
    (ci : CalculationInput) (parents : List String) (pv pp2 : ℚ)
    (pp1 npw : Dict ℚ)
    (hknd : (dKeys npw).Nodup) (hS : 0 < dSum npw) (hpnd : parents.Nodup)
    (hnn : ∀ p ∈ npw, 0 ≤ p.2) (hpv : 0 < pv)
    (hcap : ci.parent_share_cap_25_enabled = true)
    (hppnd : (dKeys pp1).Nodup) (hppsub : ∀ q ∈ dKeys pp1, q ∈ parents)
    (hpp : dSum pp1 = pp2) (hpp25 : pp2 ≤ pv * (1/4))
    (hsingle : ci.separate_parent_pool = false → pp1 = [] ∧ pp2 = 0)
    (hnpwsep : ci.separate_parent_pool = true → ∀ p ∈ parents, dGet npw p = 0)
    (hdnp : destekKey ∉ parents) (hdw : 0 < dGet npw destekKey)
    (hplbl : ∀ p ∈ parents, p ≠ labelSpouse)
    (hpspouse : ∀ p ∈ parents, ∀ d ∈ ctx.ci.dependents, d.person.name = p →
      ¬(d.dep_type = .SPOUSE ∧ d.apply_marriage_discount = true)) :
    sumKeys (ayim_adjust ctx year ys ye
      (add_parent_amounts
        (cap_correction_single_pool ci parents pv
          ((normalize_shares npw).map
            (fun p => (p.1, (if pv - pp2 < 0 then (0 : ℚ) else pv - pp2) * p.2))))
        pp1)) parents ≤ pv * (1/4) + (1/1000000000 : ℚ) := by
  have hstep : sumKeys (ayim_adjust ctx year ys ye
      (add_parent_amounts
        (cap_correction_single_pool ci parents pv
          ((normalize_shares npw).map
            (fun p => (p.1, (if pv - pp2 < 0 then (0 : ℚ) else pv - pp2) * p.2))))
        pp1)) parents =
      sumKeys (add_parent_amounts
        (cap_correction_single_pool ci parents pv
          ((normalize_shares npw).map
            (fun p => (p.1, (if pv - pp2 < 0 then (0 : ℚ) else pv - pp2) * p.2))))
        pp1) parents :=
    sumKeys_congr _ _ parents (fun p hp =>
      dGet_ayim_pres ctx year ys ye _ p (hplbl p hp)
        (fun d hd hn => hpspouse p hp d hd hn))
  rw [hstep, sumKeys_add_parent_amounts _ pp1 parents hppnd,
    sumKeys_eq_dSum_of pp1 parents hpnd hppnd hppsub, hpp]
  by_cases hsep : ci.separate_parent_pool = true
  · rw [cap_correction_of_sep ci parents pv _ hsep]
    have hz : sumKeys ((normalize_shares npw).map
        (fun p => (p.1, (if pv - pp2 < 0 then (0 : ℚ) else pv - pp2) * p.2)))
        parents = 0 :=
      sumKeys_eq_zero _ _ (fun p hp => by
        rw [dGet_map_mul_left, dGet_normalize npw hS p, hnpwsep hsep p hp,
          zero_div, mul_zero])
    rw [hz]
    have heps : (0 : ℚ) < 1/1000000000 := by norm_num
    linarith
  · have hfalse : ci.separate_parent_pool = false := by
      cases hb : ci.separate_parent_pool
      · rfl
      · exact absurd hb hsep
    obtain ⟨hs1, hs2⟩ := hsingle hfalse
    subst hs2
    rw [add_zero]
    have hncond : ¬ci.separate_parent_pool = true := by simp [hfalse]
    have hkeys0 : dKeys ((normalize_shares npw).map
        (fun p => (p.1, (if pv - 0 < 0 then (0 : ℚ) else pv - 0) * p.2))) =
        dKeys npw := by
      rw [dKeys_map_mul_left, dKeys_normalize]
    have hknd0 : (dKeys ((normalize_shares npw).map
        (fun p => (p.1, (if pv - 0 < 0 then (0 : ℚ) else pv - 0) * p.2)))).Nodup := by
      rw [hkeys0]
      exact hknd
    have hdmem : destekKey ∈ dKeys ((normalize_shares npw).map
        (fun p => (p.1, (if pv - 0 < 0 then (0 : ℚ) else pv - 0) * p.2))) := by
      rw [hkeys0]
      by_contra hc
      exact absurd (dGet_eq_zero_of_not_mem npw destekKey hc) (ne_of_gt hdw)
    have hvals : ∀ q ∈ (dKeys ((normalize_shares npw).map
        (fun p => (p.1, (if pv - 0 < 0 then (0 : ℚ) else pv - 0) * p.2)))).filter
          (fun n => decide (¬(n ∈ parents))),
        0 ≤ dGet ((normalize_shares npw).map
          (fun p => (p.1, (if pv - 0 < 0 then (0 : ℚ) else pv - 0) * p.2))) q := by
      intro q hq
      rw [dGet_map_mul_left, dGet_normalize npw hS q]
      have h1 : 0 ≤ dGet npw q := dGet_nonneg npw q hnn
      have h2 : (0 : ℚ) ≤ if pv - 0 < 0 then (0 : ℚ) else pv - 0 := by
        split_ifs <;> linarith
      exact mul_nonneg h2 (div_nonneg h1 (le_of_lt hS))
    have hdpos : 0 < dGet ((normalize_shares npw).map
        (fun p => (p.1, (if pv - 0 < 0 then (0 : ℚ) else pv - 0) * p.2)))
        destekKey := by
      rw [dGet_map_mul_left, dGet_normalize npw hS destekKey, sub_zero,
        if_neg (not_lt.2 (le_of_lt hpv))]
      exact mul_pos hpv (div_pos hdw hS)
    have hos : 0 < sumKeys ((normalize_shares npw).map
        (fun p => (p.1, (if pv - 0 < 0 then (0 : ℚ) else pv - 0) * p.2)))
        ((dKeys ((normalize_shares npw).map
          (fun p => (p.1, (if pv - 0 < 0 then (0 : ℚ) else pv - 0) * p.2)))).filter
            (fun n => decide (¬(n ∈ parents)))) :=
      lt_of_lt_of_le hdpos (single_le_sumKeys _ _ destekKey
        (List.mem_filter.2 ⟨hdmem, by simpa using hdnp⟩) hvals)
    exact cap_correction_parent_le ci parents pv _ hknd0 hpnd (le_of_lt hpv)
      ⟨hncond, hcap⟩ hos

theorem dGet_year_shares_zero (ctx : YearCtx) (year : ℤ) (f pv : ℚ)
    (K : String) (hpnd : ctx.parents.Nodup) (hKd : K ≠ destekKey)
    (hKn : dGetI ctx.dep_intervals K = none)
    (hvk : ∀ k ∈ dKeys ctx.virtual_intervals, k ≠ K) :
    dGet (year_shares ctx year f pv) K = 0 := by
  rw [year_shares_eq]
  apply shares_pipeline_get_zero
  · exact dGet_npw_zero ctx ⟨year, 1, 1⟩ ⟨year + 1, 1, 1⟩
      (days_in_year_of year) f K hKd hKn hvk
  · apply dGet_eq_zero_of_not_mem
    intro hmem
    obtain ⟨i, hi, _⟩ := parent_active_true ctx ⟨year, 1, 1⟩ ⟨year + 1, 1, 1⟩ K
      (((parent_pool_keys ctx ⟨year, 1, 1⟩ ⟨year + 1, 1, 1⟩
        (days_in_year_of year) pv hpnd).2 K hmem).2)
    rw [hKn] at hi
    cases hi
  · exact (parent_pool_keys ctx ⟨year, 1, 1⟩ ⟨year + 1, 1, 1⟩
      (days_in_year_of year) pv hpnd).1

theorem year_shares_dSum (ctx : YearCtx) (year : ℤ) (f pv : ℚ)
    (hayim : ctx.ci.apply_ayim = false) (hpnd : ctx.parents.Nodup)
    (hpv : 0 ≤ pv) (hf : 0 < f) (hpf : ctx.parent_fraction ≤ 1)
    (hbase : ∀ p ∈ ctx.parents, 0 < dGet ctx.base p)
    (hnames : ∀ d ∈ ctx.ci.dependents, d.person.name ≠ destekKey)
    (hvkd : ∀ k ∈ dKeys ctx.virtual_intervals, k ≠ destekKey) :
    dSum (year_shares ctx year f pv) = pv := by
  have hdiy : 0 < days_in_year_of year := days_in_year_pos_all year
  have hfacts := parent_pool_total_facts ctx ⟨year, 1, 1⟩ ⟨year + 1, 1, 1⟩
    (days_in_year_of year) pv hpv hpf
  rw [year_shares_eq]
  exact shares_pipeline_dSum ctx year ⟨year, 1, 1⟩ ⟨year + 1, 1, 1⟩ ctx.ci
    ctx.parents pv _ _ _
    hayim
    (nodup_dKeys_npw ctx ⟨year, 1, 1⟩ ⟨year + 1, 1, 1⟩
      (days_in_year_of year) f hdiy)
    (dSum_npw_pos ctx ⟨year, 1, 1⟩ ⟨year + 1, 1, 1⟩
      (days_in_year_of year) f hdiy hf hnames hvkd)
    hpnd
    (parent_pool_sum_eq ctx ⟨year, 1, 1⟩ ⟨year + 1, 1, 1⟩
      (days_in_year_of year) pv hpnd hdiy hbase)
    hfacts.1
    hfacts.2.1
    (fun hfalse => by
      rw [parent_pool_of_not_sep ctx ⟨year, 1, 1⟩ ⟨year + 1, 1, 1⟩
        (days_in_year_of year) pv hfalse]
      exact ⟨rfl, rfl⟩)

theorem year_shares_parent_le (ctx : YearCtx) (year : ℤ) (f pv : ℚ)
    (hpnd : ctx.parents.Nodup) (hf : 0 < f) (hpv : 0 < pv)
    (hpf : ctx.parent_fraction ≤ 1)
    (hbase : ∀ p ∈ ctx.parents, 0 < dGet ctx.base p)
    (hcap : ctx.ci.parent_share_cap_25_enabled = true)
    (hsca : spouse_or_child_active ctx ⟨year, 1, 1⟩ ⟨year + 1, 1, 1⟩ = true)
    (hnames : ∀ d ∈ ctx.ci.dependents, d.person.name ≠ destekKey)
    (hvkd : ∀ k ∈ dKeys ctx.virtual_intervals, k ≠ destekKey)
    (hdnp : destekKey ∉ ctx.parents)
    (hplbl : ∀ p ∈ ctx.parents, p ≠ labelSpouse)
    (hpdk : ∀ p ∈ ctx.parents, p ≠ destekKey)
    (hksep : ∀ p ∈ ctx.parents, ∀ d ∈ ctx.ci.dependents, d.person.name = p →
      (d.dep_type = .MOTHER ∨ d.dep_type = .FATHER))
    (hvkp : ∀ p ∈ ctx.parents, ∀ k ∈ dKeys ctx.virtual_intervals, k ≠ p) :
    sumKeys (year_shares ctx year f pv) ctx.parents ≤
      pv * (1/4) + (1/1000000000 : ℚ) := by
  have hdiy : 0 < days_in_year_of year := days_in_year_pos_all year
  have hfacts := parent_pool_total_facts ctx ⟨year, 1, 1⟩ ⟨year + 1, 1, 1⟩
    (days_in_year_of year) pv (le_of_lt hpv) hpf
  have hpk := parent_pool_keys ctx ⟨year, 1, 1⟩ ⟨year + 1, 1, 1⟩
    (days_in_year_of year) pv hpnd
  rw [year_shares_eq]
  exact shares_pipeline_parent_le ctx year ⟨year, 1, 1⟩ ⟨year + 1, 1, 1⟩ ctx.ci
    ctx.parents pv _ _ _
    (nodup_dKeys_npw ctx ⟨year, 1, 1⟩ ⟨year + 1, 1, 1⟩
      (days_in_year_of year) f hdiy)
    (dSum_npw_pos ctx ⟨year, 1, 1⟩ ⟨year + 1, 1, 1⟩
      (days_in_year_of year) f hdiy hf hnames hvkd)
    hpnd
    (values_nonneg_npw ctx ⟨year, 1, 1⟩ ⟨year + 1, 1, 1⟩
      (days_in_year_of year) f hdiy (le_of_lt hf))
    hpv hcap
    hpk.1
    (fun q hq => (hpk.2 q hq).1)
    (parent_pool_sum_eq ctx ⟨year, 1, 1⟩ ⟨year + 1, 1, 1⟩
      (days_in_year_of year) pv hpnd hdiy hbase)
    (hfacts.2.2 hcap hsca)
    (fun hfalse => by
      rw [parent_pool_of_not_sep ctx ⟨year, 1, 1⟩ ⟨year + 1, 1, 1⟩
        (days_in_year_of year) pv hfalse]
      exact ⟨rfl, rfl⟩)
    (fun hsep p hp => dGet_npw_parent_sep ctx ⟨year, 1, 1⟩ ⟨year + 1, 1, 1⟩
      (days_in_year_of year) f p (hpdk p hp) hsep
      (fun d hd hn => hksep p hp d hd hn) (hvkp p hp))
    hdnp
    (by
      rw [dGet_npw_destek ctx ⟨year, 1, 1⟩ ⟨year + 1, 1, 1⟩
        (days_in_year_of year) f hnames hvkd]
      linarith)
    hplbl
    (fun p hp d hd hn hc => absurd hc.1 (by
      rcases hksep p hp d hd hn with hm | hm <;> simp [hm]))

/-! ## C10: pre-2016 dates fall through to the sentinel wage -/

/-- C10: for every date strictly before the first listed wage period
(2016-01-01), `get_min_wage_gross` returns the last period's gross wage
26005.50 (not a historical wage); consequently the family allowance for a
pre-2016 date in the allowance window (2008..2015) is computed from that
sentinel wage — e.g. 26005.50 · 50% · 15% / 12 = 162.53 for a single
childless worker. -/
theorem C10_pre2016_sentinel_wage (dt : Date)
    (h : dt.blt ⟨2016, 1, 1⟩ = true) :
    get_min_wage_gross dt = 52011/2 ∧
      (2008 ≤ dt.y → compute_agi dt false false 0 = 16253/100) := by
  have hnone :
      MIN_WAGE_PERIODS.find? (fun p => p.start.ble dt && dt.blt p.stop) = none := by
    rw [List.find?_eq_none]
    intro p hp
    have h16 : (Date.mk 2016 1 1).ble p.start = true := by
      fin_cases hp <;> decide
    have hble := date_ble_false_of ⟨2016, 1, 1⟩ dt p.start h h16
    simp [hble]
  have hgross : get_min_wage_gross dt = 52011/2 := by
    unfold get_min_wage_gross
    rw [hnone]
    rfl
  refine ⟨hgross, fun h2008 => ?_⟩
  have hy : dt.y < 2022 := by
    simp only [Date.blt_iff, show (Date.mk 2016 1 1).y = 2016 from rfl,
      show (Date.mk 2016 1 1).m = 1 from rfl,
      show (Date.mk 2016 1 1).d = 1 from rfl] at h
    omega
  have hpr : pyRound ((52011/320 : ℚ) * 100) = 16253 :=
    pyRound_eq_of_lt_half _ 16253 (by norm_num) (by norm_num)
  unfold compute_agi
  rw [if_neg (by omega), hgross]
  norm_num
  unfold pyRound2
  rw [hpr]
  norm_num

/-- Witness for C10 at 2010-06-01. -/
theorem C10_pre2016_sentinel_wage_witness :
    (Date.mk 2010 6 1).blt ⟨2016, 1, 1⟩ = true ∧
      get_min_wage_gross ⟨2010, 6, 1⟩ = 52011/2 ∧
      compute_agi ⟨2010, 6, 1⟩ false false 0 = 16253/100 := by
  have h : (Date.mk 2010 6 1).blt ⟨2016, 1, 1⟩ = true := by decide
  obtain ⟨h1, h2⟩ := C10_pre2016_sentinel_wage ⟨2010, 6, 1⟩ h
  exact ⟨h, h1, h2 (by norm_num)⟩

/-! ## C9: validation behaviour of `compute_support` -/

theorem anniv_isSome (ci : CalculationInput) (y : ℤ)
    (holay : ci.olay_tarihi.Valid)
    (hfeb : ¬(ci.olay_tarihi.m = 2 ∧ ci.olay_tarihi.d = 29))
    (hy1 : 1 ≤ y) (hy2 : y ≤ 9999) : (anniv ci y).isSome := by
  unfold anniv
  rw [if_pos]
  · rfl
  · obtain ⟨_, _, hm1, hm2, hd1, hd2⟩ := holay
    refine ⟨hy1, hy2, hm1, hm2, hd1, ?_⟩
    show ci.olay_tarihi.d ≤ daysInMonth y ci.olay_tarihi.m
    by_cases hm : ci.olay_tarihi.m = 2
    · have h28 : ci.olay_tarihi.d ≤ 28 := by
        have h29 := hd2
        unfold daysInMonth at h29
        rw [if_pos hm] at h29
        split at h29 <;> omega
      unfold daysInMonth
      rw [if_pos hm]
      split <;> omega
    · unfold daysInMonth at hd2 ⊢
      rw [if_neg hm] at hd2 ⊢
      split at hd2 <;> split <;> omega

set_option maxRecDepth 20000 in
/-- C9 counterexample: a valid-by-`_validate_input` input whose incident
date is Feb 29.  No validation error is raised, yet no result is
produced: the loop's `date(2021, 2, 29)` raises `ValueError`. -/
theorem C9_counterexample :
    validate_input cex9_input = none ∧
      compute_support cex9_input = .error (.date (.invalidDate 2021 2 29)) := by
  constructor
  · with_unfolding_all decide
  · with_unfolding_all decide

/-- C9 (amended): `compute_support` raises a validation error, before
any computation, exactly when one of the five input invariants fails
(valuation before incident; supporter born at or after the incident;
fault rate outside [0, 100]; negative report discount rate; negative
technical interest), and the first violated check, in source order, is
surfaced unchanged.  Passing validation does NOT guarantee a result: the
year loop's date construction crashes for a Feb-29 incident date in the
first non-leap year (see the counterexample), and `_add_years` raises
for out-of-calendar target years — date-range failure modes this
embedding totalises away and therefore does not certify. -/
theorem C9_validation (ci : CalculationInput) :
    ((validate_input ci).isSome ↔
      (ci.hesap_tarihi.blt ci.olay_tarihi = true ∨
        ci.olay_tarihi.ble ci.destek.birth = true ∨
        ¬(0 ≤ ci.fault_rate ∧ ci.fault_rate ≤ 100) ∨
        ci.report_discount_rate < 0 ∨ ci.technical_interest < 0)) ∧
    (∀ e, validate_input ci = some e →
      compute_support ci = .error (.validation e)) := by
  refine ⟨?_, ?_⟩
  · unfold validate_input
    split_ifs <;> simp_all
  · intro e he
    unfold compute_support
    rw [he]

/-- Witness for C9's amended theorem: an input whose fault rate is 150
trips exactly the third invariant, and `compute_support` surfaces that
validation error before any computation. -/
theorem C9_validation_witness :
    compute_support
      { default_input ⟨2020, 3, 1⟩ ⟨2020, 3, 1⟩ ⟨"D", ⟨1942, 6, 15⟩, .MALE⟩
          .MANUAL with fault_rate := 150 } =
      .error (.validation .faultRateOutOfRange) := by
  refine (C9_validation _).2 .faultRateOutOfRange ?_
  with_unfolding_all decide

/-! ## C6: the family-allowance (AGİ) formula -/

/-- C6 counterexample: at 2020-06-01 for a single childless worker the
code returns 18.39 (the +50% employee base applies), while the claim's
add-ons-only formula gives 0. -/
theorem C6_counterexample :
    compute_agi ⟨2020, 6, 1⟩ false false 0 = 1839/100 ∧
      agi_claim_formula ⟨2020, 6, 1⟩ false false 0 = 0 ∧
      compute_agi ⟨2020, 6, 1⟩ false false 0 ≠
        agi_claim_formula ⟨2020, 6, 1⟩ false false 0 := by
  have hb : get_min_wage_gross ⟨2020, 6, 1⟩ = 2943 := rfl
  have hcode : compute_agi ⟨2020, 6, 1⟩ false false 0 = 1839/100 := by
    have hpr : pyRound ((2943/160 : ℚ) * 100) = 1839 :=
      pyRound_eq_of_lt_half _ 1839 (by norm_num) (by norm_num)
    unfold compute_agi
    rw [if_neg (by norm_num), hb]
    norm_num
    unfold pyRound2
    rw [hpr]
    norm_num
  have hclaim : agi_claim_formula ⟨2020, 6, 1⟩ false false 0 = 0 := by
    unfold agi_claim_formula
    rw [if_neg (by norm_num)]
    norm_num
  refine ⟨hcode, hclaim, ?_⟩
  rw [hcode, hclaim]
  norm_num

/-- C6 (amended): the allowance equals the base 50% for the employee PLUS
the conditional add-ons (+10% for a spouse without own income, +7.5% each
for the 1st and 2nd child, +10% for the 3rd, +5% each for the 4th and
5th), multiplied by 15% of the gross minimum wage, divided by 12 and
rounded to 2 decimals; it is zero for dates whose year is outside
[2008, 2022). -/
theorem C6_agi_formula (dt : Date) (married spouse_has_income : Bool)
    (child_count : ℤ) :
    compute_agi dt married spouse_has_income child_count =
      if dt.y < 2008 ∨ 2022 ≤ dt.y then 0
      else
        pyRound2 (get_min_wage_gross dt *
          ((1/2 : ℚ) +
            ((if married ∧ ¬spouse_has_income then 1/10 else 0) +
              (if 1 ≤ child_count then 3/40 else 0) +
              (if 2 ≤ child_count then 3/40 else 0) +
              (if 3 ≤ child_count then 1/10 else 0) +
              (if 4 ≤ child_count then 1/20 else 0) +
              (if 5 ≤ child_count then 1/20 else 0))) * (3/20) / 12) := by
  unfold compute_agi
  split_ifs <;> first
    | rfl
    | (congr 1; ring)

/-! ## C5: the discounting step -/

set_option maxRecDepth 8000 in
theorem cexC5_range :
    intRange (mkYearCtx cexC5_input).supporter_start.y
      (mkYearCtx cexC5_input).supporter_end.y = [2020, 2021, 2022, 2023] := by
  with_unfolding_all decide

set_option maxRecDepth 8000 in
theorem cexC5_skips : ∀ y ∈ [(2020 : ℤ), 2021, 2023],
    yearBody (mkYearCtx cexC5_input) y = .ok none := by
  with_unfolding_all decide

set_option maxRecDepth 100000 in
theorem cexC5_row2022 :
    (match yearBody (mkYearCtx cexC5_input) 2022 with
     | .ok (some r) => some (r.year, r.gross_support, r.present_value)
     | _ => none) = some (2022, 12000, 1200000/121) := by
  with_unfolding_all rfl

/-- The concrete run behind C5's counterexample and witness: the only
emitted row is the 2022 one, with gross support 12000 and present value
12000 / 1.1². -/
theorem cexC5_spec :
    ∃ res row, compute_support cexC5_input = .ok res ∧ res.rows = [row] ∧
      row.year = 2022 ∧ row.gross_support = 12000 ∧
      row.present_value = 1200000/121 := by
  have hval : validate_input cexC5_input = none := by with_unfolding_all decide
  obtain ⟨r, hb22, hry, hrg, hrp⟩ :
      ∃ r, yearBody (mkYearCtx cexC5_input) 2022 = .ok (some r) ∧
        r.year = 2022 ∧ r.gross_support = 12000 ∧
        r.present_value = 1200000/121 := by
    have h := cexC5_row2022
    cases hb : yearBody (mkYearCtx cexC5_input) 2022 with
    | error e => rw [hb] at h; cases h
    | ok v =>
      cases v with
      | none => rw [hb] at h; cases h
      | some r =>
        rw [hb] at h
        simp only [Option.some_inj, Prod.mk.injEq] at h
        exact ⟨r, rfl, h.1, h.2.1, h.2.2⟩
  have hskip := cexC5_skips
  have h20 := hskip 2020 (by simp)
  have h21 := hskip 2021 (by simp)
  have h23 := hskip 2023 (by simp)
  have hbuild : build_rows (mkYearCtx cexC5_input) [2020, 2021, 2022, 2023] =
      .ok [r] := by
    simp only [build_rows]
    rw [h20, h21, hb22, h23]
    rfl
  have hcore : ∃ core, compute_core cexC5_input = .ok core ∧ core.rows = [r] := by
    unfold compute_core
    rw [cexC5_range, hbuild]
    exact ⟨_, rfl, rfl⟩
  obtain ⟨core, hc, hcr⟩ := hcore
  have hcs : ∃ res, compute_support cexC5_input = .ok res ∧ res.rows = [r] := by
    unfold compute_support
    rw [hval, hc]
    exact ⟨_, rfl, hcr⟩
  obtain ⟨res, hres, hrows⟩ := hcs
  exact ⟨res, r, hres, hrows, hry, hrg, hrp⟩

/-- C5 counterexample: progressive method, report rate 10%.  The only
emitted row lies two years after the valuation year, and its present
value is the COMPOUNDED 12000 / 1.1² = 1200000/121 ≈ 9917.36, which
differs from both readings of a flat (non-compounding) 10% discount over
two years (12000·(1−0.2) = 9600 and 12000/1.2 = 10000): the report rate
is applied compounding, exactly like the technical interest. -/
theorem C5_counterexample :
    ∃ res row, compute_support cexC5_input = .ok res ∧ row ∈ res.rows ∧
      cexC5_input.use_progresif = true ∧
      cexC5_input.report_discount_rate = 10 ∧
      row.year - cexC5_input.hesap_tarihi.y = 2 ∧
      row.gross_support = 12000 ∧
      row.present_value = 12000 * (1 / (1 + 10/100) ^ 2) ∧
      row.present_value ≠ 12000 * (1 - 2 * (10/100)) ∧
      row.present_value ≠ 12000 / (1 + 2 * (10/100)) := by
  obtain ⟨res, row, h1, hrows, hy, hg, hpv⟩ := cexC5_spec
  have h2 : row ∈ res.rows := by rw [hrows]; simp
  refine ⟨res, row, h1, h2, rfl, rfl, ?_, hg, ?_, ?_, ?_⟩
  · rw [hy]; rfl
  · rw [hpv]; norm_num
  · rw [hpv]; norm_num
  · rw [hpv]; norm_num

/-- C5 (amended): a year's present value applies a discount only for
years strictly after the valuation year; the rate is the report discount
rate when the progressive method is selected (and the rate is positive),
else the technical interest (when positive); EITHER way the factor is the
compounding 1/(1+rate)^k with k = years since valuation — the report-rate
discount is not flat. -/
theorem C5_present_value (ci : CalculationInput) (res : CalculationResult)
    (h : compute_support ci = .ok res) (row : YearRow)
    (hrow : row ∈ res.rows) :
    row.present_value =
      (if 0 < row.year - ci.hesap_tarihi.y ∧
          (0 : ℚ) <
            (if ci.use_progresif ∧ 0 < ci.report_discount_rate then
              ci.report_discount_rate / 100
            else if ¬ci.use_progresif ∧ 0 < ci.technical_interest then
              ci.technical_interest / 100
            else 0) then
        row.gross_support *
          (1 / (1 +
            (if ci.use_progresif ∧ 0 < ci.report_discount_rate then
              ci.report_discount_rate / 100
            else if ¬ci.use_progresif ∧ 0 < ci.technical_interest then
              ci.technical_interest / 100
            else 0)) ^ (row.year - ci.hesap_tarihi.y).toNat)
      else row.gross_support) := by
  have hb := compute_support_rows ci res h
  obtain ⟨y, hy, hbody⟩ := mem_build_rows _ _ _ hb row hrow
  obtain ⟨hsupp, yf, hyf, hpos, hrw⟩ := yearBody_ok_some _ _ _ hbody
  subst hrw
  rw [row_of_pv, row_of_year]
  rw [show (mkYearCtx ci).ci = ci from rfl]
  simp only [pv_of]
  split_ifs <;> first | rfl | tauto

/-- Witness for C5's amended theorem at the concrete input: the 2022 row's
present value is 12000/1.1². -/
theorem C5_present_value_witness :
    ∃ res row, compute_support cexC5_input = .ok res ∧ row ∈ res.rows ∧
      row.present_value = row.gross_support * (1 / (1 + (10 : ℚ)/100) ^ 2) := by
  obtain ⟨res, row, h1, hrows, hy, _, _⟩ := cexC5_spec
  have h2 : row ∈ res.rows := by rw [hrows]; simp
  have hthm := C5_present_value cexC5_input res h1 row h2
  have hu : cexC5_input.use_progresif = true := rfl
  have hr : cexC5_input.report_discount_rate = 10 := rfl
  have hh : cexC5_input.hesap_tarihi.y = 2020 := rfl
  refine ⟨res, row, h1, h2, ?_⟩
  rw [hthm, hy, hu, hr, hh, show ((2022 : ℤ) - 2020).toNat = 2 from rfl]
  norm_num

/-! ## C3: sign of the aggregate totals -/

set_option maxRecDepth 8000 in
theorem cexC3_range :
    intRange (mkYearCtx cexC3_input).supporter_start.y
      (mkYearCtx cexC3_input).supporter_end.y = intRange 2020 2081 := by
  with_unfolding_all decide

set_option maxRecDepth 100000 in
theorem cexC3_skips : ∀ y ∈ intRange 2020 2081,
    yearBody (mkYearCtx cexC3_input) y = .ok none := by
  with_unfolding_all decide

set_option maxRecDepth 100000 in
theorem cexC3_training :
    (training_of cexC3_input (total_by_person_of [])).1 = 132400/487 := by
  with_unfolding_all rfl

/-- The core of the run on `cexC3_input`: no rows, and the training
deduction 1000·12·5%·(18 − 17.55…) = 132400/487 ≈ 271.87 pushes the
totals to −132400/487. -/
theorem cexC3_core :
    ∃ core, compute_core cexC3_input = .ok core ∧
      core.total_support = -132400/487 ∧
      core.total_after_sgk = -132400/487 ∧
      core.training_total = 132400/487 := by
  have hbuild : build_rows (mkYearCtx cexC3_input) (intRange 2020 2081) =
      .ok [] := build_rows_nil _ _ cexC3_skips
  unfold compute_core
  rw [cexC3_range, hbuild]
  refine ⟨_, rfl, ?_, ?_, ?_⟩
  · show (([] : List YearRow).map YearRow.present_value).sum -
        (training_of cexC3_input (total_by_person_of [])).1 = -132400/487
    rw [cexC3_training]
    norm_num
  · show post_sgk_of cexC3_input
          ((([] : List YearRow).map YearRow.present_value).sum) -
        (training_of cexC3_input (total_by_person_of [])).1 = -132400/487
    rw [cexC3_training,
      show post_sgk_of cexC3_input
          ((([] : List YearRow).map YearRow.present_value).sum) = 0 by
        with_unfolding_all rfl]
    norm_num
  · exact cexC3_training

/-- The run on `cexC3_input` ends `ok` with every aggregate equal to
−132400/487 (fault rate 0). -/
theorem cexC3_spec :
    ∃ res, compute_support cexC3_input = .ok res ∧
      res.total_support = -132400/487 ∧
      res.total_after_sgk = -132400/487 ∧
      res.training_total = 132400/487 ∧
      res.total_after_fault = -132400/487 := by
  have hval : validate_input cexC3_input = none := by with_unfolding_all rfl
  obtain ⟨core, hc, h1, h2, h3⟩ := cexC3_core
  have hcs : compute_support cexC3_input = .ok
      ⟨core.rows, core.total_support, core.total_by_person,
       core.sgk_psd_deduction, core.total_after_sgk,
       core.total_after_sgk * (1 - cexC3_input.fault_rate / 100),
       core.training_total, core.supporter_start, core.supporter_end,
       core.dependent_intervals, core.virtual_intervals⟩ := by
    unfold compute_support
    rw [hval, hc]
  refine ⟨_, hcs, h1, h2, h3, ?_⟩
  show core.total_after_sgk * (1 - cexC3_input.fault_rate / 100) = -132400/487
  rw [h2, show cexC3_input.fault_rate = 0 from rfl]
  norm_num

/-- C3 counterexample: with all support rows empty but the training-cost
deduction active (minor supporter, working father), `total_support`,
`total_after_sgk` and `total_after_fault` are all −132400/487 < 0: the
0-floor is applied before the training deduction, never after it. -/
theorem C3_counterexample :
    ∃ res, compute_support cexC3_input = .ok res ∧
      res.total_support < 0 ∧ res.total_after_sgk < 0 ∧
      res.total_after_fault < 0 := by
  obtain ⟨res, hres, h1, h2, _, h4⟩ := cexC3_spec
  refine ⟨res, hres, ?_, ?_, ?_⟩
  · rw [h1]; norm_num
  · rw [h2]; norm_num
  · rw [h4]; norm_num

/-- C3 (amended): the 0-floor protects the aggregates only BEFORE the
training-cost deduction: `total_support + training_total` (the sum of
present values) and `total_after_sgk + training_total` (the floored SGK
result) are never negative, and when no training deduction applies all
three aggregates are nonnegative — but the training deduction itself is
applied after the floor and can drive all three negative. -/
theorem C3_totals_floor (ci : CalculationInput) (res : CalculationResult)
    (h : compute_support ci = .ok res) :
    0 ≤ res.total_support + res.training_total ∧
    0 ≤ res.total_after_sgk + res.training_total ∧
    (res.training_total = 0 →
      0 ≤ res.total_support ∧ 0 ≤ res.total_after_sgk ∧
        0 ≤ res.total_after_fault) := by
  obtain ⟨hval, core, hcore, rfl⟩ := compute_support_ok ci res h
  obtain ⟨rows, hrows, rfl⟩ := compute_core_spec ci core hcore
  have hS : 0 ≤ (rows.map YearRow.present_value).sum := by
    apply List.sum_nonneg
    intro x hx
    obtain ⟨r, hr, rfl⟩ := List.mem_map.1 hx
    exact build_rows_pv_nonneg _ _ _ hrows r hr
  have hP := post_sgk_nonneg ci ((rows.map YearRow.present_value).sum)
  refine ⟨?_, ?_, ?_⟩
  · show 0 ≤ ((rows.map YearRow.present_value).sum -
        (training_of ci (total_by_person_of rows)).1) +
      (training_of ci (total_by_person_of rows)).1
    linarith
  · show 0 ≤ (post_sgk_of ci ((rows.map YearRow.present_value).sum) -
        (training_of ci (total_by_person_of rows)).1) +
      (training_of ci (total_by_person_of rows)).1
    linarith
  · intro h0
    have ht0 : (training_of ci (total_by_person_of rows)).1 = 0 := h0
    obtain ⟨hf0, hf100⟩ := validate_none_fault ci hval
    refine ⟨?_, ?_, ?_⟩
    · show 0 ≤ (rows.map YearRow.present_value).sum -
        (training_of ci (total_by_person_of rows)).1
      rw [ht0]; linarith
    · show 0 ≤ post_sgk_of ci ((rows.map YearRow.present_value).sum) -
        (training_of ci (total_by_person_of rows)).1
      rw [ht0]; linarith
    · show 0 ≤ (post_sgk_of ci ((rows.map YearRow.present_value).sum) -
          (training_of ci (total_by_person_of rows)).1) *
        (1 - ci.fault_rate / 100)
      rw [ht0]
      apply mul_nonneg (by linarith)
      linarith

/-- Witness for C3's amended theorem on the concrete input: the
pre-training aggregates are nonnegative even though the final ones are
not. -/
theorem C3_totals_floor_witness :
    ∃ res, compute_support cexC3_input = .ok res ∧
      0 ≤ res.total_support + res.training_total ∧
      0 ≤ res.total_after_sgk + res.training_total := by
  obtain ⟨res, hres, _, _, _, _⟩ := cexC3_spec
  obtain ⟨h1, h2, _⟩ := C3_totals_floor cexC3_input res hres
  exact ⟨res, hres, h1, h2⟩

/-! ## C8: fault-rate monotonicity -/

set_option maxRecDepth 100000 in
theorem yearBody_fault_free (ci : CalculationInput) (f : ℚ) (y : ℤ) :
    yearBody (mkYearCtx { ci with fault_rate := f }) y =
      yearBody (mkYearCtx ci) y := by
  with_unfolding_all rfl

set_option maxRecDepth 100000 in
theorem compute_core_fault_free (ci : CalculationInput) (f : ℚ) :
    compute_core { ci with fault_rate := f } = compute_core ci := by
  unfold compute_core
  have hrange : intRange
      (mkYearCtx { ci with fault_rate := f }).supporter_start.y
      (mkYearCtx { ci with fault_rate := f }).supporter_end.y =
      intRange (mkYearCtx ci).supporter_start.y
        (mkYearCtx ci).supporter_end.y := by
    with_unfolding_all rfl
  rw [hrange, build_rows_congr _ _ (yearBody_fault_free ci f)]
  cases hb : build_rows (mkYearCtx ci)
      (intRange (mkYearCtx ci).supporter_start.y
        (mkYearCtx ci).supporter_end.y) with
  | error e => rfl
  | ok rows => with_unfolding_all rfl

/-- The run on `cexC8_input` (fault rate 50 on the same facts as
`cexC3_input`): the pre-fault aggregate is the same −132400/487, and the
fault reduction HALVES the negative amount to −66200/487. -/
theorem cexC8_spec :
    ∃ res, compute_support cexC8_input = .ok res ∧
      res.total_after_sgk = -132400/487 ∧
      res.total_after_fault = -66200/487 := by
  have hval : validate_input cexC8_input = none := by with_unfolding_all rfl
  have hcc : compute_core cexC8_input = compute_core cexC3_input :=
    compute_core_fault_free cexC3_input 50
  obtain ⟨core, hc, _, h2, _⟩ := cexC3_core
  have hcs : compute_support cexC8_input = .ok
      ⟨core.rows, core.total_support, core.total_by_person,
       core.sgk_psd_deduction, core.total_after_sgk,
       core.total_after_sgk * (1 - cexC8_input.fault_rate / 100),
       core.training_total, core.supporter_start, core.supporter_end,
       core.dependent_intervals, core.virtual_intervals⟩ := by
    unfold compute_support
    rw [hval, hcc, hc]
  refine ⟨_, hcs, h2, ?_⟩
  show core.total_after_sgk * (1 - cexC8_input.fault_rate / 100) = -66200/487
  rw [h2, show cexC8_input.fault_rate = 50 from rfl]
  norm_num

/-- C8 counterexample: on `cexC3_input`, whose pre-fault aggregate is the
negative −132400/487, RAISING the fault rate from 0 to 50 RAISES
`total_after_fault` from −132400/487 to −66200/487 (and neither value is
0): the claimed monotonicity fails once the training deduction has driven
the pre-fault total negative. -/
theorem C8_counterexample :
    cexC8_input = { cexC3_input with fault_rate := 50 } ∧
    cexC3_input.fault_rate < cexC8_input.fault_rate ∧
    ∃ res0 res50, compute_support cexC3_input = .ok res0 ∧
      compute_support cexC8_input = .ok res50 ∧
      res0.total_after_fault < res50.total_after_fault ∧
      res0.total_after_fault ≠ 0 := by
  refine ⟨rfl, ?_, ?_⟩
  · show (0 : ℚ) < 50
    norm_num
  · obtain ⟨res0, h0, _, _, _, hf0⟩ := cexC3_spec
    obtain ⟨res50, h50, _, hf50⟩ := cexC8_spec
    refine ⟨res0, res50, h0, h50, ?_, ?_⟩
    · rw [hf0, hf50]; norm_num
    · rw [hf0]; norm_num

/-- C8 (amended): with every other field held fixed, the pre-fault
aggregate `total_after_sgk` does not depend on the fault rate, and
`total_after_fault = total_after_sgk · (1 − fault_rate/100)`; hence a
larger fault rate strictly DECREASES `total_after_fault` when the
pre-fault aggregate is positive, leaves it unchanged (at 0) when it is 0,
and strictly INCREASES it when the training deduction has made the
pre-fault aggregate negative. -/
theorem C8_fault_monotonicity (ci : CalculationInput) (f1 f2 : ℚ)
    (res1 res2 : CalculationResult)
    (h1 : compute_support { ci with fault_rate := f1 } = .ok res1)
    (h2 : compute_support { ci with fault_rate := f2 } = .ok res2)
    (hf : f1 < f2) :
    res1.total_after_sgk = res2.total_after_sgk ∧
    (0 < res1.total_after_sgk →
      res2.total_after_fault < res1.total_after_fault) ∧
    (res1.total_after_sgk = 0 →
      res2.total_after_fault = res1.total_after_fault) ∧
    (res1.total_after_sgk < 0 →
      res1.total_after_fault < res2.total_after_fault) := by
  obtain ⟨hval1, core1, hc1, rfl⟩ := compute_support_ok _ res1 h1
  obtain ⟨hval2, core2, hc2, rfl⟩ := compute_support_ok _ res2 h2
  have hcc : core1 = core2 := by
    have e1 := compute_core_fault_free ci f1
    have e2 := compute_core_fault_free ci f2
    have hok : Except.ok (ε := DateError) core1 = .ok core2 := by
      rw [← hc1, ← hc2, e1, e2]
    exact Except.ok.inj hok
  subst hcc
  refine ⟨rfl, ?_, ?_, ?_⟩
  · intro hS
    show core1.total_after_sgk * (1 - f2 / 100) <
      core1.total_after_sgk * (1 - f1 / 100)
    have hs' : (0 : ℚ) < core1.total_after_sgk := hS
    apply mul_lt_mul_of_pos_left ?_ hs'
    linarith
  · intro hS
    have hs' : core1.total_after_sgk = (0 : ℚ) := hS
    show core1.total_after_sgk * (1 - f2 / 100) =
      core1.total_after_sgk * (1 - f1 / 100)
    rw [hs']
    ring
  · intro hS
    show core1.total_after_sgk * (1 - f1 / 100) <
      core1.total_after_sgk * (1 - f2 / 100)
    have hs' : core1.total_after_sgk < (0 : ℚ) := hS
    apply mul_lt_mul_of_neg_left ?_ hs'
    linarith

/-- Witness for C8's amended theorem at fault rates 0 < 50 on the
concrete negative-aggregate input. -/
theorem C8_fault_monotonicity_witness :
    ∃ res1 res2,
      compute_support { cexC3_input with fault_rate := 0 } = .ok res1 ∧
      compute_support { cexC3_input with fault_rate := 50 } = .ok res2 ∧
      res1.total_after_sgk = res2.total_after_sgk ∧
      (res1.total_after_sgk < 0 →
        res1.total_after_fault < res2.total_after_fault) := by
  obtain ⟨res1, h1, _, _, _, _⟩ := cexC3_spec
  obtain ⟨res2, h2, _, _⟩ := cexC8_spec
  have h1' : compute_support { cexC3_input with fault_rate := 0 } =
      .ok res1 := h1
  have h2' : compute_support { cexC3_input with fault_rate := 50 } =
      .ok res2 := h2
  obtain ⟨hs, _, _, hneg⟩ :=
    C8_fault_monotonicity cexC3_input 0 50 res1 res2 h1' h2' (by norm_num)
  exact ⟨res1, res2, h1', h2', hs, hneg⟩

/-! ## C7: which years get a row -/

/-- C7 counterexample: on `cexC5_input` the supporter is alive for all of
2020 (366 support days), yet no row is emitted for 2020 — its computed
yearly support is 0 (pre-active-age year), and the loop `continue`s past
zero-support years instead of emitting a zero row. -/
theorem C7_counterexample :
    ∃ res, compute_support cexC5_input = .ok res ∧
      0 < supp_days_of (mkYearCtx cexC5_input) 2020 ∧
      2020 ∈ intRange (mkYearCtx cexC5_input).supporter_start.y
        (mkYearCtx cexC5_input).supporter_end.y ∧
      ∀ row ∈ res.rows, row.year ≠ 2020 := by
  obtain ⟨res, row, hres, hrows, hy, _, _⟩ := cexC5_spec
  refine ⟨res, hres, ?_, ?_, ?_⟩
  · with_unfolding_all decide
  · rw [cexC5_range]
    with_unfolding_all decide
  · intro r hr
    rw [hrows] at hr
    rw [List.mem_singleton] at hr
    subst hr
    rw [hy]
    norm_num

/-- C7 (amended): within the loop years (supporter start year .. supporter
end year), exactly one row is emitted for each year whose supporter
overlap is positive AND whose computed yearly support is positive; a year
with supporter presence but zero computed support is skipped, not emitted
as a zero row. -/
theorem C7_rows_exactly (ci : CalculationInput) (res : CalculationResult)
    (h : compute_support ci = .ok res) :
    (res.rows.map YearRow.year).Nodup ∧
    ∀ y : ℤ, (∃ row ∈ res.rows, row.year = y) ↔
      (y ∈ intRange (mkYearCtx ci).supporter_start.y
          (mkYearCtx ci).supporter_end.y ∧
        0 < supp_days_of (mkYearCtx ci) y ∧
        ∃ yf, yearly_support ci y = some yf ∧ 0 < yf) := by
  have hb := compute_support_rows ci res h
  constructor
  · exact (build_rows_years_sublist _ _ _ hb).nodup (nodup_intRange _ _)
  · intro y
    constructor
    · rintro ⟨row, hrow, rfl⟩
      obtain ⟨z, hz, hbody⟩ := mem_build_rows _ _ _ hb row hrow
      obtain ⟨hsupp, yf, hyf, hpos, rfl⟩ := yearBody_ok_some _ _ _ hbody
      rw [row_of_year]
      exact ⟨hz, hsupp, yf, hyf, hpos⟩
    · rintro ⟨hy, hsupp, yf, hyf, hpos⟩
      have hbody : yearBody (mkYearCtx ci) y = .ok (some (row_of (mkYearCtx ci) y yf)) :=
        yearBody_of_conditions _ _ _ hsupp hyf hpos
      exact ⟨row_of (mkYearCtx ci) y yf,
        build_rows_mem_of _ _ _ hb y hy _ hbody, row_of_year _ _ _⟩

/-- Witness for C7's amended theorem on `cexC5_input`: the year list is
duplicate-free and a row exists for 2022. -/
theorem C7_rows_exactly_witness :
    ∃ res, compute_support cexC5_input = .ok res ∧
      (res.rows.map YearRow.year).Nodup ∧
      (∃ row ∈ res.rows, row.year = 2022) := by
  obtain ⟨res, row, hres, hrows, hy, _, _⟩ := cexC5_spec
  obtain ⟨hnd, _⟩ := C7_rows_exactly cexC5_input res hres
  exact ⟨res, hres, hnd, row, by rw [hrows]; simp, hy⟩

/-! ## C1: the per-year share sum -/

set_option maxRecDepth 8000 in
theorem cexC1_range :
    intRange (mkYearCtx cexC1_input).supporter_start.y
      (mkYearCtx cexC1_input).supporter_end.y = [2020, 2021, 2022, 2023] := by
  with_unfolding_all decide

set_option maxRecDepth 100000 in
theorem cexC1_skips : ∀ y ∈ [(2020 : ℤ), 2021, 2023],
    yearBody (mkYearCtx cexC1_input) y = .ok none := by
  with_unfolding_all decide

set_option maxRecDepth 100000 in
theorem cexC1_row2022 :
    (match yearBody (mkYearCtx cexC1_input) 2022 with
     | .ok (some r) => some (r.present_value, dSum r.shares)
     | _ => none) = some (12000, 11880) := by
  with_unfolding_all rfl

/-- The concrete run behind C1's counterexample: the only emitted row is
the 2022 one, with present value 12000 but share sum 11880 (the spouse's
half was scaled by the AYİM factor 0.98). -/
theorem cexC1_spec :
    ∃ res row, compute_support cexC1_input = .ok res ∧ res.rows = [row] ∧
      row.present_value = 12000 ∧ dSum row.shares = 11880 := by
  have hval : validate_input cexC1_input = none := by with_unfolding_all decide
  obtain ⟨r, hb22, hrp, hrs⟩ :
      ∃ r, yearBody (mkYearCtx cexC1_input) 2022 = .ok (some r) ∧
        r.present_value = 12000 ∧ dSum r.shares = 11880 := by
    have h := cexC1_row2022
    cases hb : yearBody (mkYearCtx cexC1_input) 2022 with
    | error e => rw [hb] at h; cases h
    | ok v =>
      cases v with
      | none => rw [hb] at h; cases h
      | some r =>
        rw [hb] at h
        simp only [Option.some_inj, Prod.mk.injEq] at h
        exact ⟨r, rfl, h.1, h.2⟩
  have h20 := cexC1_skips 2020 (by simp)
  have h21 := cexC1_skips 2021 (by simp)
  have h23 := cexC1_skips 2023 (by simp)
  have hbuild : build_rows (mkYearCtx cexC1_input) [2020, 2021, 2022, 2023] =
      .ok [r] := by
    simp only [build_rows]
    rw [h20, h21, hb22, h23]
    rfl
  obtain ⟨core, hc, hcr⟩ : ∃ core, compute_core cexC1_input = .ok core ∧
      core.rows = [r] := by
    unfold compute_core
    rw [cexC1_range, hbuild]
    exact ⟨_, rfl, rfl⟩
  obtain ⟨res, hres, hrows⟩ : ∃ res, compute_support cexC1_input = .ok res ∧
      res.rows = [r] := by
    unfold compute_support
    rw [hval, hc]
    exact ⟨_, rfl, hcr⟩
  exact ⟨res, r, hres, hrows, hrp, hrs⟩

/-- C1 counterexample: with a spouse subject to the AYİM remarriage
discount, the values of the emitted YearRow's FINAL shares mapping sum to
11880 while the row's present value is 12000 — even though the input has
no parent dependents at all, so the 25% cap correction never touches the
shares.  The claimed share-sum identity fails for the final per-party
share amounts. -/
theorem C1_counterexample :
    ∃ res row, compute_support cexC1_input = .ok res ∧ row ∈ res.rows ∧
      parent_names cexC1_input = [] ∧
      dSum row.shares ≠ row.present_value := by
  obtain ⟨res, row, hres, hrows, hpv, hsum⟩ := cexC1_spec
  refine ⟨res, row, hres, by rw [hrows]; simp, by decide, ?_⟩
  rw [hpv, hsum]
  norm_num

/-- C1 (amended): when the AYİM remarriage discount is off, the values of
every emitted YearRow's final shares mapping sum EXACTLY to that row's
present value — through the separate parent pool, the 25% cap correction
(binding or not) and the normalisation alike. -/
theorem C1_shares_sum (ci : CalculationInput) (res : CalculationResult)
    (h : compute_support ci = .ok res) (hn : NamesOk ci)
    (hayim : ci.apply_ayim = false) (row : YearRow) (hrow : row ∈ res.rows) :
    dSum row.shares = row.present_value := by
  have hb := compute_support_rows ci res h
  have hpv0 : 0 ≤ row.present_value := build_rows_pv_nonneg _ _ _ hb row hrow
  obtain ⟨y, hy, hbody⟩ := mem_build_rows _ _ _ hb row hrow
  obtain ⟨hsupp, yf, hyf, hpos, hrw⟩ := yearBody_ok_some _ _ _ hbody
  subst hrw
  rw [row_of_shares]
  exact year_shares_dSum (mkYearCtx ci) y _ _
    hayim
    (parent_names_nodup ci hn.1)
    hpv0
    (div_pos (by exact_mod_cast hsupp) (by exact_mod_cast days_in_year_pos_all y))
    (parent_fraction_bounds ci hn.1).2
    (base_pos_on_parents ci hn.1)
    (fun d hd => (hn.2 d hd).1)
    (fun k hk => by
      rcases virtual_keys ci _ k hk with hlb | hlb | hlb <;> rw [hlb] <;> decide)

set_option maxRecDepth 8000 in
theorem cexC1w_range :
    intRange (mkYearCtx cexC1w).supporter_start.y
      (mkYearCtx cexC1w).supporter_end.y = [2020, 2021, 2022, 2023] := by
  with_unfolding_all decide

set_option maxRecDepth 100000 in
theorem cexC1w_skips : ∀ y ∈ [(2020 : ℤ), 2021, 2023],
    yearBody (mkYearCtx cexC1w) y = .ok none := by
  with_unfolding_all decide

set_option maxRecDepth 100000 in
theorem cexC1w_row2022 :
    (match yearBody (mkYearCtx cexC1w) 2022 with
     | .ok (some _) => true
     | _ => false) = true := by
  with_unfolding_all rfl

theorem cexC1w_spec :
    ∃ res row, compute_support cexC1w = .ok res ∧ res.rows = [row] := by
  have hval : validate_input cexC1w = none := by with_unfolding_all decide
  obtain ⟨r, hb22⟩ : ∃ r, yearBody (mkYearCtx cexC1w) 2022 = .ok (some r) := by
    have h := cexC1w_row2022
    cases hb : yearBody (mkYearCtx cexC1w) 2022 with
    | error e => rw [hb] at h; cases h
    | ok v =>
      cases v with
      | none => rw [hb] at h; cases h
      | some r => exact ⟨r, rfl⟩
  have h20 := cexC1w_skips 2020 (by simp)
  have h21 := cexC1w_skips 2021 (by simp)
  have h23 := cexC1w_skips 2023 (by simp)
  have hbuild : build_rows (mkYearCtx cexC1w) [2020, 2021, 2022, 2023] =
      .ok [r] := by
    simp only [build_rows]
    rw [h20, h21, hb22, h23]
    rfl
  obtain ⟨core, hc, hcr⟩ : ∃ core, compute_core cexC1w = .ok core ∧
      core.rows = [r] := by
    unfold compute_core
    rw [cexC1w_range, hbuild]
    exact ⟨_, rfl, rfl⟩
  obtain ⟨res, hres, hrows⟩ : ∃ res, compute_support cexC1w = .ok res ∧
      res.rows = [r] := by
    unfold compute_support
    rw [hval, hc]
    exact ⟨_, rfl, hcr⟩
  exact ⟨res, r, hres, hrows⟩

/-- Witness for the amended C1 at a concrete ayim-free input: the 2022
row's share sum equals its present value. -/
theorem C1_shares_sum_witness :
    ∃ res row, compute_support cexC1w = .ok res ∧ row ∈ res.rows ∧
      dSum row.shares = row.present_value := by
  obtain ⟨res, row, hres, hrows⟩ := cexC1w_spec
  have hmem : row ∈ res.rows := by rw [hrows]; simp
  exact ⟨res, row, hres, hmem,
    C1_shares_sum cexC1w res hres (by decide) rfl row hmem⟩

/-! ## C2: the 25% parent cap -/

/-- C2 (confirmed): whenever the 25% parent cap is enabled and a spouse
or child (real or virtual) is active in an emitted year, the total of
that YearRow's final share amounts over the parent (MOTHER/FATHER)
dependents' names is at most 25% of the row's present value plus the
code's 1e-9 comparison epsilon — in the separate-parent-pool mode (the
pool total itself is capped) and in the single-pool mode (the cap
correction rescales the parents) alike. -/
theorem C2_parent_cap (ci : CalculationInput) (res : CalculationResult)
    (h : compute_support ci = .ok res) (hn : NamesOk ci)
    (hcap : ci.parent_share_cap_25_enabled = true)
    (row : YearRow) (hrow : row ∈ res.rows)
    (hsca : spouse_or_child_active (mkYearCtx ci) ⟨row.year, 1, 1⟩
      ⟨row.year + 1, 1, 1⟩ = true) :
    sumKeys row.shares (parent_names ci) ≤
      row.present_value * (1/4) + (1/1000000000 : ℚ) := by
  have hb := compute_support_rows ci res h
  obtain ⟨y, hy, hbody⟩ := mem_build_rows _ _ _ hb row hrow
  obtain ⟨hsupp, yf, hyf, hpos, hrw⟩ := yearBody_ok_some _ _ _ hbody
  subst hrw
  rw [row_of_year] at hsca
  have hpvpos : 0 < (row_of (mkYearCtx ci) y yf).present_value := by
    rw [row_of_pv]
    apply pv_of_pos
    rw [row_of_gross]
    apply mul_pos hpos
    apply div_pos
    · exact_mod_cast hsupp
    · exact_mod_cast days_in_year_pos_all y
  rw [row_of_shares,
    show parent_names ci = (mkYearCtx ci).parents from rfl]
  exact year_shares_parent_le (mkYearCtx ci) y _ _
    (parent_names_nodup ci hn.1)
    (div_pos (by exact_mod_cast hsupp) (by exact_mod_cast days_in_year_pos_all y))
    hpvpos
    (parent_fraction_bounds ci hn.1).2
    (base_pos_on_parents ci hn.1)
    hcap hsca
    (fun d hd => (hn.2 d hd).1)
    (fun k hk => by
      rcases virtual_keys ci _ k hk with hlb | hlb | hlb <;> rw [hlb] <;> decide)
    (fun hmem => by
      obtain ⟨d, hd, _, hname⟩ := (mem_parent_names ci destekKey).1 hmem
      exact (hn.2 d hd).1 hname)
    (fun p hp => (parent_name_props ci hn p hp).2.1)
    (fun p hp => (parent_name_props ci hn p hp).1)
    (fun p hp => (parent_name_props ci hn p hp).2.2.2.2)
    (fun p hp k hk => by
      rcases virtual_keys ci _ k hk with hlb | hlb | hlb <;> rw [hlb]
      · exact fun e => (parent_name_props ci hn p hp).2.1 e.symm
      · exact fun e => (parent_name_props ci hn p hp).2.2.1 e.symm
      · exact fun e => (parent_name_props ci hn p hp).2.2.2.1 e.symm)

set_option maxRecDepth 8000 in
theorem cexC2_range :
    intRange (mkYearCtx cexC2_input).supporter_start.y
      (mkYearCtx cexC2_input).supporter_end.y = [2020, 2021, 2022, 2023] := by
  with_unfolding_all decide

set_option maxRecDepth 100000 in
theorem cexC2_skips : ∀ y ∈ [(2020 : ℤ), 2021, 2023],
    yearBody (mkYearCtx cexC2_input) y = .ok none := by
  with_unfolding_all decide

set_option maxRecDepth 100000 in
theorem cexC2_row2022 :
    (match yearBody (mkYearCtx cexC2_input) 2022 with
     | .ok (some r) => some (r.year, r.present_value,
         sumKeys r.shares (parent_names cexC2_input))
     | _ => none) = some (2022, 12000, 2400) := by
  with_unfolding_all rfl

set_option maxRecDepth 100000 in
theorem cexC2_sca :
    spouse_or_child_active (mkYearCtx cexC2_input) ⟨2022, 1, 1⟩
      ⟨2023, 1, 1⟩ = true := by
  with_unfolding_all rfl

theorem cexC2_spec :
    ∃ res row, compute_support cexC2_input = .ok res ∧ res.rows = [row] ∧
      row.year = 2022 := by
  have hval : validate_input cexC2_input = none := by with_unfolding_all decide
  obtain ⟨r, hb22, hry⟩ :
      ∃ r, yearBody (mkYearCtx cexC2_input) 2022 = .ok (some r) ∧
        r.year = 2022 := by
    have h := cexC2_row2022
    cases hb : yearBody (mkYearCtx cexC2_input) 2022 with
    | error e => rw [hb] at h; cases h
    | ok v =>
      cases v with
      | none => rw [hb] at h; cases h
      | some r =>
        rw [hb] at h
        simp only [Option.some_inj, Prod.mk.injEq] at h
        exact ⟨r, rfl, h.1⟩
  have h20 := cexC2_skips 2020 (by simp)
  have h21 := cexC2_skips 2021 (by simp)
  have h23 := cexC2_skips 2023 (by simp)
  have hbuild : build_rows (mkYearCtx cexC2_input) [2020, 2021, 2022, 2023] =
      .ok [r] := by
    simp only [build_rows]
    rw [h20, h21, hb22, h23]
    rfl
  obtain ⟨core, hc, hcr⟩ : ∃ core, compute_core cexC2_input = .ok core ∧
      core.rows = [r] := by
    unfold compute_core
    rw [cexC2_range, hbuild]
    exact ⟨_, rfl, rfl⟩
  obtain ⟨res, hres, hrows⟩ : ∃ res, compute_support cexC2_input = .ok res ∧
      res.rows = [r] := by
    unfold compute_support
    rw [hval, hc]
    exact ⟨_, rfl, hcr⟩
  exact ⟨res, r, hres, hrows, hry⟩

/-- Witness for C2 at a concrete input with a spouse and a mother: the
2022 row allocates the mother 2400 ≤ 12000/4 + 1e-9. -/
theorem C2_parent_cap_witness :
    ∃ res row, compute_support cexC2_input = .ok res ∧ row ∈ res.rows ∧
      sumKeys row.shares (parent_names cexC2_input) ≤
        row.present_value * (1/4) + (1/1000000000 : ℚ) := by
  obtain ⟨res, row, hres, hrows, hry⟩ := cexC2_spec
  have hmem : row ∈ res.rows := by rw [hrows]; simp
  exact ⟨res, row, hres, hmem,
    C2_parent_cap cexC2_input res hres (by decide) rfl row hmem
      (by rw [hry]; exact cexC2_sca)⟩

/-! ## C4: dependent eligibility intervals -/

/-- C4 (confirmed): for every dependent, the recorded interval is exactly
`dependent_interval` — start = max(incident, birth), end = min(own
expected death, child support cutoff from custom years / thresholds,
custom exit override, supporter's expected death), `none` (not an error)
when end ≤ start — and a dependent whose interval is `none` receives
exactly 0 in every emitted YearRow's shares. -/
theorem C4_dependent_intervals (ci : CalculationInput)
    (res : CalculationResult) (h : compute_support ci = .ok res)
    (hn : NamesOk ci) (d : Dependent) (hd : d ∈ ci.dependents) :
    dFind? res.dependent_intervals d.person.name =
      some (dependent_interval ci res.supporter_end d) ∧
    (dependent_interval ci res.supporter_end d = none →
      ∀ row ∈ res.rows, dGet row.shares d.person.name = 0) := by
  obtain ⟨hval, core, hcore, rfl⟩ := compute_support_ok ci res h
  obtain ⟨rows, hrows, rfl⟩ := compute_core_spec ci core hcore
  constructor
  · exact dFind?_dep_intervals_of ci
      (expected_death_date ci.destek.birth ci.destek.gender ci) hn.1 d hd
  · intro hnone row hrow
    have hnone2 : dependent_interval ci
        (expected_death_date ci.destek.birth ci.destek.gender ci) d = none :=
      hnone
    obtain ⟨y, hy, hbody⟩ := mem_build_rows _ _ _ hrows row hrow
    obtain ⟨hsupp, yf, hyf, hpos, hrw⟩ := yearBody_ok_some _ _ _ hbody
    subst hrw
    rw [row_of_shares]
    apply dGet_year_shares_zero
    · exact parent_names_nodup ci hn.1
    · exact (hn.2 d hd).1
    · show (dFind? (dep_intervals_of ci
        (expected_death_date ci.destek.birth ci.destek.gender ci))
          d.person.name).getD none = none
      rw [dFind?_dep_intervals_of ci
        (expected_death_date ci.destek.birth ci.destek.gender ci) hn.1 d hd,
        hnone2]
      rfl
    · intro k hk
      rcases virtual_keys ci _ k hk with hlb | hlb | hlb <;> rw [hlb]
      · exact fun e => (hn.2 d hd).2.1 e.symm
      · exact fun e => (hn.2 d hd).2.2.1 e.symm
      · exact fun e => (hn.2 d hd).2.2.2 e.symm

set_option maxRecDepth 8000 in
theorem cexC4_range :
    intRange (mkYearCtx cexC4_input).supporter_start.y
      (mkYearCtx cexC4_input).supporter_end.y = [2020, 2021, 2022, 2023] := by
  with_unfolding_all decide

set_option maxRecDepth 100000 in
theorem cexC4_skips : ∀ y ∈ [(2020 : ℤ), 2021, 2023],
    yearBody (mkYearCtx cexC4_input) y = .ok none := by
  with_unfolding_all decide

set_option maxRecDepth 100000 in
theorem cexC4_row2022 :
    (match yearBody (mkYearCtx cexC4_input) 2022 with
     | .ok (some _) => true
     | _ => false) = true := by
  with_unfolding_all rfl

theorem cexC4_spec :
    ∃ res row, compute_support cexC4_input = .ok res ∧ res.rows = [row] := by
  have hval : validate_input cexC4_input = none := by with_unfolding_all decide
  obtain ⟨r, hb22⟩ : ∃ r, yearBody (mkYearCtx cexC4_input) 2022 = .ok (some r) := by
    have h := cexC4_row2022
    cases hb : yearBody (mkYearCtx cexC4_input) 2022 with
    | error e => rw [hb] at h; cases h
    | ok v =>
      cases v with
      | none => rw [hb] at h; cases h
      | some r => exact ⟨r, rfl⟩
  have h20 := cexC4_skips 2020 (by simp)
  have h21 := cexC4_skips 2021 (by simp)
  have h23 := cexC4_skips 2023 (by simp)
  have hbuild : build_rows (mkYearCtx cexC4_input) [2020, 2021, 2022, 2023] =
      .ok [r] := by
    simp only [build_rows]
    rw [h20, h21, hb22, h23]
    rfl
  obtain ⟨core, hc, hcr⟩ : ∃ core, compute_core cexC4_input = .ok core ∧
      core.rows = [r] := by
    unfold compute_core
    rw [cexC4_range, hbuild]
    exact ⟨_, rfl, rfl⟩
  obtain ⟨res, hres, hrows⟩ : ∃ res, compute_support cexC4_input = .ok res ∧
      res.rows = [r] := by
    unfold compute_support
    rw [hval, hc]
    exact ⟨_, rfl, hcr⟩
  exact ⟨res, r, hres, hrows⟩

/-- Witness for C4 at a concrete input whose child dependent has a custom
exit date before the interval start (the claim's boundary case). -/
theorem C4_dependent_intervals_witness :
    ∃ res, compute_support cexC4_input = .ok res ∧
      dFind? res.dependent_intervals cexC4_dep.person.name =
        some (dependent_interval cexC4_input res.supporter_end cexC4_dep) ∧
      (dependent_interval cexC4_input res.supporter_end cexC4_dep = none →
        ∀ row ∈ res.rows, dGet row.shares cexC4_dep.person.name = 0) := by
  obtain ⟨res, row, hres, hrows⟩ := cexC4_spec
  obtain ⟨h1, h2⟩ := C4_dependent_intervals cexC4_input res hres (by decide)
    cexC4_dep (List.mem_singleton.2 rfl)
  exact ⟨res, hres, h1, h2⟩

end DYK
